import Mathlib

/-!
Verification of the validation-and-generation core of `AddressCmdTool.py`.

Python strings are modelled as `List Char`; a Python function that can raise
is modelled as an `Option`- or `Except`-valued function.  The functions of the
`ipaddress` standard-library module that the tool calls (`ip_address`,
`ip_network(strict=False)` and the `str` forms of the resulting objects) are
embedded from the CPython 3.11 sources of `ipaddress.py`, since the behaviour
of `normalize_ip_or_cidr` is exactly their behaviour.
-/

namespace AddressCmdTool

/-- Characters that Python treats as whitespace: `str.isspace()` and (for
`str` patterns) the regex class `\s` agree on exactly this set of code points. -/
def pyIsSpace (c : Char) : Bool :=
  ([0x9, 0xa, 0xb, 0xc, 0xd, 0x1c, 0x1d, 0x1e, 0x1f, 0x20, 0x85, 0xa0,
    0x1680, 0x2000, 0x2001, 0x2002, 0x2003, 0x2004, 0x2005, 0x2006, 0x2007,
    0x2008, 0x2009, 0x200a, 0x2028, 0x2029, 0x202f, 0x205f, 0x3000] : List Nat).contains c.toNat

/-- Python `str.strip()`: remove leading and trailing whitespace. -/
def pyStrip (s : List Char) : List Char :=
  ((s.dropWhile pyIsSpace).reverse.dropWhile pyIsSpace).reverse

/-- Python `str.split(sep)` for a one-character separator: the result always
has `count sep + 1` parts, and splitting the empty string gives `[[]]`. -/
def splitChar (sep : Char) : List Char → List (List Char)
  | [] => [[]]
  | c :: cs =>
    match splitChar sep cs with
    | [] => [[]]
    | p :: ps => if c = sep then [] :: p :: ps else (c :: p) :: ps

/-- Python `str.partition(sep)` for a one-character separator, returning
`none` when the separator does not occur. -/
def partitionChar (sep : Char) : List Char → Option (List Char × List Char)
  | [] => none
  | c :: cs =>
    if c = sep then some ([], cs)
    else (partitionChar sep cs).map (fun p => (c :: p.1, p.2))

/-- ASCII decimal digit (Python `c.isascii() and c.isdigit()`). -/
def isAsciiDigit (c : Char) : Bool := 0x30 ≤ c.toNat && c.toNat ≤ 0x39

/-- ASCII hexadecimal digit (the module's `_HEX_DIGITS` set). -/
def isHexDigitChar (c : Char) : Bool :=
  isAsciiDigit c || (0x61 ≤ c.toNat && c.toNat ≤ 0x66) || (0x41 ≤ c.toNat && c.toNat ≤ 0x46)

/-- Value of an ASCII decimal digit. -/
def digitVal (c : Char) : Nat := c.toNat - 0x30

/-- Value of an ASCII hexadecimal digit (as accepted by Python `int(s, 16)`). -/
def hexVal (c : Char) : Nat :=
  if isAsciiDigit c then c.toNat - 0x30
  else if 0x61 ≤ c.toNat && c.toNat ≤ 0x66 then c.toNat - 0x57
  else c.toNat - 0x37

/-- The decimal digit character for `n < 10` (Python `'%d'` formatting). -/
def digitChar (n : Nat) : Char := Char.ofNat (0x30 + n)

/-- The lower-case hexadecimal digit character for `n < 16`
(Python `'%x'` formatting). -/
def hexChar (n : Nat) : Char :=
  if n < 10 then Char.ofNat (0x30 + n) else Char.ofNat (0x57 + n)

/-- Fuelled helper for `natDec`; the fuel only forces structural recursion
and never runs out when it exceeds `n`. -/
def natDecAux : Nat → Nat → List Char
  | 0, _ => []
  | fuel + 1, n =>
    if n < 10 then [digitChar n]
    else natDecAux fuel (n / 10) ++ [digitChar (n % 10)]

/-- Decimal rendering of a natural number (Python `'%d' % n` / `str(n)`). -/
def natDec (n : Nat) : List Char := natDecAux (n + 1) n

/-- Fuelled helper for `natHex`; the fuel only forces structural recursion
and never runs out when it exceeds `n`. -/
def natHexAux : Nat → Nat → List Char
  | 0, _ => []
  | fuel + 1, n =>
    if n < 16 then [hexChar n]
    else natHexAux fuel (n / 16) ++ [hexChar (n % 16)]

/-- Lower-case hexadecimal rendering of a natural number (Python `'%x' % n`). -/
def natHex (n : Nat) : List Char := natHexAux (n + 1) n

/-- Numeric value of a string of decimal digits (Python `int(s, 10)` on an
all-digit string). -/
def decDigitsToNat (s : List Char) : Nat := s.foldl (fun a c => a * 10 + digitVal c) 0

/-- Numeric value of a string of hexadecimal digits (Python `int(s, 16)` on an
all-hex-digit string). -/
def hexDigitsToNat (s : List Char) : Nat := s.foldl (fun a c => a * 16 + hexVal c) 0

/-- The list of base-`B` digits of `n`, most significant first, padded to
exactly `k` digits (Python `int.to_bytes` for `B = 256`, and the hextet
extraction from `'%032x' % n` for `B = 65536`). -/
def baseGroups (B n : Nat) : Nat → List Nat
  | 0 => []
  | k + 1 => n / B ^ k % B :: baseGroups B n k

/-- Python `sep.join(parts)` for a one-character separator. -/
def joinSep (sep : Char) : List (List Char) → List Char
  | [] => []
  | [p] => p
  | p :: q :: r => p ++ sep :: joinSep sep (q :: r)

/-! ## IPv4: `ipaddress._BaseV4` -/

/-- `ipaddress._BaseV4._parse_octet`: a decimal octet, at most three ASCII
digits, no leading zero, value at most 255. -/
def parse_octet (s : List Char) : Option Nat :=
  if s = [] then none
  else if ¬ s.all isAsciiDigit then none
  else if 3 < s.length then none
  else if s ≠ ['0'] ∧ s.headD ' ' = '0' then none
  else if 255 < decDigitsToNat s then none
  else some (decDigitsToNat s)

/-- `ipaddress._BaseV4._ip_int_from_string`: exactly four octets joined by
`'.'`, combined big-endian. -/
def ipv4_int_from_string (s : List Char) : Option Nat :=
  if s = [] then none
  else
    match splitChar '.' s with
    | [o1, o2, o3, o4] =>
      match parse_octet o1, parse_octet o2, parse_octet o3, parse_octet o4 with
      | some a, some b, some c, some d => some (((a * 256 + b) * 256 + c) * 256 + d)
      | _, _, _, _ => none
    | _ => none

/-- `ipaddress.IPv4Address.__init__` on a string: rejects any `'/'`, then
parses the dotted-decimal form. -/
def ipv4_address_from_string (s : List Char) : Option Nat :=
  if s.contains '/' then none else ipv4_int_from_string s

/-- `ipaddress._BaseV4._string_from_ip_int`: dotted decimal notation. -/
def ipv4_string_from_int (n : Nat) : List Char :=
  joinSep '.' ((baseGroups 256 n 4).map natDec)

/-! ## IPv6: `ipaddress._BaseV6` -/

/-- `ipaddress._BaseV6._parse_hextet`: at most four ASCII hex digits; the
empty string is rejected (Python `int('', 16)` raises). -/
def parse_hextet (s : List Char) : Option Nat :=
  if ¬ s.all isHexDigitChar then none
  else if 4 < s.length then none
  else if s = [] then none
  else some (hexDigitsToNat s)

/-- Index of the first empty part, if any. -/
def firstEmptyIdx : List (List Char) → Option Nat
  | [] => none
  | x :: xs => if x = [] then some 0 else (firstEmptyIdx xs).map (· + 1)

/-- Number of empty parts. -/
def countEmpties (l : List (List Char)) : Nat := (l.filter (· = [])).length

/-- Big-endian accumulation of 16-bit hextets
(`ip_int <<= 16; ip_int |= hextet` repeated). -/
def foldHextets (a : Nat) (hs : List Nat) : Nat := hs.foldl (fun a h => a * 65536 + h) a

/-- The expansion of a trailing IPv4-style suffix
(`if '.' in parts[-1]: ... parts.append(...)` in `_ip_int_from_string`). -/
def expand_v4_suffix (parts0 : List (List Char)) : Option (List (List Char)) :=
  if (parts0.getLastD []).contains '.' then
    match ipv4_address_from_string (parts0.getLastD []) with
    | none => none
    | some v4 =>
      some (parts0.dropLast ++ [natHex (v4 / 65536 % 65536), natHex (v4 % 65536)])
  else some parts0

/-- Python's `parts_hi` when the `'::'` sits at inner index `j + 1`: one part
fewer is copied from the front when the first part is empty (a leading `':'`
is only permitted as part of a leading `'::'`). -/
def hiCount (parts : List (List Char)) (j : Nat) : Nat :=
  if parts.headD [] = [] then j else j + 1

/-- Python's `parts_lo` when the `'::'` sits at inner index `j + 1`: one part
fewer is copied from the back when the last part is empty. -/
def loCount (parts : List (List Char)) (j : Nat) : Nat :=
  if parts.getLastD [] = [] then parts.length - (j + 1) - 1 - 1
  else parts.length - (j + 1) - 1

/-- The `'::'` branch of `_ip_int_from_string`: endpoint rules, the
`parts_skipped < 1` check, and the two hextet folds around the skipped
zero run. -/
def assemble_skip (parts : List (List Char)) (j : Nat) : Option Nat :=
  if parts.headD [] = [] ∧ hiCount parts j ≠ 0 then none
  else if parts.getLastD [] = [] ∧ loCount parts j ≠ 0 then none
  else if 8 ≤ hiCount parts j + loCount parts j then none
  else
    match (parts.take (hiCount parts j)).mapM parse_hextet,
          (parts.drop (parts.length - loCount parts j)).mapM parse_hextet with
    | some hs, some ls =>
      some (foldHextets
        (foldHextets 0 hs * 65536 ^ (8 - (hiCount parts j + loCount parts j))) ls)
    | _, _ => none

/-- The branch of `_ip_int_from_string` without `'::'`: exactly eight
nonempty parts, folded big-endian. -/
def assemble_noskip (parts : List (List Char)) : Option Nat :=
  if parts.length ≠ 8 then none
  else if parts.headD [] = [] then none
  else if parts.getLastD [] = [] then none
  else
    match parts.mapM parse_hextet with
    | some hs => some (foldHextets 0 hs)
    | none => none

/-- `ipaddress._BaseV6._ip_int_from_string`: split on `':'`, expand a trailing
IPv4-style suffix, locate the at-most-one `'::'` among the inner parts, check
the endpoint rules, and accumulate the hextets around the skipped zero run. -/
def ipv6_int_from_string (s : List Char) : Option Nat :=
  if s = [] then none
  else if (splitChar ':' s).length < 3 then none
  else
    match expand_v4_suffix (splitChar ':' s) with
    | none => none
    | some parts =>
      if 9 < parts.length then none
      else if 2 ≤ countEmpties ((parts.drop 1).dropLast) then none
      else
        match firstEmptyIdx ((parts.drop 1).dropLast) with
        | some j => assemble_skip parts j
        | none => assemble_noskip parts

/-- `ipaddress._BaseV6._split_scope_id`: split at the first `'%'`; the scope
id must be nonempty and must not itself contain `'%'`. -/
def split_scope_id (s : List Char) : Option (List Char × Option (List Char)) :=
  match partitionChar '%' s with
  | none => some (s, none)
  | some (addr, sc) => if sc = [] ∨ sc.contains '%' then none else some (addr, some sc)

/-- `ipaddress.IPv6Address.__init__` on a string: rejects any `'/'`, splits
off the scope id, then parses the hextet form.  The result is the pair of the
128-bit value and the optional scope id. -/
def ipv6_address_from_string (s : List Char) : Option (Nat × Option (List Char)) :=
  if s.contains '/' then none
  else
    match split_scope_id s with
    | none => none
    | some (addr, sc) =>
      match ipv6_int_from_string addr with
      | some n => some (n, sc)
      | none => none

/-- State scan of `ipaddress._BaseV6._compress_hextets`: the best (leftmost
strictly-longest) run of `"0"` hextets, as `(start, length)`.  Python's `-1`
sentinels need not be modelled: the current-run start is only read while the
current-run length is positive, and the best start only when the best length
is positive. -/
def bestZeroRunAux : Nat → Nat × Nat → Nat × Nat → List (List Char) → Nat × Nat
  | _, best, _, [] => best
  | i, (bs, bl), (cs, cl), h :: rest =>
    if h = ['0'] then
      let cs' := if cl = 0 then i else cs
      let cl' := cl + 1
      let best' := if bl < cl' then (cs', cl') else (bs, bl)
      bestZeroRunAux (i + 1) best' (cs', cl') rest
    else bestZeroRunAux (i + 1) (bs, bl) (0, 0) rest

/-- The best zero run of a hextet list (see `bestZeroRunAux`). -/
def bestZeroRun (hextets : List (List Char)) : Nat × Nat :=
  bestZeroRunAux 0 (0, 0) (0, 0) hextets

/-- `ipaddress._BaseV6._compress_hextets`: replace the best run of `"0"`
hextets (when its length exceeds one) by an empty part, padding with a
further empty part at either end that the run touches. -/
def compress_hextets (hextets : List (List Char)) : List (List Char) :=
  let r := bestZeroRun hextets
  if 1 < r.2 then
    let be := r.1 + r.2
    let hx := if be = hextets.length then hextets ++ [[]] else hextets
    let hx2 := hx.take r.1 ++ [[]] ++ hx.drop be
    if r.1 = 0 then [] :: hx2 else hx2
  else hextets

/-- `ipaddress._BaseV6._string_from_ip_int`: the eight hextets of the 128-bit
value, written in lower-case hex without padding, compressed, and joined by
`':'`. -/
def ipv6_string_from_int (n : Nat) : List Char :=
  joinSep ':' (compress_hextets ((baseGroups 65536 n 8).map natHex))

/-- `ipaddress.IPv6Address.__str__`: the compressed form, with `'%' + scope`
appended when a scope id is present. -/
def ipv6_address_str (n : Nat) (sc : Option (List Char)) : List Char :=
  match sc with
  | none => ipv6_string_from_int n
  | some z => ipv6_string_from_int n ++ '%' :: z

/-- A parsed `ipaddress.ip_address` result. -/
inductive IPAddr where
  | v4 (ip : Nat)
  | v6 (ip : Nat) (scope : Option (List Char))
deriving DecidableEq, Repr

/-- `ipaddress.ip_address` on a string: try `IPv4Address`, then `IPv6Address`. -/
def ip_address_from_string (s : List Char) : Option IPAddr :=
  match ipv4_address_from_string s with
  | some n => some (.v4 n)
  | none => (ipv6_address_from_string s).map (fun p => .v6 p.1 p.2)

/-! ## Networks: `ipaddress.ip_network(..., strict=False)` -/

/-- `ipaddress._IPAddressBase._prefix_from_prefix_string` for a given maximum
prefix length: the string must be nonempty ASCII digits (`str.isdigit`) and
its value at most the maximum. -/
def prefixlen_from_string (maxLen : Nat) (s : List Char) : Option Nat :=
  if s = [] then none
  else if ¬ s.all isAsciiDigit then none
  else if decDigitsToNat s ≤ maxLen then some (decDigitsToNat s) else none

/-- `ipaddress._count_righthand_zero_bits` with a fuel argument: for `n = 0`
the result is `bits`, otherwise the number of trailing zero bits of `n`
capped at `bits` (Python computes it as `min(bits, (~n & (n-1)).bit_length())`). -/
def count_righthand_zero_bits : Nat → Nat → Nat
  | 0, _ => 0
  | bits + 1, n => if n % 2 = 1 then 0 else count_righthand_zero_bits bits (n / 2) + 1

/-- `ipaddress._IPAddressBase._prefix_from_ip_int`: recover a prefix length
from an expanded netmask, rejecting masks that mix ones and zeroes. -/
def prefixlen_from_mask_int (maxLen n : Nat) : Option Nat :=
  let t := count_righthand_zero_bits maxLen n
  let p := maxLen - t
  if n >>> t = 2 ^ p - 1 then some p else none

/-- `ipaddress._BaseV4._prefix_from_ip_string`: parse a dotted-decimal
netmask, or failing that a hostmask (the complement pattern). -/
def prefixlen_from_ip_string_v4 (s : List Char) : Option Nat :=
  match ipv4_int_from_string s with
  | none => none
  | some m =>
    match prefixlen_from_mask_int 32 m with
    | some p => some p
    | none => prefixlen_from_mask_int 32 (m ^^^ (2 ^ 32 - 1))

/-- `ipaddress.IPv4Network._make_netmask` on a string: a prefix length in
decimal, else a dotted netmask or hostmask. -/
def make_netmask_v4 (s : List Char) : Option Nat :=
  match prefixlen_from_string 32 s with
  | some p => some p
  | none => prefixlen_from_ip_string_v4 s

/-- `ipaddress.IPv6Network._make_netmask` on a string: only a decimal prefix
length is accepted. -/
def make_netmask_v6 (s : List Char) : Option Nat := prefixlen_from_string 128 s

/-- `ipaddress._IPAddressBase._ip_int_from_prefix` :
`ALL_ONES ^ (ALL_ONES >> prefixlen)` for a given width. -/
def netmask_int (maxLen p : Nat) : Nat :=
  (2 ^ maxLen - 1) ^^^ ((2 ^ maxLen - 1) >>> p)

/-- A parsed `ipaddress.ip_network` result: the (possibly masked) network
address and the prefix length.  An IPv6 network keeps the scope id of the
address it was built from unless masking rebuilt the address from an integer,
which drops the scope (CPython `IPv6Network.__init__`). -/
inductive IPNet where
  | v4 (network : Nat) (plen : Nat)
  | v6 (network : Nat) (scope : Option (List Char)) (plen : Nat)
deriving DecidableEq, Repr

/-- `ipaddress.IPv4Network.__init__` on a string with `strict=False`:
split the one optional `'/'`, parse the address part and the mask part, and
zero the host bits if any are set. -/
def ipv4_network_from_string (s : List Char) : Option (Nat × Nat) :=
  match splitChar '/' s with
  | [addr] =>
    match ipv4_address_from_string addr with
    | some packed =>
      let m := netmask_int 32 32
      if packed &&& m = packed then some (packed, 32) else some (packed &&& m, 32)
    | none => none
  | [addr, mstr] =>
    match ipv4_address_from_string addr, make_netmask_v4 mstr with
    | some packed, some p =>
      let m := netmask_int 32 p
      if packed &&& m = packed then some (packed, p) else some (packed &&& m, p)
    | _, _ => none
  | _ => none

/-- `ipaddress.IPv6Network.__init__` on a string with `strict=False`.  The
address part is parsed by `IPv6Address` (so a scope id is accepted); when the
host bits are set the network address is rebuilt from the masked integer,
which clears the scope id. -/
def ipv6_network_from_string (s : List Char) : Option (Nat × Option (List Char) × Nat) :=
  match splitChar '/' s with
  | [addr] =>
    match ipv6_address_from_string addr with
    | some (n, sc) =>
      let m := netmask_int 128 128
      if n &&& m = n then some (n, sc, 128) else some (n &&& m, none, 128)
    | none => none
  | [addr, mstr] =>
    match ipv6_address_from_string addr, make_netmask_v6 mstr with
    | some (n, sc), some p =>
      let m := netmask_int 128 p
      if n &&& m = n then some (n, sc, p) else some (n &&& m, none, p)
    | _, _ => none
  | _ => none

/-- `ipaddress.ip_network(s, strict=False)` on a string: try `IPv4Network`,
then `IPv6Network`. -/
def ip_network_from_string (s : List Char) : Option IPNet :=
  match ipv4_network_from_string s with
  | some (n, p) => some (.v4 n p)
  | none => (ipv6_network_from_string s).map (fun t => .v6 t.1 t.2.1 t.2.2)

/-! ## The tool's validator: `validate_name` and `normalize_ip_or_cidr` -/

/-- A character allowed by `NAME_PATTERN = re.compile(r'^[^\s/]+$')`:
anything that is neither whitespace nor `'/'`. -/
def nameOkChar (c : Char) : Bool := !(pyIsSpace c) && c != '/'

/-- `NAME_PATTERN.match(s)` as a Boolean.  Python's `$` matches at the end of
the string or just before one final newline, so the pattern matches exactly
when the maximal leading run of allowed characters is nonempty and the
remainder is either empty or a single final `'\n'`. -/
def NAME_PATTERN_match (s : List Char) : Bool :=
  !(s.takeWhile nameOkChar).isEmpty &&
    ((s.dropWhile nameOkChar).isEmpty || s.dropWhile nameOkChar == ['\n'])

/-- `validate_name`: raises (here: `none`) exactly when the pattern does not
match. -/
def validate_name (name : List Char) : Option Unit :=
  if NAME_PATTERN_match name then some () else none

/-- `validate_member_name` delegates to `validate_name`. -/
def validate_member_name (name : List Char) : Option Unit := validate_name name

/-- `normalize_ip_or_cidr`: strip, reject empty, then either a non-strict
network parse (input containing `'/'`) rendered as
`network_address/prefixlen`, or a bare-address parse rendered with the
default mask `/32` (IPv4) or `/128` (IPv6). -/
def normalize_ip_or_cidr (value : List Char) : Option (List Char) :=
  let v := pyStrip value
  if v = [] then none
  else if v.contains '/' then
    match ip_network_from_string v with
    | some (.v4 n p) => some (ipv4_string_from_int n ++ '/' :: natDec p)
    | some (.v6 n sc p) => some (ipv6_address_str n sc ++ '/' :: natDec p)
    | none => none
  else
    match ip_address_from_string v with
    | some (.v4 n) => some (ipv4_string_from_int n ++ '/' :: natDec 32)
    | some (.v6 n sc) => some (ipv6_address_str n sc ++ '/' :: natDec 128)
    | none => none

/-! ## The tool's generators and import layers -/

/-- `gen_address_cmd`: the only branch is on whether the platform string
equals `"Firewall"`. -/
def gen_address_cmd (platform name cidr : List Char) : List Char :=
  if platform = "Firewall".data then
    "set address ".data ++ name ++ " ip-netmask ".data ++ cidr
  else
    "set shared address ".data ++ name ++ " ip-netmask ".data ++ cidr

/-- The loop of `gen_group_cmd`: strip each member, skip blank members,
validate the rest, and append one command line per surviving member. -/
def gen_group_cmd_aux (pre group_name : List Char) :
    List (List Char) → List (List Char) → Option (List (List Char))
  | [], cmds => some cmds
  | m0 :: rest, cmds =>
    let m := pyStrip m0
    if m = [] then gen_group_cmd_aux pre group_name rest cmds
    else
      match validate_member_name m with
      | none => none
      | some _ =>
        gen_group_cmd_aux pre group_name rest
          (cmds ++ [pre ++ ' ' :: group_name ++ " static ".data ++ m])

/-- `gen_group_cmd`: emits one `... static member` line per non-blank member,
failing the whole call on the first invalid member name. -/
def gen_group_cmd (platform group_name : List Char) (members : List (List Char)) :
    Option (List (List Char)) :=
  let pre :=
    if platform = "Firewall".data then "set address-group".data
    else "set shared address-group".data
  gen_group_cmd_aux pre group_name members []

/-- The pairing step of `import_address_two_step` (lines 339-344), after the
two files have been read into a names list and a normalized-IP list: a count
mismatch aborts the import with no output, otherwise the i-th name is paired
with the i-th address. -/
def import_address_pair (platform : List Char) (names ips : List (List Char)) :
    Option (List (List Char)) :=
  if names.length ≠ ips.length then none
  else some ((names.zip ips).map (fun p => gen_address_cmd platform p.1 p.2))

/-- The processing of one `.txt` member line in `read_members_from_file`:
a blank line stands for "no members" and is kept as an empty list to preserve
row alignment; otherwise the line is split on `','`, blank entries are
discarded, and every member name is validated. -/
def members_of_txt_line (ln : List Char) : Option (List (List Char)) :=
  if pyStrip ln = [] then some []
  else
    let members := ((splitChar ',' ln).map pyStrip).filter (· ≠ [])
    match members.mapM validate_member_name with
    | some _ => some members
    | none => none

/-- `read_members_from_file` on the lines of a `.txt` file: process every
line (keeping empty member lists for alignment) and reject an entirely empty
file. -/
def read_members_from_txt_lines (lines : List (List Char)) :
    Option (List (List (List Char))) :=
  match lines.mapM members_of_txt_line with
  | some out => if out = [] then none else some out
  | none => none

/-- The processing of one already-read `.csv` row in `read_members_from_file`:
cells are stripped by `_read_csv_rows`; the members are the nonempty cells
from the second column on, kept as an empty list when there are none, and
every member name is validated.  (Rows with no cells at all were dropped by
the reader.) -/
def members_of_csv_row (row : List (List Char)) : Option (List (List Char)) :=
  let members := (row.drop 1).filter (fun c => pyStrip c ≠ [])
  let members := members.map pyStrip
  match members.mapM validate_member_name with
  | some _ => some members
  | none => none

/-- `read_members_from_file` on the rows of a `.csv` file (cells already
stripped by `_read_csv_rows`, rows without cells dropped). -/
def read_members_from_csv_rows (rows : List (List (List Char))) :
    Option (List (List (List Char))) :=
  match (rows.filter (· ≠ [])).mapM members_of_csv_row with
  | some out => if out = [] then none else some out
  | none => none

/-- The pairing step of `import_group_two_step` (lines 369-378), after the
group names and the member rows have been read: a count mismatch or any row
with an empty member list aborts the import with no output; otherwise each
group is expanded by `gen_group_cmd` and the command lists are concatenated. -/
def import_group_pair (platform : List Char) (groups : List (List Char))
    (members_lines : List (List (List Char))) : Option (List (List Char)) :=
  if members_lines.length ≠ groups.length then none
  else if members_lines.any List.isEmpty then none
  else
    ((groups.zip members_lines).mapM (fun gm => gen_group_cmd platform gm.1 gm.2)).map List.flatten

/-! ## Character facts -/

theorem pyIsSpace_iff_toNat (c : Char) :
    pyIsSpace c = true ↔
      c.toNat ∈ ([0x9, 0xa, 0xb, 0xc, 0xd, 0x1c, 0x1d, 0x1e, 0x1f, 0x20, 0x85, 0xa0,
        0x1680, 0x2000, 0x2001, 0x2002, 0x2003, 0x2004, 0x2005, 0x2006, 0x2007,
        0x2008, 0x2009, 0x200a, 0x2028, 0x2029, 0x202f, 0x205f, 0x3000] : List Nat) := by
  simp [pyIsSpace, List.elem_iff]

theorem pyIsSpace_false_of_printable (c : Char) (h1 : 0x21 ≤ c.toNat) (h2 : c.toNat ≤ 0x7e) :
    pyIsSpace c = false := by
  by_contra h
  have := (pyIsSpace_iff_toNat c).1 (by revert h; cases pyIsSpace c <;> simp)
  simp only [List.mem_cons, List.not_mem_nil, or_false] at this
  omega

theorem isAsciiDigit_toNat (c : Char) (h : isAsciiDigit c = true) :
    0x30 ≤ c.toNat ∧ c.toNat ≤ 0x39 := by
  simpa [isAsciiDigit, Bool.and_eq_true, decide_eq_true_eq] using h

theorem isHexDigitChar_toNat (c : Char) (h : isHexDigitChar c = true) :
    (0x30 ≤ c.toNat ∧ c.toNat ≤ 0x39) ∨ (0x61 ≤ c.toNat ∧ c.toNat ≤ 0x66) ∨
      (0x41 ≤ c.toNat ∧ c.toNat ≤ 0x46) := by
  simp only [isHexDigitChar, isAsciiDigit, Bool.or_eq_true, Bool.and_eq_true,
    decide_eq_true_eq] at h
  tauto

theorem toNat_ne_imp_ne {c d : Char} (h : c.toNat ≠ d.toNat) : c ≠ d := by
  intro he; exact h (by rw [he])

theorem pyIsSpace_false_of_digit (c : Char) (h : isAsciiDigit c = true) : pyIsSpace c = false := by
  have := isAsciiDigit_toNat c h
  exact pyIsSpace_false_of_printable c (by omega) (by omega)

theorem pyIsSpace_false_of_hex (c : Char) (h : isHexDigitChar c = true) : pyIsSpace c = false := by
  have := isHexDigitChar_toNat c h
  exact pyIsSpace_false_of_printable c (by omega) (by omega)

theorem digit_ne_sep (c : Char) (h : isAsciiDigit c = true) :
    c ≠ '.' ∧ c ≠ ':' ∧ c ≠ '/' ∧ c ≠ '%' ∧ c ≠ '\n' := by
  have := isAsciiDigit_toNat c h
  refine ⟨toNat_ne_imp_ne ?_, toNat_ne_imp_ne ?_, toNat_ne_imp_ne ?_,
    toNat_ne_imp_ne ?_, toNat_ne_imp_ne ?_⟩ <;> simp <;> omega

theorem hex_ne_sep (c : Char) (h : isHexDigitChar c = true) :
    c ≠ '.' ∧ c ≠ ':' ∧ c ≠ '/' ∧ c ≠ '%' ∧ c ≠ '\n' := by
  have := isHexDigitChar_toNat c h
  refine ⟨toNat_ne_imp_ne ?_, toNat_ne_imp_ne ?_, toNat_ne_imp_ne ?_,
    toNat_ne_imp_ne ?_, toNat_ne_imp_ne ?_⟩ <;> simp <;> omega

theorem digitChar_isAsciiDigit : ∀ d, d < 10 → isAsciiDigit (digitChar d) = true := by decide

theorem digitVal_digitChar : ∀ d, d < 10 → digitVal (digitChar d) = d := by decide

theorem digitChar_eq_zero_iff : ∀ d, d < 10 → ((digitChar d = '0') ↔ d = 0) := by decide

theorem hexChar_isHexDigit : ∀ d, d < 16 → isHexDigitChar (hexChar d) = true := by decide

theorem hexVal_hexChar : ∀ d, d < 16 → hexVal (hexChar d) = d := by decide

theorem hexChar_eq_zero_iff : ∀ d, d < 16 → ((hexChar d = '0') ↔ d = 0) := by decide

theorem digitChar_digitVal (c : Char) (h : isAsciiDigit c = true) :
    digitChar (digitVal c) = c := by
  have hb := isAsciiDigit_toNat c h
  have : 0x30 + digitVal c = c.toNat := by unfold digitVal; omega
  rw [digitChar, this, Char.ofNat_toNat]

theorem digitVal_lt (c : Char) (h : isAsciiDigit c = true) : digitVal c < 10 := by
  have := isAsciiDigit_toNat c h
  unfold digitVal; omega

/-! ## Decimal and hexadecimal rendering -/

theorem natDecAux_congr : ∀ (n fuel fuel' : Nat), n < fuel → n < fuel' →
    natDecAux fuel n = natDecAux fuel' n := by
  intro n
  induction n using Nat.strong_induction_on with
  | _ n ih =>
    intro fuel fuel' hf hf'
    rcases fuel with _ | f
    · omega
    rcases fuel' with _ | f'
    · omega
    show natDecAux (f + 1) n = natDecAux (f' + 1) n
    unfold natDecAux
    by_cases h : n < 10
    · rw [if_pos h, if_pos h]
    · rw [if_neg h, if_neg h,
        ih (n / 10) (Nat.div_lt_self (by omega) (by omega)) f (f' + 1) (by omega) (by omega),
        ih (n / 10) (Nat.div_lt_self (by omega) (by omega)) (f' + 1) f' (by omega) (by omega)]

theorem natHexAux_congr : ∀ (n fuel fuel' : Nat), n < fuel → n < fuel' →
    natHexAux fuel n = natHexAux fuel' n := by
  intro n
  induction n using Nat.strong_induction_on with
  | _ n ih =>
    intro fuel fuel' hf hf'
    rcases fuel with _ | f
    · omega
    rcases fuel' with _ | f'
    · omega
    show natHexAux (f + 1) n = natHexAux (f' + 1) n
    unfold natHexAux
    by_cases h : n < 16
    · rw [if_pos h, if_pos h]
    · rw [if_neg h, if_neg h,
        ih (n / 16) (Nat.div_lt_self (by omega) (by omega)) f (f' + 1) (by omega) (by omega),
        ih (n / 16) (Nat.div_lt_self (by omega) (by omega)) (f' + 1) f' (by omega) (by omega)]

theorem natDec_lt (n : Nat) (h : n < 10) : natDec n = [digitChar n] := by
  unfold natDec natDecAux; simp [h]

theorem natDec_ge (n : Nat) (h : 10 ≤ n) :
    natDec n = natDec (n / 10) ++ [digitChar (n % 10)] := by
  have h1 : natDec n = natDecAux n (n / 10) ++ [digitChar (n % 10)] := by
    rcases n with _ | m
    · omega
    · show (if m + 1 < 10 then [digitChar (m + 1)]
        else natDecAux (m + 1) ((m + 1) / 10) ++ [digitChar ((m + 1) % 10)]) = _
      rw [if_neg (by omega)]
  rw [h1,
    natDecAux_congr (n / 10) n (n / 10 + 1) (Nat.div_lt_self (by omega) (by omega)) (by omega)]
  rfl

theorem natHex_lt (n : Nat) (h : n < 16) : natHex n = [hexChar n] := by
  unfold natHex natHexAux; simp [h]

theorem natHex_ge (n : Nat) (h : 16 ≤ n) :
    natHex n = natHex (n / 16) ++ [hexChar (n % 16)] := by
  have h1 : natHex n = natHexAux n (n / 16) ++ [hexChar (n % 16)] := by
    rcases n with _ | m
    · omega
    · show (if m + 1 < 16 then [hexChar (m + 1)]
        else natHexAux (m + 1) ((m + 1) / 16) ++ [hexChar ((m + 1) % 16)]) = _
      rw [if_neg (by omega)]
  rw [h1,
    natHexAux_congr (n / 16) n (n / 16 + 1) (Nat.div_lt_self (by omega) (by omega)) (by omega)]
  rfl

theorem natDec_ne_nil (n : Nat) : natDec n ≠ [] := by
  by_cases h : n < 10
  · rw [natDec_lt n h]; simp
  · rw [natDec_ge n (le_of_not_lt h)]; simp

theorem natHex_ne_nil (n : Nat) : natHex n ≠ [] := by
  by_cases h : n < 16
  · rw [natHex_lt n h]; simp
  · rw [natHex_ge n (le_of_not_lt h)]; simp

theorem natDec_all_digit (n : Nat) : ∀ c ∈ natDec n, isAsciiDigit c = true := by
  induction n using Nat.strong_induction_on with
  | _ n ih =>
    by_cases h : n < 10
    · rw [natDec_lt n h]
      intro c hc
      simp only [List.mem_singleton] at hc
      subst hc
      exact digitChar_isAsciiDigit n h
    · rw [natDec_ge n (le_of_not_lt h)]
      intro c hc
      rcases List.mem_append.1 hc with h1 | h2
      · exact ih (n / 10) (Nat.div_lt_self (by omega) (by omega)) c h1
      · simp only [List.mem_singleton] at h2
        subst h2
        exact digitChar_isAsciiDigit _ (Nat.mod_lt _ (by omega))

theorem natHex_all_hex (n : Nat) : ∀ c ∈ natHex n, isHexDigitChar c = true := by
  induction n using Nat.strong_induction_on with
  | _ n ih =>
    by_cases h : n < 16
    · rw [natHex_lt n h]
      intro c hc
      simp only [List.mem_singleton] at hc
      subst hc
      exact hexChar_isHexDigit n h
    · rw [natHex_ge n (le_of_not_lt h)]
      intro c hc
      rcases List.mem_append.1 hc with h1 | h2
      · exact ih (n / 16) (Nat.div_lt_self (by omega) (by omega)) c h1
      · simp only [List.mem_singleton] at h2
        subst h2
        exact hexChar_isHexDigit _ (Nat.mod_lt _ (by omega))

theorem decDigitsToNat_append (xs : List Char) (x : Char) :
    decDigitsToNat (xs ++ [x]) = decDigitsToNat xs * 10 + digitVal x := by
  simp [decDigitsToNat]

theorem hexDigitsToNat_append (xs : List Char) (x : Char) :
    hexDigitsToNat (xs ++ [x]) = hexDigitsToNat xs * 16 + hexVal x := by
  simp [hexDigitsToNat]

theorem decDigitsToNat_natDec (n : Nat) : decDigitsToNat (natDec n) = n := by
  induction n using Nat.strong_induction_on with
  | _ n ih =>
    by_cases h : n < 10
    · rw [natDec_lt n h]
      simp [decDigitsToNat, digitVal_digitChar n h]
    · rw [natDec_ge n (le_of_not_lt h), decDigitsToNat_append,
        ih (n / 10) (Nat.div_lt_self (by omega) (by omega)),
        digitVal_digitChar _ (Nat.mod_lt _ (by omega))]
      omega

theorem hexDigitsToNat_natHex (n : Nat) : hexDigitsToNat (natHex n) = n := by
  induction n using Nat.strong_induction_on with
  | _ n ih =>
    by_cases h : n < 16
    · rw [natHex_lt n h]
      simp [hexDigitsToNat, hexVal_hexChar n h]
    · rw [natHex_ge n (le_of_not_lt h), hexDigitsToNat_append,
        ih (n / 16) (Nat.div_lt_self (by omega) (by omega)),
        hexVal_hexChar _ (Nat.mod_lt _ (by omega))]
      omega

theorem natDec_length_le : ∀ n k, n < 10 ^ k → 0 < k → (natDec n).length ≤ k := by
  intro n
  induction n using Nat.strong_induction_on with
  | _ n ih =>
    intro k hn hk
    by_cases h : n < 10
    · rw [natDec_lt n h]; simpa using hk
    · rw [natDec_ge n (le_of_not_lt h)]
      have hk2 : 2 ≤ k := by
        rcases k with _ | _ | k
        · omega
        · simp at hn; omega
        · omega
      have hdiv : n / 10 < 10 ^ (k - 1) := by
        rw [Nat.div_lt_iff_lt_mul (by omega)]
        calc n < 10 ^ k := hn
          _ = 10 ^ (k - 1) * 10 := by
            rw [← pow_succ]
            congr 1
            omega
      have := ih (n / 10) (Nat.div_lt_self (by omega) (by omega)) (k - 1) hdiv (by omega)
      simp only [List.length_append, List.length_singleton]
      omega

theorem natHex_length_le : ∀ n k, n < 16 ^ k → 0 < k → (natHex n).length ≤ k := by
  intro n
  induction n using Nat.strong_induction_on with
  | _ n ih =>
    intro k hn hk
    by_cases h : n < 16
    · rw [natHex_lt n h]; simpa using hk
    · rw [natHex_ge n (le_of_not_lt h)]
      have hk2 : 2 ≤ k := by
        rcases k with _ | _ | k
        · omega
        · simp at hn; omega
        · omega
      have hdiv : n / 16 < 16 ^ (k - 1) := by
        rw [Nat.div_lt_iff_lt_mul (by omega)]
        calc n < 16 ^ k := hn
          _ = 16 ^ (k - 1) * 16 := by
            rw [← pow_succ]
            congr 1
            omega
      have := ih (n / 16) (Nat.div_lt_self (by omega) (by omega)) (k - 1) hdiv (by omega)
      simp only [List.length_append, List.length_singleton]
      omega

theorem headD_append_of_ne_nil {α : Type} (A B : List α) (d : α) (h : A ≠ []) :
    (A ++ B).headD d = A.headD d := by
  cases A with
  | nil => exact absurd rfl h
  | cons a t => simp

theorem natDec_headD_ne_zero (n : Nat) (h : 0 < n) : (natDec n).headD ' ' ≠ '0' := by
  induction n using Nat.strong_induction_on with
  | _ n ih =>
    by_cases hl : n < 10
    · rw [natDec_lt n hl]
      simpa using fun he => absurd ((digitChar_eq_zero_iff n hl).1 he) (by omega)
    · rw [natDec_ge n (le_of_not_lt hl),
        headD_append_of_ne_nil _ _ _ (natDec_ne_nil (n / 10))]
      exact ih (n / 10) (Nat.div_lt_self (by omega) (by omega)) (by omega)

theorem natDec_zero : natDec 0 = ['0'] := by
  rw [natDec_lt 0 (by omega)]; decide

theorem natHex_eq_zero_str_iff (n : Nat) : natHex n = ['0'] ↔ n = 0 := by
  by_cases h : n < 16
  · rw [natHex_lt n h]
    simpa using hexChar_eq_zero_iff n h
  · rw [natHex_ge n (le_of_not_lt h)]
    constructor
    · intro he
      have : (natHex (n / 16) ++ [hexChar (n % 16)]).length = 1 := by rw [he]; rfl
      simp only [List.length_append, List.length_singleton] at this
      exact absurd (List.length_eq_zero.1 (by omega)) (natHex_ne_nil (n / 16))
    · omega

theorem parse_octet_natDec (b : Nat) (hb : b < 256) : parse_octet (natDec b) = some b := by
  unfold parse_octet
  rw [if_neg (natDec_ne_nil b)]
  rw [if_neg (by simpa [List.all_eq_true] using natDec_all_digit b)]
  rw [if_neg (by simpa using natDec_length_le b 3 (by omega) (by omega))]
  rw [if_neg ?_, decDigitsToNat_natDec, if_neg (by omega)]
  rcases Nat.eq_zero_or_pos b with h0 | h0
  · subst h0; rw [natDec_zero]; simp
  · intro hc
    exact natDec_headD_ne_zero b h0 hc.2

theorem parse_hextet_natHex (v : Nat) (hv : v < 65536) : parse_hextet (natHex v) = some v := by
  unfold parse_hextet
  rw [if_neg (by simpa [List.all_eq_true] using natHex_all_hex v)]
  rw [if_neg (by simpa using natHex_length_le v 4 (by omega) (by omega))]
  rw [if_neg (natHex_ne_nil v), hexDigitsToNat_natHex]

theorem prefixlen_from_string_natDec (maxLen p : Nat) :
    prefixlen_from_string maxLen (natDec p) = if p ≤ maxLen then some p else none := by
  unfold prefixlen_from_string
  rw [if_neg (natDec_ne_nil p)]
  rw [if_neg (by simpa [List.all_eq_true] using natDec_all_digit p), decDigitsToNat_natDec]

/-! ## Splitting, joining, partitioning -/

theorem splitChar_ne_nil (sep : Char) (s : List Char) : splitChar sep s ≠ [] := by
  cases s with
  | nil => simp [splitChar]
  | cons c cs =>
    rw [splitChar]
    rcases hr : splitChar sep cs with _ | ⟨p, ps⟩
    · simp
    · by_cases h : c = sep <;> simp [h]

theorem splitChar_nil (sep : Char) : splitChar sep [] = [[]] := rfl

theorem splitChar_cons_sep (sep : Char) (cs : List Char) :
    splitChar sep (sep :: cs) = [] :: splitChar sep cs := by
  rw [splitChar]
  rcases hr : splitChar sep cs with _ | ⟨p, ps⟩
  · exact absurd hr (splitChar_ne_nil sep cs)
  · simp

theorem splitChar_cons_ne (sep c : Char) (cs : List Char) (h : c ≠ sep) :
    splitChar sep (c :: cs) =
      (c :: (splitChar sep cs).headD []) :: (splitChar sep cs).tail := by
  rw [splitChar]
  rcases hr : splitChar sep cs with _ | ⟨p, ps⟩
  · exact absurd hr (splitChar_ne_nil sep cs)
  · simp [h]

theorem splitChar_of_not_mem (sep : Char) (s : List Char) (h : sep ∉ s) :
    splitChar sep s = [s] := by
  induction s with
  | nil => rfl
  | cons c cs ih =>
    have hc : c ≠ sep := fun he => h (by simp [he])
    have hcs : sep ∉ cs := fun hm => h (List.mem_cons_of_mem _ hm)
    rw [splitChar_cons_ne sep c cs hc, ih hcs]
    simp

theorem splitChar_append_sep (sep : Char) (A B : List Char) (h : sep ∉ A) :
    splitChar sep (A ++ sep :: B) = A :: splitChar sep B := by
  induction A with
  | nil => simpa using splitChar_cons_sep sep B
  | cons a t ih =>
    have ha : a ≠ sep := fun he => h (by simp [he])
    have ht : sep ∉ t := fun hm => h (List.mem_cons_of_mem _ hm)
    rw [List.cons_append, splitChar_cons_ne sep a _ ha, ih ht]
    simp

theorem joinSep_cons_cons (sep : Char) (p q : List Char) (r : List (List Char)) :
    joinSep sep (p :: q :: r) = p ++ sep :: joinSep sep (q :: r) := rfl

theorem splitChar_joinSep (sep : Char) :
    ∀ parts : List (List Char), parts ≠ [] → (∀ p ∈ parts, sep ∉ p) →
      splitChar sep (joinSep sep parts) = parts
  | [], h, _ => absurd rfl h
  | [p], _, hall => by
    simpa [joinSep] using splitChar_of_not_mem sep p (hall p (by simp))
  | p :: q :: r, _, hall => by
    rw [joinSep_cons_cons, splitChar_append_sep sep p _ (hall p (by simp)),
      splitChar_joinSep sep (q :: r) (by simp) (fun x hx => hall x (by simp [hx]))]

theorem mem_joinSep (sep c : Char) :
    ∀ parts : List (List Char), c ∈ joinSep sep parts →
      c = sep ∨ ∃ p ∈ parts, c ∈ p
  | [], h => by simp [joinSep] at h
  | [p], h => by
    right
    exact ⟨p, by simp, by simpa [joinSep] using h⟩
  | p :: q :: r, h => by
    rw [joinSep_cons_cons] at h
    rcases List.mem_append.1 h with h1 | h2
    · exact Or.inr ⟨p, by simp, h1⟩
    · rcases List.mem_cons.1 h2 with h3 | h4
      · exact Or.inl h3
      · rcases mem_joinSep sep c (q :: r) h4 with h5 | ⟨x, hx, hcx⟩
        · exact Or.inl h5
        · exact Or.inr ⟨x, by simp [List.mem_cons.1 hx], hcx⟩

theorem partitionChar_of_not_mem (sep : Char) (s : List Char) (h : sep ∉ s) :
    partitionChar sep s = none := by
  induction s with
  | nil => rfl
  | cons c cs ih =>
    have hc : c ≠ sep := fun he => h (by simp [he])
    have hcs : sep ∉ cs := fun hm => h (List.mem_cons_of_mem _ hm)
    rw [partitionChar, if_neg hc, ih hcs]
    rfl

theorem partitionChar_append (sep : Char) (A B : List Char) (h : sep ∉ A) :
    partitionChar sep (A ++ sep :: B) = some (A, B) := by
  induction A with
  | nil => simp [partitionChar]
  | cons a t ih =>
    have ha : a ≠ sep := fun he => h (by simp [he])
    have ht : sep ∉ t := fun hm => h (List.mem_cons_of_mem _ hm)
    rw [List.cons_append, partitionChar, if_neg ha, ih ht]
    rfl

/-! ## Base-`B` digit groups -/

theorem baseGroups_length (B n : Nat) : ∀ k, (baseGroups B n k).length = k
  | 0 => rfl
  | k + 1 => by simp [baseGroups, baseGroups_length B n k]

theorem baseGroups_lt (B n : Nat) (hB : 0 < B) :
    ∀ k, ∀ d ∈ baseGroups B n k, d < B
  | k + 1, d, hd => by
    rcases List.mem_cons.1 hd with h | h
    · subst h; exact Nat.mod_lt _ hB
    · exact baseGroups_lt B n hB k d h

theorem mod_mul_decomp (m x y : Nat) : m % (x * y) = m / y % x * y + m % y := by
  rcases Nat.eq_zero_or_pos y with hy | hy
  · subst hy; simp
  · have h1 : m % (y * x) / y = m / y % x := Nat.mod_mul_right_div_self m y x
    have h2 : m % (y * x) % y = m % y := Nat.mod_mod_of_dvd m ⟨x, rfl⟩
    have h3 := Nat.div_add_mod (m % (y * x)) y
    rw [h1, h2] at h3
    rw [mul_comm x y, ← h3, mul_comm y (m / y % x)]

theorem foldl_base_baseGroups (B : Nat) (n : Nat) :
    ∀ k a, (baseGroups B n k).foldl (fun x d => x * B + d) a = a * B ^ k + n % B ^ k
  | 0, a => by simp [baseGroups, Nat.mod_one]
  | k + 1, a => by
    rw [baseGroups, List.foldl_cons, foldl_base_baseGroups B n k (a * B + n / B ^ k % B)]
    have : n % B ^ (k + 1) = n / B ^ k % B * B ^ k + n % B ^ k := by
      rw [pow_succ, mul_comm (B ^ k) B, mod_mul_decomp]
    rw [this, pow_succ]
    ring

theorem baseGroups_take (B n : Nat) :
    ∀ k m, (baseGroups B n (k + m)).take k = baseGroups B (n / B ^ m) k
  | 0, m => by simp [baseGroups]
  | k + 1, m => by
    have he : k + 1 + m = (k + m) + 1 := by omega
    rw [he, baseGroups, List.take_succ_cons, baseGroups_take B n k m]
    have : n / B ^ (k + m) = n / B ^ m / B ^ k := by
      rw [Nat.div_div_eq_div_mul, ← pow_add, Nat.add_comm m k]
    rw [baseGroups, this]

theorem baseGroups_drop (B n : Nat) :
    ∀ k m, (baseGroups B n (k + m)).drop k = baseGroups B n m
  | 0, m => by simp
  | k + 1, m => by
    have he : k + 1 + m = (k + m) + 1 := by omega
    rw [he, baseGroups, List.drop_succ_cons, baseGroups_drop B n k m]

theorem foldl_base_zeros (B : Nat) :
    ∀ l : List Nat, (∀ d ∈ l, d = 0) → l.foldl (fun x d => x * B + d) 0 = 0
  | [], _ => rfl
  | d :: t, h => by
    have hd : d = 0 := h d (by simp)
    subst hd
    rw [List.foldl_cons]
    simpa using foldl_base_zeros B t (fun x hx => h x (by simp [hx]))

theorem mapM_parse_hextet_natHex :
    ∀ vals : List Nat, (∀ v ∈ vals, v < 65536) →
      (vals.map natHex).mapM parse_hextet = some vals
  | [], _ => rfl
  | v :: t, h => by
    rw [List.map_cons, List.mapM_cons, parse_hextet_natHex v (h v (by simp)),
      mapM_parse_hextet_natHex t (fun x hx => h x (by simp [hx]))]
    rfl

/-! ## Stripping -/

theorem dropWhile_eq_self_of_head (p : Char → Bool) (s : List Char)
    (h : ∀ c, s.head? = some c → p c = false) : s.dropWhile p = s := by
  cases s with
  | nil => rfl
  | cons c t => simp [List.dropWhile_cons, h c rfl]

theorem head_dropWhile_false (p : Char → Bool) (s : List Char) :
    ∀ c, (s.dropWhile p).head? = some c → p c = false := by
  induction s with
  | nil => simp
  | cons a t ih =>
    intro c hc
    rw [List.dropWhile_cons] at hc
    by_cases hp : p a = true
    · rw [if_pos hp] at hc
      exact ih c hc
    · rw [if_neg hp] at hc
      simp only [List.head?_cons, Option.some.injEq] at hc
      subst hc
      simpa using hp

theorem getLast?_dropWhile (p : Char → Bool) (s : List Char) (h : s.dropWhile p ≠ []) :
    (s.dropWhile p).getLast? = s.getLast? := by
  obtain ⟨t, ht⟩ := List.dropWhile_suffix (l := s) p
  conv_rhs => rw [← ht]
  exact (List.getLast?_append_of_ne_nil t h).symm

theorem pyStrip_eq_self (s : List Char)
    (h1 : ∀ c, s.head? = some c → pyIsSpace c = false)
    (h2 : ∀ c, s.getLast? = some c → pyIsSpace c = false) : pyStrip s = s := by
  unfold pyStrip
  rw [dropWhile_eq_self_of_head _ _ h1,
    dropWhile_eq_self_of_head _ _ (fun c hc => h2 c (by rwa [List.head?_reverse] at hc)),
    List.reverse_reverse]

theorem mem_of_getLast?_eq : ∀ {l : List Char} {c : Char}, l.getLast? = some c → c ∈ l
  | [], _, h => by simp at h
  | [a], c, h => by
    simp only [List.getLast?_singleton, Option.some.injEq] at h
    simp [h]
  | a :: b :: t, c, h => by
    rw [List.getLast?_cons_cons] at h
    exact List.mem_cons_of_mem a (mem_of_getLast?_eq h)

theorem pyStrip_eq_self_of_all (s : List Char) (h : ∀ c ∈ s, pyIsSpace c = false) :
    pyStrip s = s :=
  pyStrip_eq_self s
    (fun c hc => h c (by cases s with
      | nil => simp at hc
      | cons a t => simp at hc; simp [hc]))
    (fun c hc => h c (mem_of_getLast?_eq hc))

theorem pyStrip_getLast_not_space (s : List Char) :
    ∀ c, (pyStrip s).getLast? = some c → pyIsSpace c = false := by
  intro c hc
  unfold pyStrip at hc
  rw [List.getLast?_reverse] at hc
  exact head_dropWhile_false _ _ c hc

theorem pyStrip_head_not_space (s : List Char) :
    ∀ c, (pyStrip s).head? = some c → pyIsSpace c = false := by
  intro c hc
  unfold pyStrip at hc
  set X := s.dropWhile pyIsSpace with hX
  have hne : X.reverse.dropWhile pyIsSpace ≠ [] := by
    intro he
    rw [he] at hc
    simp at hc
  rw [List.head?_reverse, getLast?_dropWhile _ _ hne, List.getLast?_reverse] at hc
  exact head_dropWhile_false _ _ c hc

theorem dropWhile_eq_nil_of_all (p : Char → Bool) (s : List Char)
    (h : ∀ c ∈ s, p c = true) : s.dropWhile p = [] := by
  induction s with
  | nil => rfl
  | cons a t ih =>
    rw [List.dropWhile_cons, if_pos (h a (by simp))]
    exact ih (fun c hc => h c (by simp [hc]))

theorem all_of_dropWhile_eq_nil (p : Char → Bool) :
    ∀ s : List Char, s.dropWhile p = [] → ∀ c ∈ s, p c = true
  | [], _, c, hc => by simp at hc
  | a :: t, h, c, hc => by
    rw [List.dropWhile_cons] at h
    by_cases hp : p a = true
    · rw [if_pos hp] at h
      rcases List.mem_cons.1 hc with rfl | hm
      · exact hp
      · exact all_of_dropWhile_eq_nil p t h c hm
    · rw [if_neg hp] at h
      simp at h

theorem pyStrip_eq_nil_iff (s : List Char) :
    pyStrip s = [] ↔ ∀ c ∈ s, pyIsSpace c = true := by
  constructor
  · intro he c hcm
    have h2 : (s.dropWhile pyIsSpace).reverse.dropWhile pyIsSpace = [] := by
      unfold pyStrip at he
      simpa using he
    have h3 : ∀ x ∈ (s.dropWhile pyIsSpace).reverse, pyIsSpace x = true :=
      all_of_dropWhile_eq_nil _ _ h2
    by_cases hd : c ∈ s.dropWhile pyIsSpace
    · exact h3 c (by simpa using hd)
    · have hsplit := List.takeWhile_append_dropWhile (p := pyIsSpace) (l := s)
      have : c ∈ s.takeWhile pyIsSpace := by
        have hm2 : c ∈ s.takeWhile pyIsSpace ++ s.dropWhile pyIsSpace := by
          rw [hsplit]; exact hcm
        rcases List.mem_append.1 hm2 with h | h
        · exact h
        · exact absurd h hd
      exact List.mem_takeWhile_imp this
  · intro h
    unfold pyStrip
    rw [dropWhile_eq_nil_of_all _ _ h]
    rfl

/-! ## The name pattern -/

theorem nameOkChar_iff (c : Char) :
    nameOkChar c = true ↔ pyIsSpace c = false ∧ c ≠ '/' := by
  simp [nameOkChar]

theorem takeWhile_eq_self_of_all (p : Char → Bool) (s : List Char)
    (h : ∀ c ∈ s, p c = true) : s.takeWhile p = s := by
  induction s with
  | nil => rfl
  | cons a t ih =>
    rw [List.takeWhile_cons, if_pos (h a (by simp))]
    rw [ih (fun c hc => h c (by simp [hc]))]

theorem takeWhile_concat_of (p : Char → Bool) (t : List Char) (x : Char)
    (h : ∀ c ∈ t, p c = true) (hx : p x = false) : (t ++ [x]).takeWhile p = t := by
  induction t with
  | nil => simp [List.takeWhile_cons, hx]
  | cons a r ih =>
    rw [List.cons_append, List.takeWhile_cons, if_pos (h a (by simp))]
    rw [ih (fun c hc => h c (by simp [hc]))]

theorem dropWhile_concat_of (p : Char → Bool) (t : List Char) (x : Char)
    (h : ∀ c ∈ t, p c = true) (hx : p x = false) : (t ++ [x]).dropWhile p = [x] := by
  induction t with
  | nil => simp [List.dropWhile_cons, hx]
  | cons a r ih =>
    rw [List.cons_append, List.dropWhile_cons, if_pos (h a (by simp))]
    exact ih (fun c hc => h c (by simp [hc]))

theorem NAME_PATTERN_match_eq (s : List Char) :
    NAME_PATTERN_match s = true ↔
      (s.takeWhile nameOkChar ≠ [] ∧
        (s.dropWhile nameOkChar = [] ∨ s.dropWhile nameOkChar = ['\n'])) := by
  unfold NAME_PATTERN_match
  simp [List.isEmpty_iff]

theorem NAME_PATTERN_match_iff (s : List Char) :
    NAME_PATTERN_match s = true ↔
      ((s ≠ [] ∧ ∀ c ∈ s, nameOkChar c = true) ∨
       (∃ t, s = t ++ ['\n'] ∧ t ≠ [] ∧ ∀ c ∈ t, nameOkChar c = true)) := by
  rw [NAME_PATTERN_match_eq]
  constructor
  · rintro ⟨hTne, hD⟩
    have hsplit := List.takeWhile_append_dropWhile (p := nameOkChar) (l := s)
    rcases hD with hD | hD
    · left
      constructor
      · intro he
        subst he
        simp at hTne
      · intro c hc
        have : c ∈ s.takeWhile nameOkChar ++ s.dropWhile nameOkChar := by
          rw [hsplit]; exact hc
        rcases List.mem_append.1 this with h | h
        · exact List.mem_takeWhile_imp h
        · rw [hD] at h; simp at h
    · right
      refine ⟨s.takeWhile nameOkChar, ?_, hTne, fun c hc => List.mem_takeWhile_imp hc⟩
      conv_lhs => rw [← hsplit]
      rw [hD]
  · rintro (⟨hne, hall⟩ | ⟨t, hs, htne, hall⟩)
    · rw [takeWhile_eq_self_of_all _ _ hall, dropWhile_eq_nil_of_all _ _ hall]
      exact ⟨hne, Or.inl rfl⟩
    · subst hs
      rw [takeWhile_concat_of _ _ _ hall (by decide),
        dropWhile_concat_of _ _ _ hall (by decide)]
      exact ⟨htne, Or.inr rfl⟩

theorem NAME_PATTERN_match_stripped (m : List Char) (hne : pyStrip m ≠ []) :
    (NAME_PATTERN_match (pyStrip m) = true ↔ ∀ c ∈ pyStrip m, nameOkChar c = true) := by
  constructor
  · intro h
    rcases (NAME_PATTERN_match_iff _).1 h with ⟨_, hall⟩ | ⟨t, hs, _, _⟩
    · exact hall
    · exfalso
      have : (pyStrip m).getLast? = some '\n' := by rw [hs]; exact List.getLast?_concat t
      have := pyStrip_getLast_not_space m '\n' this
      simp [pyIsSpace] at this
  · intro h
    exact (NAME_PATTERN_match_iff _).2 (Or.inl ⟨hne, h⟩)

theorem validate_name_eq_some_iff (s : List Char) :
    validate_name s = some () ↔ NAME_PATTERN_match s = true := by
  unfold validate_name
  by_cases h : NAME_PATTERN_match s = true <;> simp [h]

/-! ## The group-command generator -/

theorem gen_group_cmd_aux_spec (pre g : List Char) :
    ∀ (members cmds : List (List Char)),
      gen_group_cmd_aux pre g members cmds =
        if ∀ m ∈ members, pyStrip m = [] ∨ NAME_PATTERN_match (pyStrip m) = true
        then some (cmds ++ ((members.map pyStrip).filter (· ≠ [])).map
          (fun m => pre ++ ' ' :: g ++ " static ".data ++ m))
        else none
  | [], cmds => by simp [gen_group_cmd_aux]
  | m0 :: rest, cmds => by
    rw [gen_group_cmd_aux]
    by_cases hm : pyStrip m0 = []
    · rw [if_pos hm, gen_group_cmd_aux_spec pre g rest cmds]
      simp [hm]
    · rw [if_neg hm]
      unfold validate_member_name validate_name
      by_cases hv : NAME_PATTERN_match (pyStrip m0) = true
      · rw [if_pos hv]
        rw [gen_group_cmd_aux_spec pre g rest
          (cmds ++ [pre ++ ' ' :: g ++ " static ".data ++ pyStrip m0])]
        by_cases hr : ∀ m ∈ rest, pyStrip m = [] ∨ NAME_PATTERN_match (pyStrip m) = true
        · rw [if_pos hr, if_pos (by simpa [hv] using hr)]
          simp [hm]
        · rw [if_neg hr, if_neg (by simpa [hv] using hr)]
      · rw [if_neg hv, if_neg (by simp [hm, hv])]

/-! ## Claim theorems -/

/-- C1: the claim that `validate_name` fails exactly on the empty string and on
strings containing a space or `'/'` is false: `"a\tb"` contains neither a space
nor `'/'` and is nonempty, yet `validate_name` rejects it (the regex class
`\s` covers every whitespace character, not just the space). -/
theorem C1_counterexample :
    validate_name ['a', '\t', 'b'] = none ∧
      ¬(['a', '\t', 'b'] = ([] : List Char) ∨ ' ' ∈ ['a', '\t', 'b'] ∨
        '/' ∈ ['a', '\t', 'b']) := by decide

/-- C1 (amended): `validate_name s` succeeds exactly when either `s` is
nonempty and every character of `s` is neither Python whitespace nor `'/'`,
or `s` is such a string followed by one final `'\n'` (Python's `$` matches
just before a single trailing newline); equivalently, it fails exactly when
`s` is empty, contains `'/'`, or contains whitespace other than one trailing
newline. -/
theorem C1_amended (s : List Char) :
    validate_name s = some () ↔
      ((s ≠ [] ∧ ∀ c ∈ s, pyIsSpace c = false ∧ c ≠ '/') ∨
       (∃ t, s = t ++ ['\n'] ∧ t ≠ [] ∧ ∀ c ∈ t, pyIsSpace c = false ∧ c ≠ '/')) := by
  rw [validate_name_eq_some_iff, NAME_PATTERN_match_iff]
  constructor
  · rintro (⟨h1, h2⟩ | ⟨t, ht, h2, h3⟩)
    · exact Or.inl ⟨h1, fun c hc => (nameOkChar_iff c).1 (h2 c hc)⟩
    · exact Or.inr ⟨t, ht, h2, fun c hc => (nameOkChar_iff c).1 (h3 c hc)⟩
  · rintro (⟨h1, h2⟩ | ⟨t, ht, h2, h3⟩)
    · exact Or.inl ⟨h1, fun c hc => (nameOkChar_iff c).2 (h2 c hc)⟩
    · exact Or.inr ⟨t, ht, h2, fun c hc => (nameOkChar_iff c).2 (h3 c hc)⟩

/-- C6: the claimed invariant (a validated name contains no whitespace of any
kind) is false: `"abc\n"` is accepted by `validate_name` although it contains
the whitespace character `'\n'`, because Python's `$` matches just before a
single trailing newline. -/
theorem C6_counterexample :
    validate_name ['a', 'b', 'c', '\n'] = some () ∧
      pyIsSpace '\n' = true ∧ '\n' ∈ ['a', 'b', 'c', '\n'] := by decide

/-- C6 (amended): if `validate_name s` succeeds then `s` contains no `'/'`
and no whitespace character, except possibly one final `'\n'`: every
character before the last is non-whitespace, and any whitespace character in
`s` is a trailing newline. -/
theorem C6_amended (s : List Char) (h : validate_name s = some ()) :
    '/' ∉ s ∧ (∀ c ∈ s.dropLast, pyIsSpace c = false) ∧
      (∀ c ∈ s, pyIsSpace c = true → c = '\n' ∧ s.getLast? = some '\n') := by
  have hm : NAME_PATTERN_match s = true := (validate_name_eq_some_iff s).1 h
  rcases (NAME_PATTERN_match_iff s).1 hm with ⟨_, hall⟩ | ⟨t, ht, _, hall⟩
  · refine ⟨?_, ?_, ?_⟩
    · intro hsl
      exact ((nameOkChar_iff _).1 (hall _ hsl)).2 rfl
    · intro c hc
      exact ((nameOkChar_iff _).1 (hall c (List.mem_of_mem_dropLast hc))).1
    · intro c hc hsp
      have := ((nameOkChar_iff _).1 (hall c hc)).1
      rw [hsp] at this
      exact absurd this (by simp)
  · subst ht
    refine ⟨?_, ?_, ?_⟩
    · intro hsl
      rcases List.mem_append.1 hsl with h1 | h2
      · exact ((nameOkChar_iff _).1 (hall _ h1)).2 rfl
      · simp at h2
    · rw [List.dropLast_concat]
      intro c hc
      exact ((nameOkChar_iff _).1 (hall c hc)).1
    · intro c hc hsp
      rcases List.mem_append.1 hc with h1 | h2
      · have := ((nameOkChar_iff _).1 (hall c h1)).1
        rw [hsp] at this
        exact absurd this (by simp)
      · simp only [List.mem_singleton] at h2
        subst h2
        exact ⟨rfl, List.getLast?_concat t⟩

/-- Witness for `C6_amended` at the concrete accepted name `"web1"`. -/
theorem C6_amended_witness :
    validate_name ['w', 'e', 'b', '1'] = some () ∧
      ('/' ∉ ['w', 'e', 'b', '1'] ∧
        (∀ c ∈ ['w', 'e', 'b', '1'].dropLast, pyIsSpace c = false) ∧
        (∀ c ∈ ['w', 'e', 'b', '1'], pyIsSpace c = true →
          c = '\n' ∧ ['w', 'e', 'b', '1'].getLast? = some '\n')) :=
  ⟨by decide, C6_amended ['w', 'e', 'b', '1'] (by decide)⟩

/-- C7: `gen_group_cmd` succeeds exactly when every member is blank after
trimming or has a trimmed form free of whitespace and `'/'`; on success it
emits, in the original order, exactly one line
`<pre> <group> static <trimmed member>` per non-blank member, where the
dialect is `set address-group` for the platform string `"Firewall"` and
`set shared address-group` otherwise; any invalid member makes the whole
call fail with no command list (the error names the first such member, which
an `Option` result does not record). -/
theorem C7_gen_group_cmd_spec (platform g : List Char) (members : List (List Char)) :
    gen_group_cmd platform g members =
      if ∀ m ∈ members, pyStrip m = [] ∨ ∀ c ∈ pyStrip m, pyIsSpace c = false ∧ c ≠ '/'
      then some (((members.map pyStrip).filter (· ≠ [])).map
        (fun m =>
          (if platform = "Firewall".data then "set address-group".data
           else "set shared address-group".data) ++ ' ' :: g ++ " static ".data ++ m))
      else none := by
  unfold gen_group_cmd
  rw [gen_group_cmd_aux_spec]
  rw [List.nil_append]
  refine if_congr ?_ rfl rfl
  refine forall₂_congr (fun m _ => ?_)
  by_cases hm : pyStrip m = []
  · constructor <;> intro _ <;> exact Or.inl hm
  · rw [or_iff_right hm, or_iff_right hm, NAME_PATTERN_match_stripped m hm]
    exact forall₂_congr (fun c _ => nameOkChar_iff c)

/-- C8: in an address import, a count mismatch between the names collection
and the normalized-addresses collection rejects the whole import and no
command is produced (`none` models the aborted action that leaves the
displayed output unchanged); with equal counts the i-th name is paired with
the i-th address. -/
theorem C8_import_address_pairing (platform : List Char) (names ips : List (List Char)) :
    (names.length ≠ ips.length → import_address_pair platform names ips = none) ∧
    (names.length = ips.length →
      ∃ cmds, import_address_pair platform names ips = some cmds ∧
        cmds.length = names.length ∧
        ∀ i, i < names.length →
          cmds.getD i [] = gen_address_cmd platform (names.getD i []) (ips.getD i [])) := by
  constructor
  · intro h
    simp [import_address_pair, h]
  · intro h
    refine ⟨_, by rw [import_address_pair, if_neg (by omega)], ?_, ?_⟩
    · simp [h]
    · intro i hi
      have hiz : i < ((names.zip ips).map
          (fun p => gen_address_cmd platform p.1 p.2)).length := by
        simp [h]
        omega
      rw [List.getD_eq_getElem _ _ hiz, List.getD_eq_getElem _ _ hi,
        List.getD_eq_getElem _ _ (by omega : i < ips.length)]
      simp [List.getElem_zip]

/-- Witness for `C8_import_address_pairing`: the spec's own example, two
names against one address, is rejected with no output. -/
theorem C8_witness :
    import_address_pair "Firewall".data ["n1".data, "n2".data] ["1.1.1.1/32".data] = none :=
  (C8_import_address_pairing "Firewall".data ["n1".data, "n2".data]
    ["1.1.1.1/32".data]).1 (by decide)

theorem joinSep_splitChar (sep : Char) : ∀ s : List Char, joinSep sep (splitChar sep s) = s
  | [] => rfl
  | c :: cs => by
    have ih := joinSep_splitChar sep cs
    rcases hr : splitChar sep cs with _ | ⟨p, ps⟩
    · exact absurd hr (splitChar_ne_nil sep cs)
    · rw [hr] at ih
      by_cases hc : c = sep
      · subst hc
        rw [splitChar_cons_sep, hr, joinSep_cons_cons, List.nil_append, ih]
      · rw [splitChar_cons_ne sep c cs hc, hr]
        simp only [List.headD_cons, List.tail_cons]
        cases ps with
        | nil =>
          show c :: p = c :: cs
          rw [show joinSep sep [p] = p from rfl] at ih
          rw [ih]
        | cons q ps' =>
          rw [joinSep_cons_cons]
          rw [joinSep_cons_cons] at ih
          rw [List.cons_append, ih]

theorem mem_joinSep_of_mem (sep c : Char) :
    ∀ (parts : List (List Char)) (p : List Char), p ∈ parts → c ∈ p →
      c ∈ joinSep sep parts
  | [], p, hp, _ => by simp at hp
  | [p0], p, hp, hc => by
    simp only [List.mem_singleton] at hp
    subst hp
    simpa [joinSep] using hc
  | p0 :: q :: r, p, hp, hc => by
    rw [joinSep_cons_cons]
    rcases List.mem_cons.1 hp with rfl | hm
    · exact List.mem_append.2 (Or.inl hc)
    · exact List.mem_append.2
        (Or.inr (List.mem_cons_of_mem _ (mem_joinSep_of_mem sep c (q :: r) p hm hc)))

/-- A row whose characters are all whitespace yields no members: every part
of the comma-split strips to the empty list. -/
theorem blank_line_no_members (ln : List Char) (h : pyStrip ln = []) :
    ((splitChar ',' ln).map pyStrip).filter (· ≠ []) = [] := by
  have hall := (pyStrip_eq_nil_iff ln).1 h
  apply List.filter_eq_nil_iff.2
  intro x hx
  obtain ⟨p, hp, hxe⟩ := List.mem_map.1 hx
  have : pyStrip p = [] := by
    apply (pyStrip_eq_nil_iff p).2
    intro d hd
    apply hall
    have := mem_joinSep_of_mem ',' d (splitChar ',' ln) p hp hd
    rwa [joinSep_splitChar] at this
  subst hxe
  simp [this]

theorem mapM_validate_of_match :
    ∀ ms : List (List Char), (∀ m ∈ ms, NAME_PATTERN_match m = true) →
      ms.mapM validate_member_name = some (ms.map (fun _ => ()))
  | [], _ => rfl
  | m :: t, h => by
    rw [List.mapM_cons,
      show validate_member_name m = some () from (validate_name_eq_some_iff m).2 (h m (by simp)),
      mapM_validate_of_match t (fun x hx => h x (by simp [hx]))]
    rfl

theorem members_of_txt_line_eq (ln : List Char)
    (h : ∀ m ∈ ((splitChar ',' ln).map pyStrip).filter (· ≠ []),
      NAME_PATTERN_match m = true) :
    members_of_txt_line ln = some (((splitChar ',' ln).map pyStrip).filter (· ≠ [])) := by
  unfold members_of_txt_line
  by_cases hb : pyStrip ln = []
  · rw [if_pos hb, blank_line_no_members ln hb]
  · rw [if_neg hb]
    simp only [mapM_validate_of_match _ h]

theorem mapM_members_of_txt :
    ∀ lines : List (List Char),
      (∀ ln ∈ lines, ∀ m ∈ ((splitChar ',' ln).map pyStrip).filter (· ≠ []),
        NAME_PATTERN_match m = true) →
      lines.mapM members_of_txt_line =
        some (lines.map (fun ln => ((splitChar ',' ln).map pyStrip).filter (· ≠ [])))
  | [], _ => rfl
  | ln :: t, h => by
    rw [List.mapM_cons, members_of_txt_line_eq ln (h ln (by simp)),
      mapM_members_of_txt t (fun x hx => h x (by simp [hx]))]
    rfl

theorem members_of_csv_row_eq (row : List (List Char))
    (h : ∀ m ∈ ((row.drop 1).filter (fun c => pyStrip c ≠ [])).map pyStrip,
      NAME_PATTERN_match m = true) :
    members_of_csv_row row =
      some (((row.drop 1).filter (fun c => pyStrip c ≠ [])).map pyStrip) := by
  unfold members_of_csv_row
  simp only [mapM_validate_of_match _ h]

theorem mapM_members_of_csv :
    ∀ rows : List (List (List Char)),
      (∀ row ∈ rows,
        ∀ m ∈ ((row.drop 1).filter (fun c => pyStrip c ≠ [])).map pyStrip,
          NAME_PATTERN_match m = true) →
      rows.mapM members_of_csv_row =
        some (rows.map
          (fun row => ((row.drop 1).filter (fun c => pyStrip c ≠ [])).map pyStrip))
  | [], _ => rfl
  | row :: t, h => by
    rw [List.mapM_cons, members_of_csv_row_eq row (h row (by simp)),
      mapM_members_of_csv t (fun x hx => h x (by simp [hx]))]
    rfl

/-- C9: the claim that `read_members_from_file` keeps an empty member list
for EVERY row with zero members after trimming is false for the `.csv`
branch: a row with no cells at all (a blank line of the csv file) is
silently dropped by `if not row: continue`, so the result has one entry
fewer than the file and no `[]` stands in for the blank row — here the
two-row input yields a single-row result — while the `.txt` branch does
keep its blank line as `[]`. -/
theorem C9_counterexample :
    read_members_from_csv_rows [[], [("g1").data, ("a").data]] =
      some [[("a").data]] ∧
    ([[("a").data]] : List (List (List Char))).length ≠
      ([[], [("g1").data, ("a").data]] : List (List (List Char))).length ∧
    read_members_from_txt_lines [[], ("a").data] = some [[], [("a").data]] :=
  ⟨by decide, by decide, by decide⟩

/-- C9 (amended): the `.txt` member reader keeps one entry per line, a blank
line becoming an empty member list; the `.csv` member reader keeps one entry
per row that has at least one cell — such a row with no non-blank member
cell from the second column on is kept as an empty member list — but drops
rows with no cells entirely, so its output counts only the surviving rows;
and the group-import layer rejects the whole import, emitting nothing, on a
group/member-row count mismatch or on any row with an empty member list. -/
theorem C9_amended :
    (∀ lines : List (List Char), lines ≠ [] →
      (∀ ln ∈ lines, ∀ m ∈ ((splitChar ',' ln).map pyStrip).filter (· ≠ []),
        NAME_PATTERN_match m = true) →
      read_members_from_txt_lines lines =
        some (lines.map (fun ln => ((splitChar ',' ln).map pyStrip).filter (· ≠ []))) ∧
      (lines.map (fun ln => ((splitChar ',' ln).map pyStrip).filter (· ≠ []))).length =
        lines.length ∧
      ∀ ln ∈ lines, pyStrip ln = [] →
        ((splitChar ',' ln).map pyStrip).filter (· ≠ []) = []) ∧
    (∀ rows : List (List (List Char)), rows.filter (· ≠ []) ≠ [] →
      (∀ row ∈ rows.filter (· ≠ []),
        ∀ m ∈ ((row.drop 1).filter (fun c => pyStrip c ≠ [])).map pyStrip,
          NAME_PATTERN_match m = true) →
      read_members_from_csv_rows rows =
        some ((rows.filter (· ≠ [])).map
          (fun row => ((row.drop 1).filter (fun c => pyStrip c ≠ [])).map pyStrip)) ∧
      ((rows.filter (· ≠ [])).map
          (fun row => ((row.drop 1).filter (fun c => pyStrip c ≠ [])).map pyStrip)).length =
        (rows.filter (· ≠ [])).length ∧
      ∀ row ∈ rows, (∀ c ∈ row.drop 1, pyStrip c = []) →
        ((row.drop 1).filter (fun c => pyStrip c ≠ [])).map pyStrip = []) ∧
    (∀ (platform : List Char) (groups : List (List Char))
        (mls : List (List (List Char))),
      (groups.length ≠ mls.length ∨ ∃ row ∈ mls, row = []) →
      import_group_pair platform groups mls = none) := by
  refine ⟨?_, ?_, ?_⟩
  · intro lines hne h
    refine ⟨?_, by simp, fun ln _ hb => blank_line_no_members ln hb⟩
    unfold read_members_from_txt_lines
    rw [mapM_members_of_txt lines h]
    simp [hne]
  · intro rows hne h
    refine ⟨?_, by simp, ?_⟩
    · unfold read_members_from_csv_rows
      rw [mapM_members_of_csv _ h]
      show (if (rows.filter (· ≠ [])).map
            (fun row => ((row.drop 1).filter (fun c => pyStrip c ≠ [])).map pyStrip) = []
          then none
          else some ((rows.filter (· ≠ [])).map
            (fun row => ((row.drop 1).filter (fun c => pyStrip c ≠ [])).map pyStrip))) =
        some ((rows.filter (· ≠ [])).map
          (fun row => ((row.drop 1).filter (fun c => pyStrip c ≠ [])).map pyStrip))
      rw [if_neg (fun he => hne (List.map_eq_nil_iff.mp he))]
    · intro row _ hall
      rw [List.filter_eq_nil_iff.2 (fun c hc => by simp [hall c hc])]
      rfl
  · intro platform groups mls h
    unfold import_group_pair
    rcases h with h | ⟨row, hrow, hre⟩
    · rw [if_pos (by omega)]
    · by_cases hl : mls.length ≠ groups.length
      · rw [if_pos hl]
      · rw [if_neg hl, if_pos ?_]
        exact List.any_eq_true.2 ⟨row, hrow, by simp [hre]⟩

/-- Witness for `C9_amended`: a two-line txt member file whose second line is
blank keeps the blank row as an empty member list; a two-row csv file whose
second row has a group-name cell but no member cells keeps that row as an
empty member list; and an import with an empty member row is rejected. -/
theorem C9_amended_witness :
    read_members_from_txt_lines [("a,b").data, (" ").data] =
      some (([("a,b").data, (" ").data]).map
        (fun ln => ((splitChar ',' ln).map pyStrip).filter (· ≠ []))) ∧
    read_members_from_csv_rows [[("g1").data, ("a").data], [("g2").data]] =
      some (([[("g1").data, ("a").data], [("g2").data]].filter (· ≠ [])).map
        (fun row => ((row.drop 1).filter (fun c => pyStrip c ≠ [])).map pyStrip)) ∧
    import_group_pair ("Firewall").data [("g1").data, ("g2").data]
      [[("a").data], []] = none :=
  ⟨(C9_amended.1 [("a,b").data, (" ").data] (by decide) (by decide)).1,
    (C9_amended.2.1 [[("g1").data, ("a").data], [("g2").data]]
      (by decide) (by decide)).1,
    C9_amended.2.2 ("Firewall").data [("g1").data, ("g2").data] [[("a").data], []]
      (Or.inr ⟨[], by decide, rfl⟩)⟩

/-! ## IPv4 round trips -/

theorem foldl_dec_ge_init (t : List Char) :
    ∀ a : Nat, a ≤ t.foldl (fun a c => a * 10 + digitVal c) a := by
  induction t with
  | nil => intro a; simp
  | cons c r ih =>
    intro a
    rw [List.foldl_cons]
    calc a ≤ a * 10 + digitVal c := by omega
      _ ≤ _ := ih (a * 10 + digitVal c)

theorem decDigitsToNat_pos (t : List Char) (hne : t ≠ [])
    (hall : ∀ c ∈ t, isAsciiDigit c = true) (hh : t.headD ' ' ≠ '0') :
    1 ≤ decDigitsToNat t := by
  cases t with
  | nil => exact absurd rfl hne
  | cons c r =>
    have hc : isAsciiDigit c = true := hall c (by simp)
    have hv : 1 ≤ digitVal c := by
      rcases Nat.eq_zero_or_pos (digitVal c) with h0 | h0
      · exfalso
        apply hh
        have := digitChar_digitVal c hc
        rw [h0] at this
        simpa using this.symm
      · exact h0
    unfold decDigitsToNat
    rw [List.foldl_cons]
    calc 1 ≤ 0 * 10 + digitVal c := by omega
      _ ≤ _ := foldl_dec_ge_init r _

theorem natDec_decDigitsToNat (o : List Char) :
    o ≠ [] → (∀ c ∈ o, isAsciiDigit c = true) →
    (o = ['0'] ∨ o.headD ' ' ≠ '0') → natDec (decDigitsToNat o) = o := by
  induction o using List.reverseRecOn with
  | nil => intro h; exact absurd rfl h
  | append_singleton t x ih =>
    intro _ hall hlead
    have hx : isAsciiDigit x = true := hall x (by simp)
    have hxv : digitVal x < 10 := digitVal_lt x hx
    rcases eq_or_ne t [] with ht | ht
    · subst ht
      simp only [List.nil_append, decDigitsToNat, List.foldl_cons, List.foldl_nil]
      rw [Nat.zero_mul, Nat.zero_add, natDec_lt _ hxv, digitChar_digitVal x hx]
    · have hh : t.headD ' ' ≠ '0' := by
        rcases hlead with h1 | h1
        · exfalso
          have : (t ++ [x]).length = 1 := by rw [h1]; rfl
          simp only [List.length_append, List.length_singleton] at this
          exact ht (List.length_eq_zero.1 (by omega))
        · rwa [headD_append_of_ne_nil t [x] ' ' ht] at h1
      have htall : ∀ c ∈ t, isAsciiDigit c = true :=
        fun c hc => hall c (List.mem_append.2 (Or.inl hc))
      have hm : 1 ≤ decDigitsToNat t := decDigitsToNat_pos t ht htall hh
      rw [decDigitsToNat_append]
      have h10 : 10 ≤ decDigitsToNat t * 10 + digitVal x := by omega
      rw [natDec_ge _ h10]
      have hdiv : (decDigitsToNat t * 10 + digitVal x) / 10 = decDigitsToNat t := by omega
      have hmod : (decDigitsToNat t * 10 + digitVal x) % 10 = digitVal x := by omega
      rw [hdiv, hmod, ih ht htall (Or.inr hh), digitChar_digitVal x hx]

theorem natDec_of_parse_octet (o : List Char) (v : Nat) (h : parse_octet o = some v) :
    natDec v = o ∧ v < 256 ∧ o ≠ [] ∧ ∀ c ∈ o, isAsciiDigit c = true := by
  unfold parse_octet at h
  by_cases h1 : o = []
  · rw [if_pos h1] at h; exact absurd h (by simp)
  rw [if_neg h1] at h
  by_cases h2 : ¬ o.all isAsciiDigit
  · rw [if_pos h2] at h; exact absurd h (by simp)
  rw [if_neg h2] at h
  push_neg at h2
  by_cases h3 : 3 < o.length
  · rw [if_pos h3] at h; exact absurd h (by simp)
  rw [if_neg h3] at h
  by_cases h4 : o ≠ ['0'] ∧ o.headD ' ' = '0'
  · rw [if_pos h4] at h; exact absurd h (by simp)
  rw [if_neg h4] at h
  by_cases h5 : 255 < decDigitsToNat o
  · rw [if_pos h5] at h; exact absurd h (by simp)
  rw [if_neg h5] at h
  have hv : v = decDigitsToNat o := by
    simpa [eq_comm] using h
  have hall : ∀ c ∈ o, isAsciiDigit c = true := by
    simpa [List.all_eq_true] using h2
  have hlead : o = ['0'] ∨ o.headD ' ' ≠ '0' := by tauto
  subst hv
  exact ⟨natDec_decDigitsToNat o h1 hall hlead, by omega, h1, hall⟩

theorem baseGroups_snoc (B : Nat) (hB : 0 < B) (v : Nat) (hv : v < B) :
    ∀ k m, baseGroups B (m * B + v) (k + 1) = baseGroups B m k ++ [v] := by
  intro k
  induction k with
  | zero =>
    intro m
    simp only [baseGroups, pow_zero, Nat.div_one]
    rw [Nat.add_comm (m * B) v, Nat.add_mul_mod_self_right, Nat.mod_eq_of_lt hv]
    rfl
  | succ k ih =>
    intro m
    have hhead : (m * B + v) / B ^ (k + 1) = m / B ^ k := by
      rw [pow_succ, mul_comm (B ^ k) B, ← Nat.div_div_eq_div_mul,
        Nat.add_comm (m * B) v, Nat.add_mul_div_right v m hB,
        Nat.div_eq_of_lt hv, Nat.zero_add]
    show (m * B + v) / B ^ (k + 1) % B :: baseGroups B (m * B + v) (k + 1) =
      (m / B ^ k % B :: baseGroups B m k) ++ [v]
    rw [hhead, ih m, List.cons_append]

theorem baseGroups_compose4 (a b c d : Nat) (ha : a < 256) (hb : b < 256)
    (hc : c < 256) (hd : d < 256) :
    baseGroups 256 (((a * 256 + b) * 256 + c) * 256 + d) 4 = [a, b, c, d] := by
  rw [baseGroups_snoc 256 (by omega) d hd 3 ((a * 256 + b) * 256 + c),
    baseGroups_snoc 256 (by omega) c hc 2 (a * 256 + b),
    baseGroups_snoc 256 (by omega) b hb 1 a]
  simp [baseGroups, Nat.mod_eq_of_lt ha]

theorem ipv4_render_of_parse (s : List Char) (n : Nat)
    (h : ipv4_int_from_string s = some n) :
    ipv4_string_from_int n = s ∧ n < 2 ^ 32 ∧ ∀ c ∈ s, isAsciiDigit c = true ∨ c = '.' := by
  unfold ipv4_int_from_string at h
  by_cases h0 : s = []
  · rw [if_pos h0] at h; exact absurd h (by simp)
  rw [if_neg h0] at h
  rcases hsp : splitChar '.' s with _ | ⟨o1, _ | ⟨o2, _ | ⟨o3, _ | ⟨o4, _ | ⟨o5, r⟩⟩⟩⟩⟩ <;>
    rw [hsp] at h
  · exact Option.noConfusion (show (none : Option Nat) = some n from h)
  · exact Option.noConfusion (show (none : Option Nat) = some n from h)
  · exact Option.noConfusion (show (none : Option Nat) = some n from h)
  · exact Option.noConfusion (show (none : Option Nat) = some n from h)
  · replace h : (match parse_octet o1, parse_octet o2, parse_octet o3, parse_octet o4 with
      | some a, some b, some c, some d => some (((a * 256 + b) * 256 + c) * 256 + d)
      | _, _, _, _ => none) = some n := h
    rcases hp1 : parse_octet o1 with _ | v1 <;> rw [hp1] at h
    · exact Option.noConfusion (show (none : Option Nat) = some n from h)
    rcases hp2 : parse_octet o2 with _ | v2 <;> rw [hp2] at h
    · exact Option.noConfusion (show (none : Option Nat) = some n from h)
    rcases hp3 : parse_octet o3 with _ | v3 <;> rw [hp3] at h
    · exact Option.noConfusion (show (none : Option Nat) = some n from h)
    rcases hp4 : parse_octet o4 with _ | v4 <;> rw [hp4] at h
    · exact Option.noConfusion (show (none : Option Nat) = some n from h)
    have hn : n = ((v1 * 256 + v2) * 256 + v3) * 256 + v4 :=
      (Option.some.inj
        (show some (((v1 * 256 + v2) * 256 + v3) * 256 + v4) = some n from h)).symm
    obtain ⟨hr1, hb1, hne1, hd1⟩ := natDec_of_parse_octet o1 v1 hp1
    obtain ⟨hr2, hb2, hne2, hd2⟩ := natDec_of_parse_octet o2 v2 hp2
    obtain ⟨hr3, hb3, hne3, hd3⟩ := natDec_of_parse_octet o3 v3 hp3
    obtain ⟨hr4, hb4, hne4, hd4⟩ := natDec_of_parse_octet o4 v4 hp4
    subst hn
    refine ⟨?_, by omega, ?_⟩
    · unfold ipv4_string_from_int
      rw [baseGroups_compose4 v1 v2 v3 v4 hb1 hb2 hb3 hb4]
      rw [List.map_cons, List.map_cons, List.map_cons, List.map_cons, List.map_nil,
        hr1, hr2, hr3, hr4, ← hsp, joinSep_splitChar]
    · intro c hc
      have hj : c ∈ joinSep '.' (splitChar '.' s) := by
        rw [joinSep_splitChar]; exact hc
      rw [hsp] at hj
      rcases mem_joinSep '.' c _ hj with he | ⟨p, hp, hcp⟩
      · exact Or.inr he
      · left
        rcases List.mem_cons.1 hp with rfl | hp
        · exact hd1 c hcp
        rcases List.mem_cons.1 hp with rfl | hp
        · exact hd2 c hcp
        rcases List.mem_cons.1 hp with rfl | hp
        · exact hd3 c hcp
        rcases List.mem_cons.1 hp with rfl | hp
        · exact hd4 c hcp
        · simp at hp
  · exact Option.noConfusion (show (none : Option Nat) = some n from h)

theorem ipv4_string_from_int_charset (n : Nat) :
    ∀ c ∈ ipv4_string_from_int n, isAsciiDigit c = true ∨ c = '.' := by
  intro c hc
  unfold ipv4_string_from_int at hc
  rcases mem_joinSep '.' c _ hc with he | ⟨p, hp, hcp⟩
  · exact Or.inr he
  · obtain ⟨g, _, hge⟩ := List.mem_map.1 hp
    subst hge
    exact Or.inl (natDec_all_digit g c hcp)

theorem ipv4_string_from_int_ne_nil (n : Nat) : ipv4_string_from_int n ≠ [] := by
  unfold ipv4_string_from_int
  simp only [baseGroups, List.map_cons, joinSep_cons_cons]
  intro h
  exact natDec_ne_nil _ (List.append_eq_nil.1 h).1

theorem ipv4_parse_of_render (n : Nat) (hn : n < 2 ^ 32) :
    ipv4_int_from_string (ipv4_string_from_int n) = some n := by
  have hlt := baseGroups_lt 256 n (by omega) 4
  have hsplit : splitChar '.' (ipv4_string_from_int n) =
      (baseGroups 256 n 4).map natDec := by
    unfold ipv4_string_from_int
    apply splitChar_joinSep
    · simp [baseGroups]
    · intro p hp
      obtain ⟨g, _, hge⟩ := List.mem_map.1 hp
      subst hge
      intro hdot
      exact (digit_ne_sep '.' (natDec_all_digit g '.' hdot)).1 rfl
  unfold ipv4_int_from_string
  rw [if_neg (ipv4_string_from_int_ne_nil n), hsplit]
  have hshape : (baseGroups 256 n 4).map natDec =
      [natDec (n / 256 ^ 3 % 256), natDec (n / 256 ^ 2 % 256),
       natDec (n / 256 ^ 1 % 256), natDec (n / 256 ^ 0 % 256)] := by
    simp [baseGroups]
  rw [hshape]
  show (match parse_octet (natDec (n / 256 ^ 3 % 256)), parse_octet (natDec (n / 256 ^ 2 % 256)),
      parse_octet (natDec (n / 256 ^ 1 % 256)), parse_octet (natDec (n / 256 ^ 0 % 256)) with
    | some a, some b, some c, some d => some (((a * 256 + b) * 256 + c) * 256 + d)
    | _, _, _, _ => none) = some n
  rw [parse_octet_natDec _ (Nat.mod_lt _ (by omega)),
    parse_octet_natDec _ (Nat.mod_lt _ (by omega)),
    parse_octet_natDec _ (Nat.mod_lt _ (by omega)),
    parse_octet_natDec _ (Nat.mod_lt _ (by omega))]
  show some (((n / 256 ^ 3 % 256 * 256 + n / 256 ^ 2 % 256) * 256 + n / 256 ^ 1 % 256) * 256 +
    n / 256 ^ 0 % 256) = some n
  congr 1
  simp only [pow_succ, pow_zero, Nat.one_mul, Nat.div_one]
  omega

theorem ip_address_v4_elim (s : List Char) (n : Nat)
    (h : ip_address_from_string s = some (IPAddr.v4 n)) :
    s.contains '/' = false ∧ ipv4_int_from_string s = some n := by
  unfold ip_address_from_string at h
  rcases h4 : ipv4_address_from_string s with _ | m
  · rw [h4] at h
    rcases h6 : ipv6_address_from_string s with _ | p <;> rw [h6] at h <;> simp at h
  · rw [h4] at h
    simp only [Option.some.injEq, IPAddr.v4.injEq] at h
    subst h
    unfold ipv4_address_from_string at h4
    by_cases hsl : s.contains '/' = true
    · rw [if_pos hsl] at h4
      exact absurd h4 (by simp)
    · rw [if_neg hsl] at h4
      exact ⟨by simpa using hsl, h4⟩

/-- C3: for every string that Python's `ip_address` accepts as an IPv4
address (so: canonical dotted decimal, no mask), `normalize_ip_or_cidr`
returns exactly the input with `"/32"` appended — the canonical re-rendering
of an accepted IPv4 address string reproduces the input verbatim. -/
theorem C3_v4_default_mask (s : List Char) (n : Nat)
    (h : ip_address_from_string s = some (IPAddr.v4 n)) :
    normalize_ip_or_cidr s = some (s ++ "/32".data) := by
  obtain ⟨hslash, hint⟩ := ip_address_v4_elim s n h
  obtain ⟨hrender, _, hchar⟩ := ipv4_render_of_parse s n hint
  have hs_ne : s ≠ [] := by
    intro he
    rw [he] at hint
    exact absurd hint (by simp [ipv4_int_from_string])
  have hstrip : pyStrip s = s :=
    pyStrip_eq_self_of_all s (fun c hc => by
      rcases hchar c hc with hd | hd
      · exact pyIsSpace_false_of_digit c hd
      · rw [hd]; decide)
  unfold normalize_ip_or_cidr
  simp only [hstrip]
  rw [if_neg hs_ne, if_neg (by simp only [hslash]; exact Bool.false_ne_true), h]
  show some (ipv4_string_from_int n ++ '/' :: natDec 32) = some (s ++ "/32".data)
  rw [hrender]
  have h32 : '/' :: natDec 32 = "/32".data := by decide
  rw [h32]

/-- Witness for `C3_v4_default_mask` at the address `"10.0.0.1"`. -/
theorem C3_witness :
    ip_address_from_string ("10.0.0.1").data = some (IPAddr.v4 167772161) ∧
    normalize_ip_or_cidr ("10.0.0.1").data = some (("10.0.0.1").data ++ "/32".data) :=
  ⟨by decide, C3_v4_default_mask ("10.0.0.1").data 167772161 (by decide)⟩

theorem ipv6_address_no_slash (s : List Char) (p : Nat × Option (List Char))
    (h : ipv6_address_from_string s = some p) : s.contains '/' = false := by
  unfold ipv6_address_from_string at h
  by_cases hsl : s.contains '/' = true
  · rw [if_pos hsl] at h
    exact absurd h (by simp)
  · simpa using hsl

theorem ip_address_v6_elim (s : List Char) (n : Nat) (sc : Option (List Char))
    (h : ip_address_from_string s = some (IPAddr.v6 n sc)) :
    s.contains '/' = false ∧ ipv6_address_from_string s = some (n, sc) := by
  unfold ip_address_from_string at h
  rcases h4 : ipv4_address_from_string s with _ | m
  · rw [h4] at h
    rcases h6 : ipv6_address_from_string s with _ | p
    · rw [h6] at h; simp at h
    · rw [h6] at h
      simp only [Option.map_some', Option.some.injEq, IPAddr.v6.injEq] at h
      obtain ⟨h1, h2⟩ := h
      have hp : p = (n, sc) := by
        cases p
        simp only at h1 h2
        rw [h1, h2]
      subst hp
      exact ⟨ipv6_address_no_slash s (n, sc) h6, rfl⟩
  · rw [h4] at h
    simp at h

/-! ## Inversion facts for the IPv6 parser -/

theorem partitionChar_some_decomp (sep : Char) :
    ∀ (s A B : List Char), partitionChar sep s = some (A, B) →
      s = A ++ sep :: B ∧ sep ∉ A
  | [], A, B, h => by simp [partitionChar] at h
  | c :: cs, A, B, h => by
    rw [partitionChar] at h
    by_cases hc : c = sep
    · rw [if_pos hc] at h
      simp only [Option.some.injEq, Prod.mk.injEq] at h
      rw [← h.1, ← h.2, hc]
      simp
    · rw [if_neg hc] at h
      rcases hp : partitionChar sep cs with _ | ⟨A', B'⟩
      · rw [hp] at h; simp at h
      · rw [hp] at h
        simp only [Option.map_some', Option.some.injEq, Prod.mk.injEq] at h
        obtain ⟨hA, hB⟩ := h
        obtain ⟨hd, hm⟩ := partitionChar_some_decomp sep cs A' B' hp
        constructor
        · rw [← hA, ← hB, List.cons_append, hd]
        · rw [← hA]
          intro hmem
          rcases List.mem_cons.1 hmem with he | he
          · exact hc he.symm
          · exact hm he

theorem splitChar_length (sep : Char) :
    ∀ s : List Char, (splitChar sep s).length = s.count sep + 1
  | [] => rfl
  | c :: cs => by
    by_cases hc : c = sep
    · rw [hc, splitChar_cons_sep]
      simp [splitChar_length sep cs, List.count_cons, hc]
    · rw [splitChar_cons_ne sep c cs hc]
      rcases hr : splitChar sep cs with _ | ⟨p, ps⟩
      · exact absurd hr (splitChar_ne_nil sep cs)
      · have := splitChar_length sep cs
        rw [hr] at this
        simp only [List.length_cons] at this ⊢
        simp [List.count_cons, hc, this]

theorem ipv4_network_none_of_long (s x y z : List Char) (rest : List (List Char))
    (h : splitChar '/' s = x :: y :: z :: rest) :
    ipv4_network_from_string s = none := by
  unfold ipv4_network_from_string
  rw [h]

theorem ipv6_network_none_of_long (s x y z : List Char) (rest : List (List Char))
    (h : splitChar '/' s = x :: y :: z :: rest) :
    ipv6_network_from_string s = none := by
  unfold ipv6_network_from_string
  rw [h]

theorem hexVal_lt (c : Char) (h : isHexDigitChar c = true) : hexVal c < 16 := by
  rcases isHexDigitChar_toNat c h with h1 | h1 | h1 <;>
    · unfold hexVal isAsciiDigit
      split <;> try omega
      · rename_i h2
        simp only [Bool.and_eq_true, decide_eq_true_eq] at h2
        omega
      all_goals
        (try split) <;> first
          | omega
          | (rename_i h3
             simp only [Bool.and_eq_true, decide_eq_true_eq] at *
             omega)

theorem hexDigitsToNat_lt (s : List Char) (h : ∀ c ∈ s, isHexDigitChar c = true) :
    hexDigitsToNat s < 16 ^ s.length := by
  suffices hgen : ∀ (t : List Char) (a : Nat), (∀ c ∈ t, isHexDigitChar c = true) →
      t.foldl (fun a c => a * 16 + hexVal c) a < (a + 1) * 16 ^ t.length by
    have := hgen s 0 h
    simpa [hexDigitsToNat] using this
  intro t
  induction t with
  | nil => intro a _; simp [Nat.lt_succ_self a]
  | cons c r ih =>
    intro a hall
    rw [List.foldl_cons]
    have h1 := ih (a * 16 + hexVal c) (fun x hx => hall x (by simp [hx]))
    have h2 : hexVal c < 16 := hexVal_lt c (hall c (by simp))
    calc r.foldl (fun a c => a * 16 + hexVal c) (a * 16 + hexVal c)
        < (a * 16 + hexVal c + 1) * 16 ^ r.length := h1
      _ ≤ (a + 1) * 16 ^ (c :: r).length := by
          simp only [List.length_cons, pow_succ]
          have : a * 16 + hexVal c + 1 ≤ (a + 1) * 16 := by omega
          calc (a * 16 + hexVal c + 1) * 16 ^ r.length
              ≤ (a + 1) * 16 * 16 ^ r.length := Nat.mul_le_mul_right _ this
            _ = (a + 1) * (16 ^ r.length * 16) := by ring

theorem parse_hextet_inv (s : List Char) (x : Nat) (h : parse_hextet s = some x) :
    x < 65536 ∧ s ≠ [] ∧ ∀ c ∈ s, isHexDigitChar c = true := by
  unfold parse_hextet at h
  by_cases h1 : ¬ s.all isHexDigitChar
  · rw [if_pos h1] at h; exact absurd h (by simp)
  rw [if_neg h1] at h
  push_neg at h1
  by_cases h2 : 4 < s.length
  · rw [if_pos h2] at h; exact absurd h (by simp)
  rw [if_neg h2] at h
  by_cases h3 : s = []
  · rw [if_pos h3] at h; exact absurd h (by simp)
  rw [if_neg h3] at h
  have hx : x = hexDigitsToNat s := by simpa [eq_comm] using h
  have hall : ∀ c ∈ s, isHexDigitChar c = true := by
    simpa [List.all_eq_true] using h1
  subst hx
  refine ⟨?_, h3, hall⟩
  calc hexDigitsToNat s < 16 ^ s.length := hexDigitsToNat_lt s hall
    _ ≤ 16 ^ 4 := Nat.pow_le_pow_right (by omega) (by omega)

theorem mapM_parse_hextet_inv :
    ∀ (l : List (List Char)) (hs : List Nat), l.mapM parse_hextet = some hs →
      (∀ x ∈ hs, x < 65536) ∧ (∀ t ∈ l, t ≠ [] ∧ ∀ c ∈ t, isHexDigitChar c = true) ∧
        hs.length = l.length
  | [], hs, h => by
    have hhs : hs = [] := by
      rw [List.mapM_nil] at h
      simpa [eq_comm] using h
    subst hhs
    refine ⟨by simp, by simp, rfl⟩
  | t :: r, hs, h => by
    rw [List.mapM_cons] at h
    rcases hp : parse_hextet t with _ | x
    · rw [hp] at h; exact absurd h (by simp)
    rw [hp] at h
    rcases hr : r.mapM parse_hextet with _ | xs
    · rw [hr] at h; exact absurd h (by simp)
    rw [hr] at h
    have hhs : hs = x :: xs := by
      simpa [eq_comm] using h
    obtain ⟨ih1, ih2, ih3⟩ := mapM_parse_hextet_inv r xs hr
    obtain ⟨hx1, hx2, hx3⟩ := parse_hextet_inv t x hp
    subst hhs
    refine ⟨?_, ?_, by simp [ih3]⟩
    · intro y hy
      rcases List.mem_cons.1 hy with rfl | hy
      · exact hx1
      · exact ih1 y hy
    · intro u hu
      rcases List.mem_cons.1 hu with rfl | hu
      · exact ⟨hx2, hx3⟩
      · exact ih2 u hu

theorem foldHextets_le : ∀ (hs : List Nat), (∀ x ∈ hs, x < 65536) →
    ∀ a, foldHextets a hs ≤ a * 65536 ^ hs.length + (65536 ^ hs.length - 1)
  | [], _, a => by simp [foldHextets]
  | x :: t, hall, a => by
    have hx : x < 65536 := hall x (by simp)
    have iht := foldHextets_le t (fun y hy => hall y (by simp [hy])) (a * 65536 + x)
    have hP : 1 ≤ 65536 ^ t.length := Nat.one_le_pow _ _ (by omega)
    show foldHextets (a * 65536 + x) t ≤ _
    calc foldHextets (a * 65536 + x) t
        ≤ (a * 65536 + x) * 65536 ^ t.length + (65536 ^ t.length - 1) := iht
      _ ≤ a * 65536 ^ (t.length + 1) + (65536 ^ (t.length + 1) - 1) := by
          have h2 : (a * 65536 + x) * 65536 ^ t.length ≤
              a * 65536 ^ (t.length + 1) + 65535 * 65536 ^ t.length := by
            rw [pow_succ]
            calc (a * 65536 + x) * 65536 ^ t.length
                ≤ (a * 65536 + 65535) * 65536 ^ t.length :=
                  Nat.mul_le_mul_right _ (by omega)
              _ = a * (65536 ^ t.length * 65536) + 65535 * 65536 ^ t.length := by ring
          have h3 : 65535 * 65536 ^ t.length + (65536 ^ t.length - 1) =
              65536 ^ (t.length + 1) - 1 := by
            rw [pow_succ]
            omega
          omega
      _ = a * 65536 ^ (x :: t).length + (65536 ^ (x :: t).length - 1) := by simp

theorem firstEmptyIdx_lt : ∀ (l : List (List Char)) (j : Nat),
    firstEmptyIdx l = some j → j < l.length
  | [], j, h => by simp [firstEmptyIdx] at h
  | x :: xs, j, h => by
    rw [firstEmptyIdx] at h
    by_cases hx : x = []
    · rw [if_pos hx] at h
      simp only [Option.some.injEq] at h
      subst h
      simp
    · rw [if_neg hx] at h
      rcases hr : firstEmptyIdx xs with _ | j'
      · rw [hr] at h; simp at h
      · rw [hr] at h
        simp only [Option.map_some', Option.some.injEq] at h
        subst h
        have := firstEmptyIdx_lt xs j' hr
        simp only [List.length_cons]
        omega

theorem dropLast_headD (l : List (List Char)) (d : List Char)
    (h : 1 ≤ l.dropLast.length) : l.dropLast.headD d = l.headD d := by
  cases l with
  | nil => simp at h
  | cons a t =>
    cases t with
    | nil => simp at h
    | cons b r => rfl

theorem pow65536_le_2pow128 (e : Nat) (he : e ≤ 8) : 65536 ^ e ≤ 2 ^ 128 := by
  calc 65536 ^ e ≤ 65536 ^ 8 := Nat.pow_le_pow_right (by omega) he
    _ = 2 ^ 128 := by norm_num

theorem double_fold_lt (hs ls : List Nat) (sk : Nat)
    (hhs : ∀ x ∈ hs, x < 65536) (hls : ∀ x ∈ ls, x < 65536) :
    foldHextets (foldHextets 0 hs * 65536 ^ sk) ls <
      65536 ^ (hs.length + sk + ls.length) := by
  have hA : foldHextets 0 hs ≤ 65536 ^ hs.length - 1 := by
    have := foldHextets_le hs hhs 0
    simpa using this
  have hv := foldHextets_le ls hls (foldHextets 0 hs * 65536 ^ sk)
  have hX : 1 ≤ 65536 ^ hs.length := Nat.one_le_pow _ _ (by omega)
  have hQ : 1 ≤ 65536 ^ sk := Nat.one_le_pow _ _ (by omega)
  have hR : 1 ≤ 65536 ^ ls.length := Nat.one_le_pow _ _ (by omega)
  have h1 : foldHextets 0 hs * 65536 ^ sk * 65536 ^ ls.length ≤
      (65536 ^ hs.length - 1) * 65536 ^ sk * 65536 ^ ls.length :=
    Nat.mul_le_mul_right _ (Nat.mul_le_mul_right _ hA)
  have h2 : (65536 ^ hs.length - 1) * 65536 ^ sk * 65536 ^ ls.length =
      65536 ^ hs.length * 65536 ^ sk * 65536 ^ ls.length -
        65536 ^ sk * 65536 ^ ls.length := by
    rw [Nat.sub_one_mul, Nat.sub_mul]
  have h3 : 65536 ^ ls.length ≤ 65536 ^ sk * 65536 ^ ls.length :=
    Nat.le_mul_of_pos_left _ hQ
  have h4 : 65536 ^ sk * 65536 ^ ls.length ≤
      65536 ^ hs.length * 65536 ^ sk * 65536 ^ ls.length := by
    calc 65536 ^ sk * 65536 ^ ls.length
        = 1 * (65536 ^ sk * 65536 ^ ls.length) := by ring
      _ ≤ 65536 ^ hs.length * (65536 ^ sk * 65536 ^ ls.length) :=
        Nat.mul_le_mul_right _ hX
      _ = 65536 ^ hs.length * 65536 ^ sk * 65536 ^ ls.length := by ring
  have hgoal : foldHextets (foldHextets 0 hs * 65536 ^ sk) ls <
      65536 ^ hs.length * 65536 ^ sk * 65536 ^ ls.length := by omega
  calc foldHextets (foldHextets 0 hs * 65536 ^ sk) ls
      < 65536 ^ hs.length * 65536 ^ sk * 65536 ^ ls.length := hgoal
    _ = 65536 ^ (hs.length + sk + ls.length) := by rw [pow_add, pow_add]

theorem assemble_skip_inv (parts : List (List Char)) (j v : Nat)
    (h : assemble_skip parts j = some v) :
    v < 2 ^ 128 ∧
      (parts.headD [] ≠ [] → ∀ c ∈ parts.headD [], isHexDigitChar c = true) := by
  unfold assemble_skip at h
  split at h
  · exact absurd h (by simp)
  split at h
  · exact absurd h (by simp)
  split at h
  · exact absurd h (by simp)
  rename_i hc1 hc2 hc3
  split at h
  case _ hs ls hhs hls =>
    obtain ⟨hb1, hb2, hb3⟩ := mapM_parse_hextet_inv _ hs hhs
    obtain ⟨hb4, _, _⟩ := mapM_parse_hextet_inv _ ls hls
    have hveq : v = foldHextets
        (foldHextets 0 hs * 65536 ^ (8 - (hiCount parts j + loCount parts j))) ls := by
      simpa [eq_comm] using h
    constructor
    · subst hveq
      have hlt := double_fold_lt hs ls (8 - (hiCount parts j + loCount parts j)) hb1 hb4
      have hexp : hs.length + (8 - (hiCount parts j + loCount parts j)) + ls.length ≤ 8 := by
        have e1 : hs.length = (parts.take (hiCount parts j)).length := by rw [hb3]
        have e2 : ls.length =
            (parts.drop (parts.length - loCount parts j)).length := by
          rw [(mapM_parse_hextet_inv _ ls hls).2.2]
        rw [List.length_take] at e1
        rw [List.length_drop] at e2
        omega
      calc _ < 65536 ^ (hs.length + (8 - (hiCount parts j + loCount parts j)) + ls.length) :=
            hlt
        _ ≤ 2 ^ 128 := pow65536_le_2pow128 _ hexp
    · intro hne c hcmem
      have hhi : 1 ≤ hiCount parts j := by
        unfold hiCount
        rw [if_neg hne]
        omega
      have hp0 : parts.headD [] ∈ parts.take (hiCount parts j) := by
        cases parts with
        | nil => simp at hne
        | cons p0 rest =>
          rcases hk : hiCount (p0 :: rest) j with _ | k
          · omega
          · simp [List.take_succ_cons]
      exact (hb2 _ hp0).2 c hcmem
  case _ =>
    exact absurd h (by simp)

theorem assemble_noskip_inv (parts : List (List Char)) (v : Nat)
    (h : assemble_noskip parts = some v) :
    v < 2 ^ 128 ∧
      (parts.headD [] ≠ [] → ∀ c ∈ parts.headD [], isHexDigitChar c = true) := by
  unfold assemble_noskip at h
  split at h
  · exact absurd h (by simp)
  split at h
  · exact absurd h (by simp)
  split at h
  · exact absurd h (by simp)
  rename_i hlen hhead hlast
  split at h
  case _ hs hhs =>
    obtain ⟨hb1, hb2, hb3⟩ := mapM_parse_hextet_inv _ hs hhs
    have hveq : v = foldHextets 0 hs := by simpa [eq_comm] using h
    constructor
    · subst hveq
      have := foldHextets_le hs hb1 0
      have hP : 65536 ^ hs.length ≤ 2 ^ 128 := by
        apply pow65536_le_2pow128
        rw [hb3]
        omega
      have h1 : 1 ≤ 65536 ^ hs.length := Nat.one_le_pow _ _ (by omega)
      omega
    · intro hne c hcmem
      have hp0 : parts.headD [] ∈ parts := by
        cases parts with
        | nil => simp at hne
        | cons p0 rest => simp
      exact (hb2 _ hp0).2 c hcmem
  case _ =>
    exact absurd h (by simp)

theorem expand_v4_suffix_head (parts0 parts : List (List Char))
    (hlen : 3 ≤ parts0.length) (h : expand_v4_suffix parts0 = some parts) :
    parts.headD [] = parts0.headD [] := by
  unfold expand_v4_suffix at h
  split at h
  · split at h
    · exact absurd h (by simp)
    · rename_i v4 hv4
      have hp : parts =
          parts0.dropLast ++ [natHex (v4 / 65536 % 65536), natHex (v4 % 65536)] := by
        simpa [eq_comm] using h
      rw [hp]
      rw [headD_append_of_ne_nil _ _ _ (by
        intro he
        have := congrArg List.length he
        simp only [List.length_dropLast, List.length_nil] at this
        omega)]
      apply dropLast_headD
      simp only [List.length_dropLast]
      omega
  · have hp : parts = parts0 := by simpa [eq_comm] using h
    rw [hp]

theorem ipv6_int_from_string_inv (addr : List Char) (v : Nat)
    (h : ipv6_int_from_string addr = some v) :
    v < 2 ^ 128 ∧ ∀ c, addr.head? = some c → (c = ':' ∨ isHexDigitChar c = true) := by
  unfold ipv6_int_from_string at h
  by_cases h0 : addr = []
  · rw [if_pos h0] at h; exact absurd h (by simp)
  rw [if_neg h0] at h
  split at h
  · exact absurd h (by simp)
  rename_i hlen3
  split at h
  · exact absurd h (by simp)
  rename_i parts hexp
  split at h
  · exact absurd h (by simp)
  split at h
  · exact absurd h (by simp)
  rename_i hlen9 hcount
  have hparts_head : parts.headD [] = (splitChar ':' addr).headD [] :=
    expand_v4_suffix_head _ _ (by omega) hexp
  have hmain : v < 2 ^ 128 ∧
      (parts.headD [] ≠ [] → ∀ c ∈ parts.headD [], isHexDigitChar c = true) := by
    split at h
    · exact assemble_skip_inv parts _ v h
    · exact assemble_noskip_inv parts v h
  refine ⟨hmain.1, ?_⟩
  intro c hc
  by_cases hcc : c = ':'
  · exact Or.inl hcc
  · right
    cases addr with
    | nil => simp at hc
    | cons a rest =>
      simp only [List.head?_cons, Option.some.injEq] at hc
      subst hc
      rw [splitChar_cons_ne ':' a rest hcc] at hparts_head
      simp only [List.headD_cons] at hparts_head
      exact hmain.2 (by rw [hparts_head]; simp) a (by rw [hparts_head]; simp)

/-! ## The compressed rendering: `_compress_hextets` and the render round
trip -/

theorem bestZeroRunAux_nil (i : Nat) (best cur : Nat × Nat) :
    bestZeroRunAux i best cur [] = best := by
  cases best; cases cur; rfl

theorem bestZeroRunAux_cons (i bs bl cs cl : Nat) (h : List Char)
    (rest : List (List Char)) :
    bestZeroRunAux i (bs, bl) (cs, cl) (h :: rest) =
      if h = ['0'] then
        bestZeroRunAux (i + 1)
          (if bl < cl + 1 then (if cl = 0 then i else cs, cl + 1) else (bs, bl))
          (if cl = 0 then i else cs, cl + 1) rest
      else bestZeroRunAux (i + 1) (bs, bl) (0, 0) rest := rfl

theorem getD_of_drop_eq_cons :
    ∀ (L : List (List Char)) (i : Nat) (h : List Char) (rest : List (List Char)),
      L.drop i = h :: rest → L.getD i [] = h
  | [], i, h, rest, hd => by simp at hd
  | x :: xs, 0, h, rest, hd => by
    simp only [List.drop_zero] at hd
    cases hd
    rfl
  | x :: xs, i + 1, h, rest, hd => by
    rw [List.drop_succ_cons] at hd
    rw [List.getD_cons_succ]
    exact getD_of_drop_eq_cons xs i h rest hd

theorem bestZeroRunAux_good (L : List (List Char)) :
    ∀ (rest : List (List Char)) (i bs bl cs cl : Nat),
      L.drop i = rest → i ≤ L.length →
      bs + bl ≤ i → (∀ k, k < bl → L.getD (bs + k) [] = ['0']) →
      (cl = 0 ∨ (cs + cl = i ∧ ∀ k, k < cl → L.getD (cs + k) [] = ['0'])) →
      (bestZeroRunAux i (bs, bl) (cs, cl) rest).1 +
          (bestZeroRunAux i (bs, bl) (cs, cl) rest).2 ≤ L.length ∧
        ∀ k, k < (bestZeroRunAux i (bs, bl) (cs, cl) rest).2 →
          L.getD ((bestZeroRunAux i (bs, bl) (cs, cl) rest).1 + k) [] = ['0']
  | [], i, bs, bl, cs, cl, _, hi, hb, hbd, _ => by
    rw [bestZeroRunAux_nil]
    exact ⟨by omega, hbd⟩
  | h :: rest, i, bs, bl, cs, cl, hdrop, hi, hb, hbd, hcur => by
    have hlt : i < L.length := by
      have := congrArg List.length hdrop
      rw [List.length_drop] at this
      simp only [List.length_cons] at this
      omega
    have hgd : L.getD i [] = h := getD_of_drop_eq_cons L i h rest hdrop
    have hdrop' : L.drop (i + 1) = rest := by
      rw [← List.drop_drop, hdrop, List.drop_succ_cons, List.drop_zero]
    rw [bestZeroRunAux_cons]
    by_cases hz : h = ['0']
    · rw [if_pos hz]
      have hcur' : (if cl = 0 then i else cs) + (cl + 1) = i + 1 ∧
          ∀ k, k < cl + 1 →
            L.getD ((if cl = 0 then i else cs) + k) [] = ['0'] := by
        by_cases hcl : cl = 0
        · rw [if_pos hcl, hcl]
          refine ⟨rfl, fun k hk => ?_⟩
          have hk0 : k = 0 := by omega
          rw [hk0, Nat.add_zero, hgd]
          exact hz
        · rw [if_neg hcl]
          rcases hcur with hcl0 | ⟨hsum, hdig⟩
          · exact absurd hcl0 hcl
          refine ⟨by omega, fun k hk => ?_⟩
          by_cases hkc : k < cl
          · exact hdig k hkc
          · have hkc' : k = cl := by omega
            rw [hkc', hsum, hgd]
            exact hz
      by_cases hbest : bl < cl + 1
      · rw [if_pos hbest]
        exact bestZeroRunAux_good L rest (i + 1) _ _ _ _ hdrop' (by omega)
          (by omega) hcur'.2 (Or.inr hcur')
      · rw [if_neg hbest]
        exact bestZeroRunAux_good L rest (i + 1) _ _ _ _ hdrop' (by omega)
          (by omega) hbd (Or.inr hcur')
    · rw [if_neg hz]
      exact bestZeroRunAux_good L rest (i + 1) _ _ _ _ hdrop' (by omega)
        (by omega) hbd (Or.inl rfl)

theorem bestZeroRun_good (H : List (List Char)) (bs bl : Nat)
    (h : bestZeroRun H = (bs, bl)) :
    bs + bl ≤ H.length ∧ ∀ k, k < bl → H.getD (bs + k) [] = ['0'] := by
  have hg := bestZeroRunAux_good H H 0 0 0 0 0 rfl (by omega) (by omega)
    (fun k hk => absurd hk (by omega)) (Or.inl rfl)
  rw [show bestZeroRunAux 0 (0, 0) (0, 0) H = bestZeroRun H from rfl, h] at hg
  exact hg

theorem compress_hextets_cases (H : List (List Char)) (bs bl : Nat)
    (hr : bestZeroRun H = (bs, bl)) :
    compress_hextets H =
      if 1 < bl then
        (if bs = 0 then
          [] :: ((if bs + bl = H.length then H ++ [[]] else H).take bs ++ [[]] ++
            (if bs + bl = H.length then H ++ [[]] else H).drop (bs + bl))
        else (if bs + bl = H.length then H ++ [[]] else H).take bs ++ [[]] ++
            (if bs + bl = H.length then H ++ [[]] else H).drop (bs + bl))
      else H := by
  unfold compress_hextets
  rw [hr]

theorem compress_hextets_id (H : List (List Char)) (bs bl : Nat)
    (hr : bestZeroRun H = (bs, bl)) (hbl : ¬ 1 < bl) :
    compress_hextets H = H := by
  rw [compress_hextets_cases H bs bl hr, if_neg hbl]

theorem compress_hextets_shape (H : List (List Char)) (bs bl : Nat)
    (hr : bestZeroRun H = (bs, bl)) (hbl : 1 < bl) :
    compress_hextets H =
      (if bs = 0 then [[]] else H.take bs) ++
        [] :: (if bs + bl = H.length then [[]] else H.drop (bs + bl)) := by
  rw [compress_hextets_cases H bs bl hr, if_pos hbl]
  have htake : (if bs + bl = H.length then H ++ [[]] else H).take bs = H.take bs := by
    by_cases hbe : bs + bl = H.length
    · rw [if_pos hbe]
      exact List.take_append_of_le_length (by omega)
    · rw [if_neg hbe]
  have hdrop : (if bs + bl = H.length then H ++ [[]] else H).drop (bs + bl) =
      (if bs + bl = H.length then [[]] else H.drop (bs + bl)) := by
    by_cases hbe : bs + bl = H.length
    · rw [if_pos hbe, if_pos hbe, hbe]
      exact List.drop_left H [[]]
    · rw [if_neg hbe, if_neg hbe]
  rw [htake, hdrop]
  by_cases hbs : bs = 0
  · rw [if_pos hbs, if_pos hbs, hbs, List.take_zero]
    simp
  · rw [if_neg hbs, if_neg hbs]
    simp [List.append_assoc]

theorem baseGroups_getD (B n : Nat) :
    ∀ k i, i < k → (baseGroups B n k).getD i 0 = n / B ^ (k - 1 - i) % B
  | k + 1, 0, _ => by
    rw [baseGroups, List.getD_cons_zero]
    congr 2
  | k + 1, i + 1, h => by
    rw [baseGroups, List.getD_cons_succ, baseGroups_getD B n k i (by omega)]
    congr 3
    omega

theorem getD_map_natHex : ∀ (l : List Nat) (i : Nat), i < l.length →
    (l.map natHex).getD i [] = natHex (l.getD i 0)
  | x :: xs, 0, _ => by simp
  | x :: xs, i + 1, h => by
    rw [List.map_cons, List.getD_cons_succ, List.getD_cons_succ]
    exact getD_map_natHex xs i (by simp only [List.length_cons] at h; omega)

theorem mod_pow_succ_of_digit_zero (B n m : Nat) (h : n / B ^ m % B = 0) :
    n % B ^ (m + 1) = n % B ^ m := by
  calc n % B ^ (m + 1) = n % (B * B ^ m) := by rw [pow_succ, mul_comm]
    _ = n / B ^ m % B * B ^ m + n % B ^ m := mod_mul_decomp n B (B ^ m)
    _ = n % B ^ m := by rw [h, Nat.zero_mul, Nat.zero_add]

theorem mod_pow_span (B n : Nat) :
    ∀ hi lo, lo ≤ hi → (∀ m, lo ≤ m → m < hi → n / B ^ m % B = 0) →
      n % B ^ hi = n % B ^ lo := by
  intro hi
  induction hi with
  | zero =>
    intro lo hle _
    have h0 : lo = 0 := by omega
    rw [h0]
  | succ k ih =>
    intro lo hle hz
    by_cases hk : lo = k + 1
    · rw [hk]
    · have hlk : lo ≤ k := by omega
      rw [mod_pow_succ_of_digit_zero B n k (hz k hlk (by omega)),
        ih lo hlk (fun m hm1 hm2 => hz m hm1 (by omega))]

theorem firstEmptyIdx_append_empty :
    ∀ (A : List (List Char)), (∀ x ∈ A, x ≠ []) → ∀ B : List (List Char),
      firstEmptyIdx (A ++ [] :: B) = some A.length
  | [], _, B => by simp [firstEmptyIdx]
  | a :: t, h, B => by
    rw [List.cons_append, firstEmptyIdx, if_neg (h a (by simp)),
      firstEmptyIdx_append_empty t (fun x hx => h x (by simp [hx])) B]
    simp

theorem firstEmptyIdx_none :
    ∀ (l : List (List Char)), (∀ x ∈ l, x ≠ []) → firstEmptyIdx l = none
  | [], _ => rfl
  | a :: t, h => by
    rw [firstEmptyIdx, if_neg (h a (by simp)),
      firstEmptyIdx_none t (fun x hx => h x (by simp [hx]))]
    rfl

theorem countEmpties_eq_zero (l : List (List Char)) (h : ∀ x ∈ l, x ≠ []) :
    countEmpties l = 0 := by
  unfold countEmpties
  rw [List.filter_eq_nil_iff.2 (fun x hx => by simpa using h x hx)]
  rfl

theorem countEmpties_append_empty (A B : List (List Char))
    (hA : ∀ x ∈ A, x ≠ []) (hB : ∀ x ∈ B, x ≠ []) :
    countEmpties (A ++ [] :: B) = 1 := by
  unfold countEmpties
  rw [List.filter_append, List.filter_cons,
    List.filter_eq_nil_iff.2 (fun x hx => by simpa using hA x hx),
    List.filter_eq_nil_iff.2 (fun x hx => by simpa using hB x hx)]
  simp

theorem getLastD_mem : ∀ (l : List (List Char)), l ≠ [] → l.getLastD [] ∈ l
  | [x], _ => by simp [List.getLastD]
  | x :: y :: t, _ => by
    rw [show (x :: y :: t).getLastD [] = (y :: t).getLastD [] from rfl]
    exact List.mem_cons_of_mem x (getLastD_mem (y :: t) (by simp))

theorem getLastD_append_cons (A B : List (List Char)) (b : List Char) :
    (A ++ b :: B).getLastD [] = (b :: B).getLastD [] := by
  induction A with
  | nil => rfl
  | cons a t ih =>
    rw [List.cons_append,
      show (a :: (t ++ b :: B)).getLastD [] = (t ++ b :: B).getLastD [] from by
        rcases he : t ++ b :: B with _ | ⟨x, xs⟩
        · exact absurd he (by simp)
        · rfl]
    exact ih

theorem headD_append_cons (a : List Char) (A B : List (List Char)) :
    ((a :: A) ++ B).headD [] = a := rfl

theorem headD_mem : ∀ (l : List (List Char)), l ≠ [] → l.headD [] ∈ l
  | [], h => absurd rfl h
  | _ :: _, _ => by simp

theorem not_contains_true_of_not_mem (l : List Char) (c : Char) (h : c ∉ l) :
    ¬ l.contains c = true := fun hc => h (List.mem_of_elem_eq_true hc)

theorem ipv6_parse_skip (n bs bl : Nat) (A B : List (List Char))
    (hn : n < 2 ^ 128) (hbl : 1 < bl) (hle : bs + bl ≤ 8)
    (hAconc : (A = [[]] ∧ bs = 0) ∨
      (A = ((baseGroups 65536 n 8).map natHex).take bs ∧ A.length = bs ∧ 1 ≤ bs))
    (hBconc : (B = [[]] ∧ bs + bl = 8) ∨
      (B = ((baseGroups 65536 n 8).map natHex).drop (bs + bl) ∧
        B.length = 8 - (bs + bl) ∧ bs + bl < 8))
    (hzero : ∀ k, k < bl →
      ((baseGroups 65536 n 8).map natHex).getD (bs + k) [] = ['0']) :
    ipv6_int_from_string (joinSep ':' (A ++ [] :: B)) = some n := by
  have hB8 : (65536 : Nat) ^ 8 = 2 ^ 128 := by norm_num
  have hGlt : ∀ d ∈ baseGroups 65536 n 8, d < 65536 :=
    baseGroups_lt 65536 n (by omega) 8
  have hHmem : ∀ x ∈ (baseGroups 65536 n 8).map natHex,
      ∃ d, d < 65536 ∧ x = natHex d := by
    intro x hx
    obtain ⟨d, hd, he⟩ := List.mem_map.1 hx
    exact ⟨d, hGlt d hd, he.symm⟩
  have hHne : ∀ x ∈ (baseGroups 65536 n 8).map natHex, x ≠ [] := by
    intro x hx
    obtain ⟨d, _, he⟩ := hHmem x hx
    rw [he]
    exact natHex_ne_nil d
  have hHnc : ∀ x ∈ (baseGroups 65536 n 8).map natHex, ':' ∉ x := by
    intro x hx hc
    obtain ⟨d, _, he⟩ := hHmem x hx
    rw [he] at hc
    exact (hex_ne_sep _ (natHex_all_hex d _ hc)).2.1 rfl
  have hHnd : ∀ x ∈ (baseGroups 65536 n 8).map natHex, ('.') ∉ x := by
    intro x hx hc
    obtain ⟨d, _, he⟩ := hHmem x hx
    rw [he] at hc
    exact (hex_ne_sep _ (natHex_all_hex d _ hc)).1 rfl
  have hAne : A ≠ [] := by
    rcases hAconc with ⟨h1, _⟩ | ⟨_, h2, h3⟩
    · rw [h1]; simp
    · intro he
      rw [he] at h2
      simp only [List.length_nil] at h2
      omega
  have hBne : B ≠ [] := by
    rcases hBconc with ⟨h1, _⟩ | ⟨_, h2, h3⟩
    · rw [h1]; simp
    · intro he
      rw [he] at h2
      simp only [List.length_nil] at h2
      omega
  obtain ⟨a₀, A₀, rfl⟩ : ∃ a₀ A₀, A = a₀ :: A₀ := by
    cases A with
    | nil => exact absurd rfl hAne
    | cons x t => exact ⟨x, t, rfl⟩
  obtain ⟨b₀, B₀, rfl⟩ : ∃ b₀ B₀, B = b₀ :: B₀ := by
    cases B with
    | nil => exact absurd rfl hBne
    | cons x t => exact ⟨x, t, rfl⟩
  have hAcol : ∀ x ∈ a₀ :: A₀, ':' ∉ x := by
    rcases hAconc with ⟨h1, _⟩ | ⟨h1, _, _⟩
    · intro x hx
      rw [h1] at hx
      simp only [List.mem_singleton] at hx
      rw [hx]
      simp
    · intro x hx
      rw [h1] at hx
      exact hHnc x (List.mem_of_mem_take hx)
  have hBcol : ∀ x ∈ b₀ :: B₀, ':' ∉ x := by
    rcases hBconc with ⟨h1, _⟩ | ⟨h1, _, _⟩
    · intro x hx
      rw [h1] at hx
      simp only [List.mem_singleton] at hx
      rw [hx]
      simp
    · intro x hx
      rw [h1] at hx
      exact hHnc x (List.mem_of_mem_drop hx)
  have hA₀ne : ∀ x ∈ A₀, x ≠ [] := by
    rcases hAconc with ⟨h1, _⟩ | ⟨h1, _, _⟩
    · injection h1 with h1a h1b
      intro x hx
      rw [h1b] at hx
      simp at hx
    · intro x hx
      have hx2 : x ∈ (a₀ :: A₀) := List.mem_cons_of_mem _ hx
      rw [h1] at hx2
      exact hHne x (List.mem_of_mem_take hx2)
  have hB₀ne : ∀ x ∈ (b₀ :: B₀).dropLast, x ≠ [] := by
    rcases hBconc with ⟨h1, _⟩ | ⟨h1, _, _⟩
    · injection h1 with h1a h1b
      rw [h1b]
      intro x hx
      simp at hx
    · intro x hx
      have hx2 : x ∈ (b₀ :: B₀) := List.mem_of_mem_dropLast hx
      rw [h1] at hx2
      exact hHne x (List.mem_of_mem_drop hx2)
  have hAlen : (a₀ :: A₀).length = 1 ∧ bs = 0 ∨ (a₀ :: A₀).length = bs ∧ 1 ≤ bs := by
    rcases hAconc with ⟨h1, h2⟩ | ⟨_, h2, h3⟩
    · exact Or.inl ⟨by rw [h1]; rfl, h2⟩
    · exact Or.inr ⟨h2, h3⟩
  have hBlen : (b₀ :: B₀).length = 1 ∧ bs + bl = 8 ∨
      (b₀ :: B₀).length = 8 - (bs + bl) ∧ bs + bl < 8 := by
    rcases hBconc with ⟨h1, h2⟩ | ⟨_, h2, h3⟩
    · exact Or.inl ⟨by rw [h1]; rfl, h2⟩
    · exact Or.inr ⟨h2, h3⟩
  have hlcA : (a₀ :: A₀).length = A₀.length + 1 := by simp
  have hlcB : (b₀ :: B₀).length = B₀.length + 1 := by simp
  have hlenP : ((a₀ :: A₀) ++ [] :: b₀ :: B₀).length =
      (a₀ :: A₀).length + 1 + (b₀ :: B₀).length := by
    simp only [List.length_append, List.length_cons]
    omega
  have hsplit : splitChar ':' (joinSep ':' ((a₀ :: A₀) ++ [] :: b₀ :: B₀)) =
      (a₀ :: A₀) ++ [] :: b₀ :: B₀ := by
    apply splitChar_joinSep
    · simp
    · intro p hp
      rcases List.mem_append.1 hp with h | h
      · exact hAcol p h
      · rcases List.mem_cons.1 h with h2 | h2
        · rw [h2]; simp
        · exact hBcol p h2
  have hne : joinSep ':' ((a₀ :: A₀) ++ [] :: b₀ :: B₀) ≠ [] := by
    intro he
    rw [he] at hsplit
    replace hsplit : ([[]] : List (List Char)) = (a₀ :: A₀) ++ [] :: b₀ :: B₀ := hsplit
    have hlen1 := congrArg List.length hsplit
    rw [hlenP] at hlen1
    simp only [List.length_singleton] at hlen1
    omega
  have hlastP : ((a₀ :: A₀) ++ [] :: b₀ :: B₀).getLastD [] = (b₀ :: B₀).getLastD [] :=
    (getLastD_append_cons (a₀ :: A₀) (b₀ :: B₀) []).trans
      (getLastD_append_cons [[]] B₀ b₀)
  have hlastB : ((b₀ :: B₀).getLastD [] = [] ∧ (b₀ :: B₀).length = 1 ∧ bs + bl = 8) ∨
      ((b₀ :: B₀).getLastD [] ≠ [] ∧ (b₀ :: B₀).length = 8 - (bs + bl) ∧
        bs + bl < 8) := by
    rcases hBconc with ⟨h1, h2⟩ | ⟨h1, h2, h3⟩
    · refine Or.inl ⟨?_, by rw [h1]; rfl, h2⟩
      rw [h1]
      rfl
    · refine Or.inr ⟨?_, h2, h3⟩
      have hsub : ∀ x ∈ (b₀ :: B₀), x ∈ ((baseGroups 65536 n 8).map natHex) := by
        intro x hx
        rw [h1] at hx
        exact List.mem_of_mem_drop hx
      exact hHne _ (hsub _ (getLastD_mem _ (by simp)))
  unfold ipv6_int_from_string
  rw [if_neg hne, hsplit]
  rw [if_neg (show ¬ ((a₀ :: A₀) ++ [] :: b₀ :: B₀).length < 3 from by
    rw [hlenP]; omega)]
  have hdotlast : ('.') ∉ ((a₀ :: A₀) ++ [] :: b₀ :: B₀).getLastD [] := by
    rw [hlastP]
    rcases hBconc with ⟨h1, _⟩ | ⟨h1, _, _⟩
    · rw [h1]
      simp
    · have hsub : ∀ x ∈ (b₀ :: B₀), x ∈ ((baseGroups 65536 n 8).map natHex) := by
        intro x hx
        rw [h1] at hx
        exact List.mem_of_mem_drop hx
      exact hHnd _ (hsub _ (getLastD_mem _ (by simp)))
  have hexp : expand_v4_suffix ((a₀ :: A₀) ++ [] :: b₀ :: B₀) =
      some ((a₀ :: A₀) ++ [] :: b₀ :: B₀) := by
    unfold expand_v4_suffix
    rw [if_neg (not_contains_true_of_not_mem _ _ hdotlast)]
  rw [hexp]
  show (if 9 < ((a₀ :: A₀) ++ [] :: b₀ :: B₀).length then none
    else if 2 ≤ countEmpties ((((a₀ :: A₀) ++ [] :: b₀ :: B₀).drop 1).dropLast)
      then none
    else match firstEmptyIdx ((((a₀ :: A₀) ++ [] :: b₀ :: B₀).drop 1).dropLast) with
      | some j => assemble_skip ((a₀ :: A₀) ++ [] :: b₀ :: B₀) j
      | none => assemble_noskip ((a₀ :: A₀) ++ [] :: b₀ :: B₀)) = some n
  have hbound : (a₀ :: A₀).length + (b₀ :: B₀).length ≤ 7 := by
    rcases hAlen with ⟨h1, h2⟩ | ⟨h1, h2⟩ <;>
      rcases hBlen with ⟨h3, h4⟩ | ⟨h3, h4⟩ <;> omega
  have hinner : (((a₀ :: A₀) ++ [] :: b₀ :: B₀).drop 1).dropLast =
      A₀ ++ [] :: (b₀ :: B₀).dropLast := by
    show (A₀ ++ [] :: b₀ :: B₀).dropLast = A₀ ++ [] :: (b₀ :: B₀).dropLast
    rw [List.dropLast_append_of_ne_nil A₀ (by simp)]
    congr 1
  rw [if_neg (show ¬ 9 < ((a₀ :: A₀) ++ [] :: b₀ :: B₀).length from by
      rw [hlenP]; omega),
    hinner,
    if_neg (show ¬ 2 ≤ countEmpties (A₀ ++ [] :: (b₀ :: B₀).dropLast) from by
      rw [countEmpties_append_empty A₀ _ hA₀ne hB₀ne]; omega),
    firstEmptyIdx_append_empty A₀ hA₀ne _]
  show assemble_skip ((a₀ :: A₀) ++ [] :: b₀ :: B₀) A₀.length = some n
  have hhead : ((a₀ :: A₀) ++ [] :: b₀ :: B₀).headD [] = a₀ := rfl
  have hi_eq : hiCount ((a₀ :: A₀) ++ [] :: b₀ :: B₀) A₀.length = bs := by
    unfold hiCount
    rw [hhead]
    rcases hAconc with ⟨h1, h2⟩ | ⟨h1, h2, h3⟩
    · injection h1 with h1a h1b
      rw [if_pos h1a, h1b, h2]
      rfl
    · have ha₀ : a₀ ≠ [] := by
        have hm : a₀ ∈ (a₀ :: A₀) := by simp
        rw [h1] at hm
        exact hHne _ (List.mem_of_mem_take hm)
      rw [if_neg ha₀]
      simp only [List.length_cons] at h2
      omega
  have lo_eq : loCount ((a₀ :: A₀) ++ [] :: b₀ :: B₀) A₀.length = 8 - (bs + bl) := by
    unfold loCount
    rw [hlastP, hlenP]
    rcases hlastB with ⟨h1, h2, h3⟩ | ⟨h1, h2, h3⟩
    · rw [if_pos h1]
      omega
    · rw [if_neg h1]
      omega
  unfold assemble_skip
  rw [hhead, hlastP, hi_eq, lo_eq]
  have hc1 : ¬ (a₀ = [] ∧ bs ≠ 0) := by
    rcases hAconc with ⟨h1, h2⟩ | ⟨h1, h2, h3⟩
    · exact fun hc => hc.2 h2
    · intro hc
      have hm : a₀ ∈ (a₀ :: A₀) := by simp
      rw [h1] at hm
      exact hHne _ (List.mem_of_mem_take hm) hc.1
  have hc2 : ¬ ((b₀ :: B₀).getLastD [] = [] ∧ 8 - (bs + bl) ≠ 0) := by
    rcases hlastB with ⟨h1, h2, h3⟩ | ⟨h1, h2, h3⟩
    · exact fun hc => hc.2 (by omega)
    · exact fun hc => h1 hc.1
  rw [if_neg hc1, if_neg hc2,
    if_neg (show ¬ 8 ≤ bs + (8 - (bs + bl)) from by omega)]
  have htakeP : ((a₀ :: A₀) ++ [] :: b₀ :: B₀).take bs =
      ((baseGroups 65536 n 8).map natHex).take bs := by
    rcases hAconc with ⟨h1, h2⟩ | ⟨h1, h2, h3⟩
    · rw [h2, List.take_zero, List.take_zero]
    · calc ((a₀ :: A₀) ++ [] :: b₀ :: B₀).take bs
          = ((a₀ :: A₀) ++ [] :: b₀ :: B₀).take (a₀ :: A₀).length := by rw [h2]
        _ = (a₀ :: A₀) := List.take_left _ _
        _ = ((baseGroups 65536 n 8).map natHex).take bs := h1
  have hdropP : ((a₀ :: A₀) ++ [] :: b₀ :: B₀).drop
      (((a₀ :: A₀) ++ [] :: b₀ :: B₀).length - (8 - (bs + bl))) =
      ((baseGroups 65536 n 8).map natHex).drop (bs + bl) := by
    rcases hBconc with ⟨h1, h2⟩ | ⟨h1, h2, h3⟩
    · rw [show 8 - (bs + bl) = 0 from by omega, Nat.sub_zero, List.drop_length]
      symm
      apply List.drop_eq_nil_of_le
      rw [List.length_map, baseGroups_length]
      omega
    · have hlen_eq : ((a₀ :: A₀) ++ [] :: b₀ :: B₀).length - (8 - (bs + bl)) =
          ((a₀ :: A₀) ++ [[]]).length := by
        rw [hlenP, List.length_append, List.length_cons] at *
        simp only [List.length_append, List.length_cons, List.length_nil]
        omega
      rw [hlen_eq, show ((a₀ :: A₀) ++ [] :: b₀ :: B₀ : List (List Char)) =
          ((a₀ :: A₀) ++ [[]]) ++ b₀ :: B₀ from by simp, List.drop_left]
      exact h1
  rw [htakeP, hdropP, ← List.map_take, ← List.map_drop,
    mapM_parse_hextet_natHex _ (fun v hv => hGlt v (List.mem_of_mem_take hv)),
    mapM_parse_hextet_natHex _ (fun v hv => hGlt v (List.mem_of_mem_drop hv))]
  show some (foldHextets (foldHextets 0 ((baseGroups 65536 n 8).take bs) *
      65536 ^ (8 - (bs + (8 - (bs + bl))))) ((baseGroups 65536 n 8).drop (bs + bl))) =
    some n
  have ht1 : (baseGroups 65536 n 8).take bs =
      baseGroups 65536 (n / 65536 ^ (8 - bs)) bs := by
    conv_lhs => rw [show (8 : Nat) = bs + (8 - bs) from by omega]
    exact baseGroups_take 65536 n bs (8 - bs)
  have ht2 : (baseGroups 65536 n 8).drop (bs + bl) =
      baseGroups 65536 n (8 - (bs + bl)) := by
    conv_lhs => rw [show (8 : Nat) = (bs + bl) + (8 - (bs + bl)) from by omega]
    exact baseGroups_drop 65536 n (bs + bl) (8 - (bs + bl))
  have hdivlt : n / 65536 ^ (8 - bs) < 65536 ^ bs := by
    rw [Nat.div_lt_iff_lt_mul (by positivity)]
    calc n < 2 ^ 128 := hn
      _ = 65536 ^ bs * 65536 ^ (8 - bs) := by
          rw [← pow_add, show bs + (8 - bs) = 8 from by omega, hB8]
  have hfold1 : foldHextets 0 ((baseGroups 65536 n 8).take bs) =
      n / 65536 ^ (8 - bs) := by
    unfold foldHextets
    rw [ht1, foldl_base_baseGroups, Nat.zero_mul, Nat.zero_add]
    exact Nat.mod_eq_of_lt hdivlt
  have hspan : n % 65536 ^ (8 - bs) = n % 65536 ^ (8 - (bs + bl)) := by
    apply mod_pow_span 65536 n (8 - bs) (8 - (bs + bl)) (by omega)
    intro m hm1 hm2
    have hk : 7 - m - bs < bl := by omega
    have h1 := hzero (7 - m - bs) hk
    rw [show bs + (7 - m - bs) = 7 - m from by omega] at h1
    rw [getD_map_natHex _ _ (by rw [baseGroups_length]; omega)] at h1
    have h0 := (natHex_eq_zero_str_iff _).1 h1
    rw [baseGroups_getD 65536 n 8 (7 - m) (by omega)] at h0
    rw [show 8 - 1 - (7 - m) = m from by omega] at h0
    exact h0
  have hfold2 : foldHextets (n / 65536 ^ (8 - bs) *
      65536 ^ (8 - (bs + (8 - (bs + bl))))) ((baseGroups 65536 n 8).drop (bs + bl)) =
      n := by
    unfold foldHextets
    rw [ht2, foldl_base_baseGroups]
    rw [show 8 - (bs + (8 - (bs + bl))) = bl from by omega]
    rw [mul_assoc, ← pow_add, show bl + (8 - (bs + bl)) = 8 - bs from by omega]
    rw [← hspan, mul_comm]
    exact Nat.div_add_mod n (65536 ^ (8 - bs))
  rw [hfold1, hfold2]

theorem ipv6_parse_of_render (n : Nat) (hn : n < 2 ^ 128) :
    ipv6_int_from_string (ipv6_string_from_int n) = some n := by
  have hB8 : (65536 : Nat) ^ 8 = 2 ^ 128 := by norm_num
  have hGlen : (baseGroups 65536 n 8).length = 8 := baseGroups_length 65536 n 8
  have hHlen : ((baseGroups 65536 n 8).map natHex).length = 8 := by
    rw [List.length_map, hGlen]
  have hGlt : ∀ d ∈ baseGroups 65536 n 8, d < 65536 :=
    baseGroups_lt 65536 n (by omega) 8
  have hHmem : ∀ x ∈ (baseGroups 65536 n 8).map natHex,
      ∃ d, d < 65536 ∧ x = natHex d := by
    intro x hx
    obtain ⟨d, hd, he⟩ := List.mem_map.1 hx
    exact ⟨d, hGlt d hd, he.symm⟩
  have hHne : ∀ x ∈ (baseGroups 65536 n 8).map natHex, x ≠ [] := by
    intro x hx
    obtain ⟨d, _, he⟩ := hHmem x hx
    rw [he]
    exact natHex_ne_nil d
  have hHnc : ∀ x ∈ (baseGroups 65536 n 8).map natHex, ':' ∉ x := by
    intro x hx hc
    obtain ⟨d, _, he⟩ := hHmem x hx
    rw [he] at hc
    exact (hex_ne_sep _ (natHex_all_hex d _ hc)).2.1 rfl
  have hHnd : ∀ x ∈ (baseGroups 65536 n 8).map natHex, ('.') ∉ x := by
    intro x hx hc
    obtain ⟨d, _, he⟩ := hHmem x hx
    rw [he] at hc
    exact (hex_ne_sep _ (natHex_all_hex d _ hc)).1 rfl
  rcases hr : bestZeroRun ((baseGroups 65536 n 8).map natHex) with ⟨bs, bl⟩
  obtain ⟨hrange, hzero⟩ :=
    bestZeroRun_good ((baseGroups 65536 n 8).map natHex) bs bl hr
  rw [hHlen] at hrange
  show ipv6_int_from_string
    (joinSep ':' (compress_hextets ((baseGroups 65536 n 8).map natHex))) = some n
  by_cases hbl : 1 < bl
  · -- compressed rendering: a `'::'` stands for the best zero run
    rw [compress_hextets_shape _ bs bl hr hbl, hHlen]
    apply ipv6_parse_skip n bs bl _ _ hn hbl hrange _ _ hzero
    · by_cases hbs : bs = 0
      · rw [if_pos hbs]
        exact Or.inl ⟨rfl, hbs⟩
      · rw [if_neg hbs]
        refine Or.inr ⟨rfl, ?_, by omega⟩
        rw [List.length_take, hHlen]
        omega
    · by_cases hbe : bs + bl = 8
      · rw [if_pos hbe]
        exact Or.inl ⟨rfl, hbe⟩
      · rw [if_neg hbe]
        refine Or.inr ⟨rfl, ?_, by omega⟩
        rw [List.length_drop, hHlen]
  · -- uncompressed rendering: eight nonempty hextets
    rw [compress_hextets_id _ bs bl hr hbl]
    have hsplit : splitChar ':' (joinSep ':' ((baseGroups 65536 n 8).map natHex)) =
        (baseGroups 65536 n 8).map natHex :=
      splitChar_joinSep ':' _ (by
        intro he
        rw [he] at hHlen
        simp at hHlen) hHnc
    have hne : joinSep ':' ((baseGroups 65536 n 8).map natHex) ≠ [] := by
      intro he
      rw [he] at hsplit
      replace hsplit : ([[]] : List (List Char)) =
        (baseGroups 65536 n 8).map natHex := hsplit
      rw [← hsplit] at hHlen
      simp at hHlen
    have hHnenil : (baseGroups 65536 n 8).map natHex ≠ [] := by
      intro he
      rw [he] at hHlen
      simp at hHlen
    unfold ipv6_int_from_string
    rw [if_neg hne, hsplit,
      if_neg (show ¬ ((baseGroups 65536 n 8).map natHex).length < 3 from by
        rw [hHlen]; omega)]
    have hexp : expand_v4_suffix ((baseGroups 65536 n 8).map natHex) =
        some ((baseGroups 65536 n 8).map natHex) := by
      unfold expand_v4_suffix
      rw [if_neg (not_contains_true_of_not_mem _ _
        (hHnd _ (getLastD_mem _ hHnenil)))]
    rw [hexp]
    show (if 9 < ((baseGroups 65536 n 8).map natHex).length then none
      else if 2 ≤ countEmpties
        ((((baseGroups 65536 n 8).map natHex).drop 1).dropLast) then none
      else match firstEmptyIdx
        ((((baseGroups 65536 n 8).map natHex).drop 1).dropLast) with
        | some j => assemble_skip ((baseGroups 65536 n 8).map natHex) j
        | none => assemble_noskip ((baseGroups 65536 n 8).map natHex)) = some n
    have hinnerne : ∀ x ∈ (((baseGroups 65536 n 8).map natHex).drop 1).dropLast,
        x ≠ [] := fun x hx =>
      hHne x (List.mem_of_mem_drop (List.mem_of_mem_dropLast hx))
    rw [if_neg (show ¬ 9 < ((baseGroups 65536 n 8).map natHex).length from by
        rw [hHlen]; omega),
      if_neg (show ¬ 2 ≤ countEmpties
          ((((baseGroups 65536 n 8).map natHex).drop 1).dropLast) from by
        rw [countEmpties_eq_zero _ hinnerne]; omega),
      firstEmptyIdx_none _ hinnerne]
    show assemble_noskip ((baseGroups 65536 n 8).map natHex) = some n
    unfold assemble_noskip
    rw [if_neg (show ¬ ((baseGroups 65536 n 8).map natHex).length ≠ 8 from by
        rw [hHlen]; omega),
      if_neg (hHne _ (headD_mem _ hHnenil)),
      if_neg (hHne _ (getLastD_mem _ hHnenil)),
      mapM_parse_hextet_natHex _ hGlt]
    show some (foldHextets 0 (baseGroups 65536 n 8)) = some n
    unfold foldHextets
    rw [foldl_base_baseGroups, Nat.zero_mul, Nat.zero_add, hB8,
      Nat.mod_eq_of_lt hn]

theorem not_mem_of_contains_false (l : List Char) (c : Char)
    (h : l.contains c = false) : c ∉ l := fun hm => by
  have h2 : List.elem c l = false := h
  rw [List.elem_eq_true_of_mem hm] at h2
  exact Bool.noConfusion h2

theorem mem_compress_hextets (H : List (List Char)) (p : List Char)
    (hp : p ∈ compress_hextets H) : p = [] ∨ p ∈ H := by
  rcases hr : bestZeroRun H with ⟨bs, bl⟩
  by_cases hbl : 1 < bl
  · rw [compress_hextets_shape H bs bl hr hbl] at hp
    rcases List.mem_append.1 hp with h | h
    · by_cases hbs : bs = 0
      · rw [if_pos hbs] at h
        simp only [List.mem_singleton] at h
        exact Or.inl h
      · rw [if_neg hbs] at h
        exact Or.inr (List.mem_of_mem_take h)
    · rcases List.mem_cons.1 h with h2 | h2
      · exact Or.inl h2
      · by_cases hbe : bs + bl = H.length
        · rw [if_pos hbe] at h2
          simp only [List.mem_singleton] at h2
          exact Or.inl h2
        · rw [if_neg hbe] at h2
          exact Or.inr (List.mem_of_mem_drop h2)
  · rw [compress_hextets_id H bs bl hr hbl] at hp
    exact Or.inr hp

theorem ipv6_string_from_int_charset (n : Nat) :
    ∀ c ∈ ipv6_string_from_int n, isHexDigitChar c = true ∨ c = ':' := by
  intro c hc
  rcases mem_joinSep ':' c
      (compress_hextets ((baseGroups 65536 n 8).map natHex)) hc with h | ⟨p, hp, hcp⟩
  · exact Or.inr h
  · rcases mem_compress_hextets _ p hp with h2 | h2
    · rw [h2] at hcp
      simp at hcp
    · obtain ⟨d, _, he⟩ := List.mem_map.1 h2
      rw [← he] at hcp
      exact Or.inl (natHex_all_hex d c hcp)

theorem ipv6_string_from_int_no_slash (n : Nat) : '/' ∉ ipv6_string_from_int n := by
  intro hm
  rcases ipv6_string_from_int_charset n '/' hm with h | h
  · exact (hex_ne_sep _ h).2.2.1 rfl
  · exact absurd h (by decide)

theorem ipv6_string_from_int_no_pct (n : Nat) : '%' ∉ ipv6_string_from_int n := by
  intro hm
  rcases ipv6_string_from_int_charset n '%' hm with h | h
  · exact (hex_ne_sep _ h).2.2.2.1 rfl
  · exact absurd h (by decide)

theorem ipv6_address_parse_of_render (n : Nat) (sc : Option (List Char))
    (hn : n < 2 ^ 128)
    (hsc : ∀ t, sc = some t → t ≠ [] ∧ '%' ∉ t ∧ '/' ∉ t) :
    ipv6_address_from_string (ipv6_address_str n sc) = some (n, sc) := by
  rcases sc with _ | t
  · show ipv6_address_from_string (ipv6_string_from_int n) = some (n, none)
    unfold ipv6_address_from_string
    rw [if_neg (not_contains_true_of_not_mem _ _ (ipv6_string_from_int_no_slash n))]
    rw [show split_scope_id (ipv6_string_from_int n) =
        some (ipv6_string_from_int n, none) from by
      unfold split_scope_id
      rw [partitionChar_of_not_mem '%' _ (ipv6_string_from_int_no_pct n)]]
    show (match ipv6_int_from_string (ipv6_string_from_int n) with
      | some v => some (v, (none : Option (List Char)))
      | none => none) = some (n, none)
    rw [ipv6_parse_of_render n hn]
  · obtain ⟨htne, htnp, htns⟩ := hsc t rfl
    show ipv6_address_from_string (ipv6_string_from_int n ++ '%' :: t) =
      some (n, some t)
    have hnos2 : '/' ∉ ipv6_string_from_int n ++ '%' :: t := by
      intro hm
      rcases List.mem_append.1 hm with h | h
      · exact ipv6_string_from_int_no_slash n h
      · rcases List.mem_cons.1 h with h2 | h2
        · exact absurd h2 (by decide)
        · exact htns h2
    unfold ipv6_address_from_string
    rw [if_neg (not_contains_true_of_not_mem _ _ hnos2)]
    rw [show split_scope_id (ipv6_string_from_int n ++ '%' :: t) =
        some (ipv6_string_from_int n, some t) from by
      unfold split_scope_id
      rw [partitionChar_append '%' _ t (ipv6_string_from_int_no_pct n)]
      show (if t = [] ∨ t.contains '%' = true then none
        else some (ipv6_string_from_int n, some t)) =
        some (ipv6_string_from_int n, some t)
      rw [if_neg (show ¬ (t = [] ∨ t.contains '%' = true) from fun h =>
        h.elim htne (fun hc => htnp (List.mem_of_elem_eq_true hc)))]]
    show (match ipv6_int_from_string (ipv6_string_from_int n) with
      | some v => some (v, some t)
      | none => none) = some (n, some t)
    rw [ipv6_parse_of_render n hn]

theorem netmask_int_lt (w p : Nat) : netmask_int w p < 2 ^ w := by
  unfold netmask_int
  have h : 0 < 2 ^ w := by positivity
  apply Nat.xor_lt_two_pow
  · omega
  · rw [Nat.shiftRight_eq_div_pow]
    have h2 : (2 ^ w - 1) / 2 ^ p ≤ 2 ^ w - 1 := Nat.div_le_self _ _
    omega

theorem and_netmask_lt (w p v : Nat) : v &&& netmask_int w p < 2 ^ w :=
  lt_of_le_of_lt Nat.and_le_right (netmask_int_lt w p)

theorem and_netmask_idem (w p v : Nat) :
    (v &&& netmask_int w p) &&& netmask_int w p = v &&& netmask_int w p := by
  rw [Nat.and_assoc, Nat.and_self]

theorem netmask_int_full (w : Nat) : netmask_int w w = 2 ^ w - 1 := by
  unfold netmask_int
  have h : 0 < 2 ^ w := by positivity
  rw [Nat.shiftRight_eq_div_pow, Nat.div_eq_of_lt (by omega), Nat.xor_zero]

theorem and_netmask_full (w v : Nat) (hv : v < 2 ^ w) :
    v &&& netmask_int w w = v := by
  rw [netmask_int_full, Nat.and_pow_two_sub_one_eq_mod, Nat.mod_eq_of_lt hv]

/-! ## Netmask strings and branch selection -/

theorem no_dot_in_natDec (p : Nat) : '.' ∉ natDec p := fun hm =>
  (digit_ne_sep '.' (natDec_all_digit p '.' hm)).1 rfl

theorem no_slash_in_natDec (p : Nat) : '/' ∉ natDec p := fun hm =>
  (digit_ne_sep '/' (natDec_all_digit p '/' hm)).2.2.1 rfl

theorem ipv4_int_natDec (p : Nat) : ipv4_int_from_string (natDec p) = none := by
  unfold ipv4_int_from_string
  rw [if_neg (natDec_ne_nil p), splitChar_of_not_mem '.' (natDec p) (no_dot_in_natDec p)]

theorem make_netmask_v4_natDec (p : Nat) :
    make_netmask_v4 (natDec p) = if p ≤ 32 then some p else none := by
  unfold make_netmask_v4
  rw [prefixlen_from_string_natDec]
  by_cases hp : p ≤ 32
  · rw [if_pos hp]
  · rw [if_neg hp]
    show prefixlen_from_ip_string_v4 (natDec p) = none
    unfold prefixlen_from_ip_string_v4
    rw [ipv4_int_natDec]

theorem make_netmask_v6_natDec (p : Nat) :
    make_netmask_v6 (natDec p) = if p ≤ 128 then some p else none :=
  prefixlen_from_string_natDec 128 p

theorem ipv6_address_none_of_ipv4 (a : List Char) (v : Nat)
    (h : ipv4_int_from_string a = some v) : ipv6_address_from_string a = none := by
  obtain ⟨_, _, hchar⟩ := ipv4_render_of_parse a v h
  unfold ipv6_address_from_string
  by_cases hsl : a.contains '/' = true
  · rw [if_pos hsl]
  · rw [if_neg hsl]
    have hpct : '%' ∉ a := by
      intro hm
      rcases hchar _ hm with hd | hd
      · exact (digit_ne_sep _ hd).2.2.2.1 rfl
      · exact absurd hd (by decide)
    have hcolon : ':' ∉ a := by
      intro hm
      rcases hchar _ hm with hd | hd
      · exact (digit_ne_sep _ hd).2.1 rfl
      · exact absurd hd (by decide)
    rw [show split_scope_id a = some (a, none) from by
      unfold split_scope_id
      rw [partitionChar_of_not_mem '%' a hpct]]
    show (match ipv6_int_from_string a with
      | some n => some (n, (none : Option (List Char)))
      | none => none) = none
    rw [show ipv6_int_from_string a = none from by
      unfold ipv6_int_from_string
      by_cases ha : a = []
      · rw [if_pos ha]
      · rw [if_neg ha, splitChar_of_not_mem ':' a hcolon, if_pos (by simp)]]

theorem ip_network_none_of_long_split (s : List Char)
    (h3 : 3 ≤ (splitChar '/' s).length) : ip_network_from_string s = none := by
  rcases hl : splitChar '/' s with _ | ⟨x, _ | ⟨y, _ | ⟨z, rest⟩⟩⟩ <;> rw [hl] at h3
  · simp at h3
  · simp at h3
  · simp at h3
  · unfold ip_network_from_string
    rw [ipv4_network_none_of_long s x y z rest hl,
      ipv6_network_none_of_long s x y z rest hl]
    rfl

theorem pyStrip_slash_suffix (a : List Char) (p : Nat) (c0 : Char)
    (hhead : a.head? = some c0) (hc0 : pyIsSpace c0 = false) :
    pyStrip (a ++ '/' :: natDec p) = a ++ '/' :: natDec p := by
  apply pyStrip_eq_self
  · intro c hc
    cases a with
    | nil => simp at hhead
    | cons x t =>
      simp only [List.head?_cons, Option.some.injEq] at hhead
      simp only [List.cons_append, List.head?_cons, Option.some.injEq] at hc
      rw [← hc, hhead]
      exact hc0
  · intro c hc
    have h1 : (a ++ '/' :: natDec p).getLast? = ('/' :: natDec p).getLast? :=
      List.getLast?_append_of_ne_nil a (by simp)
    have h2 : ('/' :: natDec p).getLast? = (natDec p).getLast? := by
      have h3 := List.getLast?_append_of_ne_nil ['/'] (natDec_ne_nil p)
      simpa using h3
    rw [h1, h2] at hc
    have hmem := mem_of_getLast?_eq hc
    exact pyIsSpace_false_of_digit c (natDec_all_digit p c hmem)

theorem prefixlen_from_string_le (maxLen : Nat) (s : List Char) (p : Nat)
    (h : prefixlen_from_string maxLen s = some p) : p ≤ maxLen := by
  unfold prefixlen_from_string at h
  by_cases h1 : s = []
  · rw [if_pos h1] at h
    exact absurd h (by simp)
  rw [if_neg h1] at h
  by_cases h2 : ¬ s.all isAsciiDigit
  · rw [if_pos h2] at h
    exact absurd h (by simp)
  rw [if_neg h2] at h
  by_cases h3 : decDigitsToNat s ≤ maxLen
  · rw [if_pos h3] at h
    simp only [Option.some.injEq] at h
    omega
  · rw [if_neg h3] at h
    exact absurd h (by simp)

theorem prefixlen_from_mask_int_le (maxLen m p : Nat)
    (h : prefixlen_from_mask_int maxLen m = some p) : p ≤ maxLen := by
  replace h : (if m >>> count_righthand_zero_bits maxLen m =
      2 ^ (maxLen - count_righthand_zero_bits maxLen m) - 1 then
      some (maxLen - count_righthand_zero_bits maxLen m) else none) = some p := h
  by_cases hc : m >>> count_righthand_zero_bits maxLen m =
      2 ^ (maxLen - count_righthand_zero_bits maxLen m) - 1
  · rw [if_pos hc] at h
    simp only [Option.some.injEq] at h
    omega
  · rw [if_neg hc] at h
    exact absurd h (by simp)

theorem make_netmask_v4_le (s : List Char) (p : Nat)
    (h : make_netmask_v4 s = some p) : p ≤ 32 := by
  unfold make_netmask_v4 at h
  rcases h1 : prefixlen_from_string 32 s with _ | q
  · rw [h1] at h
    replace h : prefixlen_from_ip_string_v4 s = some p := h
    unfold prefixlen_from_ip_string_v4 at h
    rcases h2 : ipv4_int_from_string s with _ | m
    · rw [h2] at h
      exact absurd h (by simp)
    rw [h2] at h
    replace h : (match prefixlen_from_mask_int 32 m with
      | some p => some p
      | none => prefixlen_from_mask_int 32 (m ^^^ (2 ^ 32 - 1))) = some p := h
    rcases h3 : prefixlen_from_mask_int 32 m with _ | q2
    · rw [h3] at h
      exact prefixlen_from_mask_int_le 32 _ p h
    · rw [h3] at h
      simp only [Option.some.injEq] at h
      exact h ▸ prefixlen_from_mask_int_le 32 m q2 h3
  · rw [h1] at h
    replace h : some q = some p := h
    simp only [Option.some.injEq] at h
    exact h ▸ prefixlen_from_string_le 32 s q h1

theorem make_netmask_v6_le (s : List Char) (p : Nat)
    (h : make_netmask_v6 s = some p) : p ≤ 128 :=
  prefixlen_from_string_le 128 s p h

theorem ipv4_address_lt (s : List Char) (v : Nat)
    (h : ipv4_address_from_string s = some v) : v < 2 ^ 32 := by
  unfold ipv4_address_from_string at h
  by_cases hsl : s.contains '/' = true
  · rw [if_pos hsl] at h
    exact absurd h (by simp)
  · rw [if_neg hsl] at h
    exact (ipv4_render_of_parse s v h).2.1

theorem ipv6_address_lt (s : List Char) (v : Nat) (sc : Option (List Char))
    (h : ipv6_address_from_string s = some (v, sc)) : v < 2 ^ 128 := by
  have hsl : s.contains '/' = false := ipv6_address_no_slash s (v, sc) h
  unfold ipv6_address_from_string at h
  rw [if_neg (by simp only [hsl]; exact Bool.false_ne_true)] at h
  rcases hsc : split_scope_id s with _ | ⟨addr, sc0⟩
  · rw [hsc] at h
    exact absurd h (by simp)
  rw [hsc] at h
  replace h : (match ipv6_int_from_string addr with
    | some n => some (n, sc0)
    | none => none) = some (v, sc) := h
  rcases hi : ipv6_int_from_string addr with _ | w
  · rw [hi] at h
    exact absurd h (by simp)
  rw [hi] at h
  simp only [Option.some.injEq, Prod.mk.injEq] at h
  exact h.1 ▸ (ipv6_int_from_string_inv addr w hi).1

theorem ipv6_address_scope_inv (s : List Char) (v : Nat) (t : List Char)
    (h : ipv6_address_from_string s = some (v, some t)) :
    t ≠ [] ∧ '%' ∉ t ∧ '/' ∉ t := by
  have hsl : s.contains '/' = false := ipv6_address_no_slash s (v, some t) h
  unfold ipv6_address_from_string at h
  rw [if_neg (by simp only [hsl]; exact Bool.false_ne_true)] at h
  rcases hsc : split_scope_id s with _ | ⟨addr, sc0⟩
  · rw [hsc] at h
    exact absurd h (by simp)
  rw [hsc] at h
  replace h : (match ipv6_int_from_string addr with
    | some n => some (n, sc0)
    | none => none) = some (v, some t) := h
  rcases hi : ipv6_int_from_string addr with _ | w
  · rw [hi] at h
    exact absurd h (by simp)
  rw [hi] at h
  simp only [Option.some.injEq, Prod.mk.injEq] at h
  have hsc0 : sc0 = some t := h.2
  unfold split_scope_id at hsc
  rcases hp : partitionChar '%' s with _ | ⟨A, B⟩
  · rw [hp] at hsc
    simp only [Option.some.injEq, Prod.mk.injEq] at hsc
    rw [← hsc.2] at hsc0
    exact absurd hsc0 (by simp)
  · rw [hp] at hsc
    replace hsc : (if B = [] ∨ B.contains '%' = true then none
      else some (A, some B)) = some (addr, sc0) := hsc
    by_cases hB : B = [] ∨ B.contains '%' = true
    · rw [if_pos hB] at hsc
      exact absurd hsc (by simp)
    rw [if_neg hB] at hsc
    simp only [Option.some.injEq, Prod.mk.injEq] at hsc
    have hBt : B = t := by
      have h4 := hsc.2
      rw [hsc0] at h4
      simp only [Option.some.injEq] at h4
      exact h4
    push_neg at hB
    obtain ⟨hd, -⟩ := partitionChar_some_decomp '%' s A B hp
    refine ⟨hBt ▸ hB.1, hBt ▸ (fun hm => ?_), hBt ▸ (fun hm => ?_)⟩
    · exact hB.2 (List.elem_eq_true_of_mem hm)
    · have hms : '/' ∈ s := by
        rw [hd]
        exact List.mem_append.2 (Or.inr (List.mem_cons_of_mem _ hm))
      have h5 : List.elem '/' s = false := hsl
      rw [List.elem_eq_true_of_mem hms] at h5
      exact Bool.noConfusion h5

theorem ipv4_network_inv (s : List Char) (m p : Nat)
    (h : ipv4_network_from_string s = some (m, p)) :
    m < 2 ^ 32 ∧ p ≤ 32 ∧ m &&& netmask_int 32 p = m := by
  unfold ipv4_network_from_string at h
  rcases hs : splitChar '/' s with _ | ⟨addr, rest⟩
  · rw [hs] at h
    exact absurd h (by simp)
  rcases rest with _ | ⟨mstr, rest2⟩
  · rw [hs] at h
    replace h : (match ipv4_address_from_string addr with
      | some packed =>
        if packed &&& netmask_int 32 32 = packed then some (packed, 32)
        else some (packed &&& netmask_int 32 32, 32)
      | none => none) = some (m, p) := h
    rcases ha : ipv4_address_from_string addr with _ | v
    · rw [ha] at h
      exact absurd h (by simp)
    rw [ha] at h
    replace h : (if v &&& netmask_int 32 32 = v then some (v, 32)
      else some (v &&& netmask_int 32 32, 32)) = some (m, p) := h
    have hv := ipv4_address_lt addr v ha
    by_cases hmask : v &&& netmask_int 32 32 = v
    · rw [if_pos hmask] at h
      simp only [Option.some.injEq, Prod.mk.injEq] at h
      refine ⟨h.1 ▸ hv, by omega, ?_⟩
      rw [← h.2, ← h.1, hmask]
    · rw [if_neg hmask] at h
      simp only [Option.some.injEq, Prod.mk.injEq] at h
      refine ⟨h.1 ▸ and_netmask_lt 32 32 v, by omega, ?_⟩
      rw [← h.2, ← h.1, and_netmask_idem]
  · rcases rest2 with _ | ⟨x, xs⟩
    · rw [hs] at h
      replace h : (match ipv4_address_from_string addr, make_netmask_v4 mstr with
        | some packed, some p =>
          if packed &&& netmask_int 32 p = packed then some (packed, p)
          else some (packed &&& netmask_int 32 p, p)
        | _, _ => none) = some (m, p) := h
      rcases ha : ipv4_address_from_string addr with _ | v
      · rw [ha] at h
        exact absurd h (by simp)
      rcases hmk : make_netmask_v4 mstr with _ | q
      · rw [ha, hmk] at h
        exact absurd h (by simp)
      rw [ha, hmk] at h
      replace h : (if v &&& netmask_int 32 q = v then some (v, q)
        else some (v &&& netmask_int 32 q, q)) = some (m, p) := h
      have hv := ipv4_address_lt addr v ha
      have hq := make_netmask_v4_le mstr q hmk
      by_cases hmask : v &&& netmask_int 32 q = v
      · rw [if_pos hmask] at h
        simp only [Option.some.injEq, Prod.mk.injEq] at h
        refine ⟨h.1 ▸ hv, by omega, ?_⟩
        rw [← h.2, ← h.1, hmask]
      · rw [if_neg hmask] at h
        simp only [Option.some.injEq, Prod.mk.injEq] at h
        refine ⟨h.1 ▸ and_netmask_lt 32 q v, by omega, ?_⟩
        rw [← h.2, ← h.1, and_netmask_idem]
    · rw [hs] at h
      exact absurd h (by simp)

theorem ipv6_network_inv (s : List Char) (m : Nat) (sc : Option (List Char))
    (p : Nat) (h : ipv6_network_from_string s = some (m, sc, p)) :
    m < 2 ^ 128 ∧ p ≤ 128 ∧ m &&& netmask_int 128 p = m ∧
      (∀ t, sc = some t → t ≠ [] ∧ '%' ∉ t ∧ '/' ∉ t) := by
  unfold ipv6_network_from_string at h
  rcases hs : splitChar '/' s with _ | ⟨addr, rest⟩
  · rw [hs] at h
    exact absurd h (by simp)
  rcases rest with _ | ⟨mstr, rest2⟩
  · rw [hs] at h
    replace h : (match ipv6_address_from_string addr with
      | some (n, sc) =>
        if n &&& netmask_int 128 128 = n then some (n, sc, 128)
        else some (n &&& netmask_int 128 128, none, 128)
      | none => none) = some (m, sc, p) := h
    rcases ha : ipv6_address_from_string addr with _ | ⟨v, sc0⟩
    · rw [ha] at h
      exact absurd h (by simp)
    rw [ha] at h
    replace h : (if v &&& netmask_int 128 128 = v then some (v, sc0, 128)
      else some (v &&& netmask_int 128 128, none, 128)) = some (m, sc, p) := h
    have hv := ipv6_address_lt addr v sc0 ha
    by_cases hmask : v &&& netmask_int 128 128 = v
    · rw [if_pos hmask] at h
      simp only [Option.some.injEq, Prod.mk.injEq] at h
      obtain ⟨h1, h2, h3⟩ := h
      refine ⟨h1 ▸ hv, by omega, by rw [← h3, ← h1, hmask], ?_⟩
      intro t ht
      rw [h2, ht] at ha
      exact ipv6_address_scope_inv addr v t (h1 ▸ ha)
    · rw [if_neg hmask] at h
      simp only [Option.some.injEq, Prod.mk.injEq] at h
      obtain ⟨h1, h2, h3⟩ := h
      refine ⟨h1 ▸ and_netmask_lt 128 128 v, by omega,
        by rw [← h3, ← h1, and_netmask_idem], ?_⟩
      intro t ht
      rw [ht] at h2
      exact absurd h2 (by simp)
  · rcases rest2 with _ | ⟨x, xs⟩
    · rw [hs] at h
      replace h : (match ipv6_address_from_string addr, make_netmask_v6 mstr with
        | some (n, sc), some p =>
          if n &&& netmask_int 128 p = n then some (n, sc, p)
          else some (n &&& netmask_int 128 p, none, p)
        | _, _ => none) = some (m, sc, p) := h
      rcases ha : ipv6_address_from_string addr with _ | ⟨v, sc0⟩
      · rw [ha] at h
        exact absurd h (by simp)
      rcases hmk : make_netmask_v6 mstr with _ | q
      · rw [ha, hmk] at h
        exact absurd h (by simp)
      rw [ha, hmk] at h
      replace h : (if v &&& netmask_int 128 q = v then some (v, sc0, q)
        else some (v &&& netmask_int 128 q, none, q)) = some (m, sc, p) := h
      have hv := ipv6_address_lt addr v sc0 ha
      have hq := make_netmask_v6_le mstr q hmk
      by_cases hmask : v &&& netmask_int 128 q = v
      · rw [if_pos hmask] at h
        simp only [Option.some.injEq, Prod.mk.injEq] at h
        obtain ⟨h1, h2, h3⟩ := h
        refine ⟨h1 ▸ hv, by omega, by rw [← h3, ← h1, hmask], ?_⟩
        intro t ht
        rw [h2, ht] at ha
        exact ipv6_address_scope_inv addr v t (h1 ▸ ha)
      · rw [if_neg hmask] at h
        simp only [Option.some.injEq, Prod.mk.injEq] at h
        obtain ⟨h1, h2, h3⟩ := h
        refine ⟨h1 ▸ and_netmask_lt 128 q v, by omega,
          by rw [← h3, ← h1, and_netmask_idem], ?_⟩
        intro t ht
        rw [ht] at h2
        exact absurd h2 (by simp)
    · rw [hs] at h
      exact absurd h (by simp)

/-- Full characterisation of `normalize_ip_or_cidr` on a network string of
the shape `a ++ "/" ++ str(p)` accepted by `ip_network(..., strict=False)`:
the result is the masked network address in canonical form followed by the
prefix length. -/
theorem normalize_network_spec (a : List Char) (p : Nat) (net : IPNet)
    (h : ip_network_from_string (a ++ '/' :: natDec p) = some net) :
    (∃ v, ipv4_address_from_string a = some v ∧ p ≤ 32 ∧
        net = IPNet.v4 (v &&& netmask_int 32 p) p ∧
        normalize_ip_or_cidr (a ++ '/' :: natDec p) =
          some (ipv4_string_from_int (v &&& netmask_int 32 p) ++ '/' :: natDec p)) ∨
    (∃ v sc, ipv6_address_from_string a = some (v, sc) ∧ p ≤ 128 ∧
        net = IPNet.v6 (v &&& netmask_int 128 p)
          (if v &&& netmask_int 128 p = v then sc else none) p ∧
        normalize_ip_or_cidr (a ++ '/' :: natDec p) =
          some (ipv6_address_str (v &&& netmask_int 128 p)
            (if v &&& netmask_int 128 p = v then sc else none) ++ '/' :: natDec p)) := by
  have hA : '/' ∉ a := by
    intro hmem
    have hcnt : 1 ≤ a.count '/' := List.count_pos_iff.2 hmem
    have hlen : 3 ≤ (splitChar '/' (a ++ '/' :: natDec p)).length := by
      rw [splitChar_length]
      have : '/' ∉ natDec p := no_slash_in_natDec p
      rw [List.count_append, List.count_cons_self]
      have h0 : (natDec p).count '/' = 0 := by
        simpa [List.count_eq_zero] using this
      omega
    rw [ip_network_none_of_long_split _ hlen] at h
    exact Option.noConfusion h
  have hsp : splitChar '/' (a ++ '/' :: natDec p) = [a, natDec p] := by
    rw [splitChar_append_sep '/' a _ hA,
      splitChar_of_not_mem '/' (natDec p) (no_slash_in_natDec p)]
  have hs_ne : a ++ '/' :: natDec p ≠ [] := by simp
  have hs_mem : '/' ∈ a ++ '/' :: natDec p := List.mem_append.2 (Or.inr (by simp))
  have hs_contains : (a ++ '/' :: natDec p).contains '/' = true := by
    simp [List.elem_iff]
  unfold ip_network_from_string at h
  rcases h4 : ipv4_network_from_string (a ++ '/' :: natDec p) with _ | ⟨m, q⟩
  · -- the IPv4 network parse failed: the IPv6 network parse must have succeeded
    rw [h4] at h
    rcases h6 : ipv6_network_from_string (a ++ '/' :: natDec p) with _ | ⟨n', sc', q⟩
    · rw [h6] at h; simp at h
    rw [h6] at h
    simp only [Option.map_some', Option.some.injEq] at h
    -- invert the IPv6 network parse
    have h6m := h6
    unfold ipv6_network_from_string at h6m
    rw [hsp] at h6m
    replace h6m : (match ipv6_address_from_string a, make_netmask_v6 (natDec p) with
      | some (n, sc), some p =>
        if n &&& netmask_int 128 p = n then some (n, sc, p)
        else some (n &&& netmask_int 128 p, none, p)
      | _, _ => none) = some (n', sc', q) := h6m
    rcases ha6 : ipv6_address_from_string a with _ | ⟨v, sc⟩
    · rw [ha6] at h6m
      exact absurd h6m (by simp)
    rw [ha6, make_netmask_v6_natDec] at h6m
    by_cases hp : p ≤ 128
    · rw [if_pos hp] at h6m
      replace h6m : (if v &&& netmask_int 128 p = v then some (v, sc, p)
        else some (v &&& netmask_int 128 p, none, p)) = some (n', sc', q) := h6m
      have hkey : n' = v &&& netmask_int 128 p ∧
          sc' = (if v &&& netmask_int 128 p = v then sc else none) ∧ q = p := by
        by_cases hmask : v &&& netmask_int 128 p = v
        · rw [if_pos hmask] at h6m
          simp only [Option.some.injEq, Prod.mk.injEq] at h6m
          rw [if_pos hmask]
          exact ⟨by rw [← h6m.1, hmask], h6m.2.1.symm, h6m.2.2.symm⟩
        · rw [if_neg hmask] at h6m
          simp only [Option.some.injEq, Prod.mk.injEq] at h6m
          rw [if_neg hmask]
          exact ⟨h6m.1.symm, h6m.2.1.symm, h6m.2.2.symm⟩
      right
      refine ⟨v, sc, rfl, hp, by rw [← h, hkey.1, hkey.2.1, hkey.2.2], ?_⟩
      · -- normalize takes the same branch
        obtain ⟨c0, hc0head⟩ : ∃ c0, a.head? = some c0 := by
          cases a with
          | nil =>
            exfalso
            rw [show ipv6_address_from_string [] = none from by decide] at ha6
            exact Option.noConfusion ha6
          | cons x t => exact ⟨x, rfl⟩
        have hc0 : pyIsSpace c0 = false := by
          -- the head of an accepted IPv6 address part is ':' or a hex digit
          have hsl6 := ipv6_address_no_slash a (v, sc) ha6
          unfold ipv6_address_from_string at ha6
          rw [if_neg (by simp only [hsl6]; exact Bool.false_ne_true)] at ha6
          rcases hsc : split_scope_id a with _ | ⟨addr, scp⟩
          · rw [hsc] at ha6; exact absurd ha6 (by simp)
          rw [hsc] at ha6
          replace ha6 : (match ipv6_int_from_string addr with
            | some n => some (n, scp)
            | none => none) = some (v, sc) := ha6
          rcases hi6 : ipv6_int_from_string addr with _ | w
          · rw [hi6] at ha6; exact absurd ha6 (by simp)
          rw [hi6] at ha6
          have hhead6 := (ipv6_int_from_string_inv addr w hi6).2
          -- head of a = head of addr
          unfold split_scope_id at hsc
          rcases hpc : partitionChar '%' a with _ | ⟨A, B⟩
          · rw [hpc] at hsc
            simp only [Option.some.injEq, Prod.mk.injEq] at hsc
            rw [← hsc.1] at hhead6
            rcases hhead6 c0 hc0head with hcol | hhex
            · rw [hcol]; decide
            · exact pyIsSpace_false_of_hex c0 hhex
          · rw [hpc] at hsc
            replace hsc : (if B = [] ∨ B.contains '%' = true then none
              else some (A, some B)) = some (addr, scp) := hsc
            by_cases hB : B = [] ∨ B.contains '%' = true
            · rw [if_pos hB] at hsc; exact absurd hsc (by simp)
            rw [if_neg hB] at hsc
            simp only [Option.some.injEq, Prod.mk.injEq] at hsc
            obtain ⟨hd, hnm⟩ := partitionChar_some_decomp '%' a A B hpc
            have hAne : A ≠ [] := by
              intro he
              rw [← hsc.1, he] at hi6
              rw [show ipv6_int_from_string [] = none from by decide] at hi6
              exact Option.noConfusion hi6
            have : A.head? = some c0 := by
              rw [hd] at hc0head
              cases A with
              | nil => exact absurd rfl hAne
              | cons x t => simpa using hc0head
            rw [← hsc.1] at hhead6
            rcases hhead6 c0 this with hcol | hhex
            · rw [hcol]; decide
            · exact pyIsSpace_false_of_hex c0 hhex
        unfold normalize_ip_or_cidr
        simp only [pyStrip_slash_suffix a p c0 hc0head hc0]
        rw [if_neg hs_ne, if_pos hs_contains]
        rw [show ip_network_from_string (a ++ '/' :: natDec p) =
            some (IPNet.v6 (v &&& netmask_int 128 p)
              (if v &&& netmask_int 128 p = v then sc else none) p) from by
          unfold ip_network_from_string
          rw [h4]
          simp only [h6, Option.map_some']
          rw [hkey.1, hkey.2.1, hkey.2.2]]
    · rw [if_neg hp] at h6m
      exact absurd h6m (by simp)
  · -- the IPv4 network parse succeeded
    rw [h4] at h
    simp only [Option.some.injEq] at h
    have h4m := h4
    unfold ipv4_network_from_string at h4m
    rw [hsp] at h4m
    replace h4m : (match ipv4_address_from_string a, make_netmask_v4 (natDec p) with
      | some packed, some p =>
        if packed &&& netmask_int 32 p = packed then some (packed, p)
        else some (packed &&& netmask_int 32 p, p)
      | _, _ => none) = some (m, q) := h4m
    rcases ha4 : ipv4_address_from_string a with _ | v
    · rw [ha4] at h4m
      exact absurd h4m (by simp)
    rw [ha4, make_netmask_v4_natDec] at h4m
    by_cases hp : p ≤ 32
    · rw [if_pos hp] at h4m
      replace h4m : (if v &&& netmask_int 32 p = v then some (v, p)
        else some (v &&& netmask_int 32 p, p)) = some (m, q) := h4m
      left
      have hm : m = v &&& netmask_int 32 p ∧ q = p := by
        by_cases hmask : v &&& netmask_int 32 p = v
        · rw [if_pos hmask] at h4m
          simp only [Option.some.injEq, Prod.mk.injEq] at h4m
          exact ⟨by rw [← h4m.1, hmask], h4m.2.symm⟩
        · rw [if_neg hmask] at h4m
          simp only [Option.some.injEq, Prod.mk.injEq] at h4m
          exact ⟨h4m.1.symm, h4m.2.symm⟩
      refine ⟨v, rfl, hp, by rw [← h, hm.1, hm.2], ?_⟩
      have hv4 : ipv4_int_from_string a = some v := by
        unfold ipv4_address_from_string at ha4
        by_cases hsl : a.contains '/' = true
        · rw [if_pos hsl] at ha4; exact absurd ha4 (by simp)
        · rwa [if_neg hsl] at ha4
      obtain ⟨-, -, hchar⟩ := ipv4_render_of_parse a v hv4
      obtain ⟨c0, hc0head⟩ : ∃ c0, a.head? = some c0 := by
        cases a with
        | nil =>
          exfalso
          rw [show ipv4_int_from_string [] = none from by simp [ipv4_int_from_string]] at hv4
          exact Option.noConfusion hv4
        | cons x t => exact ⟨x, rfl⟩
      have hc0 : pyIsSpace c0 = false := by
        have hc0mem : c0 ∈ a := by
          cases a with
          | nil => simp at hc0head
          | cons x t =>
            simp only [List.head?_cons, Option.some.injEq] at hc0head
            simp [← hc0head]
        rcases hchar c0 hc0mem with hd | hd
        · exact pyIsSpace_false_of_digit c0 hd
        · rw [hd]; decide
      unfold normalize_ip_or_cidr
      simp only [pyStrip_slash_suffix a p c0 hc0head hc0]
      rw [if_neg hs_ne, if_pos hs_contains]
      rw [show ip_network_from_string (a ++ '/' :: natDec p) =
          some (IPNet.v4 (v &&& netmask_int 32 p) p) from by
        unfold ip_network_from_string
        rw [h4, hm.1, hm.2]]
    · rw [if_neg hp] at h4m
      exact absurd h4m (by simp)

theorem sep_mem_joinSep (sep : Char) :
    ∀ parts : List (List Char), 2 ≤ parts.length → sep ∈ joinSep sep parts
  | [], h => by simp at h
  | [p], h => by simp at h
  | p :: q :: r, _ => by
    rw [joinSep_cons_cons]
    exact List.mem_append.2 (Or.inr (by simp))

theorem ipv6_string_parts_len (n : Nat) :
    2 ≤ (compress_hextets ((baseGroups 65536 n 8).map natHex)).length := by
  have hHlen : ((baseGroups 65536 n 8).map natHex).length = 8 := by
    rw [List.length_map, baseGroups_length]
  rcases hr : bestZeroRun ((baseGroups 65536 n 8).map natHex) with ⟨bs, bl⟩
  by_cases hbl : 1 < bl
  · rw [compress_hextets_shape _ bs bl hr hbl, hHlen]
    have hA1 : 1 ≤ ((if bs = 0 then [[]]
        else ((baseGroups 65536 n 8).map natHex).take bs) :
          List (List Char)).length := by
      by_cases hbs : bs = 0
      · rw [if_pos hbs]
        simp
      · rw [if_neg hbs, List.length_take, hHlen]
        omega
    rw [List.length_append, List.length_cons]
    omega
  · rw [compress_hextets_id _ bs bl hr hbl, hHlen]
    omega

theorem colon_mem_ipv6_string (n : Nat) : ':' ∈ ipv6_string_from_int n :=
  sep_mem_joinSep ':' _ (ipv6_string_parts_len n)

theorem ipv6_string_from_int_ne_nil (n : Nat) (hn : n < 2 ^ 128) :
    ipv6_string_from_int n ≠ [] := by
  intro he
  have h := ipv6_parse_of_render n hn
  rw [he, show ipv6_int_from_string [] = none from rfl] at h
  exact Option.noConfusion h

theorem ipv4_address_none_of_ipv6_str (n : Nat) (sc : Option (List Char)) :
    ipv4_address_from_string (ipv6_address_str n sc) = none := by
  rcases h4 : ipv4_address_from_string (ipv6_address_str n sc) with _ | v
  · rfl
  · exfalso
    have h4i : ipv4_int_from_string (ipv6_address_str n sc) = some v := by
      unfold ipv4_address_from_string at h4
      by_cases hsl : (ipv6_address_str n sc).contains '/' = true
      · rw [if_pos hsl] at h4
        exact Option.noConfusion h4
      · rwa [if_neg hsl] at h4
    have hchars := (ipv4_render_of_parse _ v h4i).2.2
    have hcolon : ':' ∈ ipv6_address_str n sc := by
      rcases sc with _ | t
      · exact colon_mem_ipv6_string n
      · show ':' ∈ ipv6_string_from_int n ++ '%' :: t
        exact List.mem_append.2 (Or.inl (colon_mem_ipv6_string n))
    rcases hchars ':' hcolon with h | h
    · exact (digit_ne_sep ':' h).2.1 rfl
    · exact absurd h (by decide)

theorem ip_network_v4_elim (s : List Char) (m p : Nat)
    (h : ip_network_from_string s = some (IPNet.v4 m p)) :
    ipv4_network_from_string s = some (m, p) := by
  unfold ip_network_from_string at h
  rcases h4 : ipv4_network_from_string s with _ | ⟨m2, p2⟩
  · rw [h4] at h
    rcases h6 : ipv6_network_from_string s with _ | t
    · rw [h6] at h
      exact absurd h (by simp)
    · rw [h6] at h
      simp only [Option.map_some', Option.some.injEq] at h
      exact absurd h (by simp)
  · rw [h4] at h
    replace h : some (IPNet.v4 m2 p2) = some (IPNet.v4 m p) := h
    simp only [Option.some.injEq, IPNet.v4.injEq] at h
    rw [h.1, h.2]

theorem ip_network_v6_elim (s : List Char) (m : Nat) (sc : Option (List Char))
    (p : Nat) (h : ip_network_from_string s = some (IPNet.v6 m sc p)) :
    ipv6_network_from_string s = some (m, sc, p) := by
  unfold ip_network_from_string at h
  rcases h4 : ipv4_network_from_string s with _ | ⟨m2, p2⟩
  · rw [h4] at h
    rcases h6 : ipv6_network_from_string s with _ | ⟨a, b, c⟩
    · rw [h6] at h
      exact absurd h (by simp)
    · rw [h6] at h
      simp only [Option.map_some', Option.some.injEq, IPNet.v6.injEq] at h
      rw [h.1, h.2.1, h.2.2]
  · rw [h4] at h
    replace h : some (IPNet.v4 m2 p2) = some (IPNet.v6 m sc p) := h
    exact absurd h (by simp)

theorem renormalize_v4 (m p : Nat) (hm : m < 2 ^ 32) (hp : p ≤ 32)
    (hmask : m &&& netmask_int 32 p = m) :
    normalize_ip_or_cidr (ipv4_string_from_int m ++ '/' :: natDec p) =
      some (ipv4_string_from_int m ++ '/' :: natDec p) := by
  have hnos : '/' ∉ ipv4_string_from_int m := by
    intro hmem
    rcases ipv4_string_from_int_charset m '/' hmem with h | h
    · exact (digit_ne_sep '/' h).2.2.1 rfl
    · exact absurd h (by decide)
  have haddr : ipv4_address_from_string (ipv4_string_from_int m) = some m := by
    unfold ipv4_address_from_string
    rw [if_neg (not_contains_true_of_not_mem _ _ hnos), ipv4_parse_of_render m hm]
  have hsplit : splitChar '/' (ipv4_string_from_int m ++ '/' :: natDec p) =
      [ipv4_string_from_int m, natDec p] := by
    rw [splitChar_append_sep '/' _ _ hnos,
      splitChar_of_not_mem '/' (natDec p) (no_slash_in_natDec p)]
  have h4 : ipv4_network_from_string (ipv4_string_from_int m ++ '/' :: natDec p) =
      some (m, p) := by
    unfold ipv4_network_from_string
    rw [hsplit]
    show (match ipv4_address_from_string (ipv4_string_from_int m),
        make_netmask_v4 (natDec p) with
      | some packed, some p =>
        if packed &&& netmask_int 32 p = packed then some (packed, p)
        else some (packed &&& netmask_int 32 p, p)
      | _, _ => none) = some (m, p)
    rw [haddr, make_netmask_v4_natDec, if_pos hp]
    show (if m &&& netmask_int 32 p = m then some (m, p)
      else some (m &&& netmask_int 32 p, p)) = some (m, p)
    rw [if_pos hmask]
  have hnet : ip_network_from_string (ipv4_string_from_int m ++ '/' :: natDec p) =
      some (IPNet.v4 m p) := by
    unfold ip_network_from_string
    rw [h4]
  obtain ⟨x, t0, hxt⟩ := List.exists_cons_of_ne_nil (ipv4_string_from_int_ne_nil m)
  have hxmem : x ∈ ipv4_string_from_int m := by rw [hxt]; simp
  have hxspace : pyIsSpace x = false := by
    rcases ipv4_string_from_int_charset m x hxmem with h | h
    · exact pyIsSpace_false_of_digit x h
    · rw [h]; decide
  have hx0 : (ipv4_string_from_int m).head? = some x := by rw [hxt]; rfl
  have hs_ne : ipv4_string_from_int m ++ '/' :: natDec p ≠ [] := by simp
  have hs_contains :
      (ipv4_string_from_int m ++ '/' :: natDec p).contains '/' = true := by
    simp [List.elem_iff]
  unfold normalize_ip_or_cidr
  simp only [pyStrip_slash_suffix _ p x hx0 hxspace]
  rw [if_neg hs_ne, if_pos hs_contains, hnet]

theorem renormalize_v6 (m p : Nat) (sc : Option (List Char))
    (hm : m < 2 ^ 128) (hp : p ≤ 128) (hmask : m &&& netmask_int 128 p = m)
    (hsc : ∀ t, sc = some t → t ≠ [] ∧ '%' ∉ t ∧ '/' ∉ t) :
    normalize_ip_or_cidr (ipv6_address_str m sc ++ '/' :: natDec p) =
      some (ipv6_address_str m sc ++ '/' :: natDec p) := by
  have haddr := ipv6_address_parse_of_render m sc hm hsc
  have hnosl : '/' ∉ ipv6_address_str m sc :=
    not_mem_of_contains_false _ _ (ipv6_address_no_slash _ (m, sc) haddr)
  have hsplit : splitChar '/' (ipv6_address_str m sc ++ '/' :: natDec p) =
      [ipv6_address_str m sc, natDec p] := by
    rw [splitChar_append_sep '/' _ _ hnosl,
      splitChar_of_not_mem '/' (natDec p) (no_slash_in_natDec p)]
  have h4 : ipv4_network_from_string (ipv6_address_str m sc ++ '/' :: natDec p) =
      none := by
    unfold ipv4_network_from_string
    rw [hsplit]
    show (match ipv4_address_from_string (ipv6_address_str m sc),
        make_netmask_v4 (natDec p) with
      | some packed, some p =>
        if packed &&& netmask_int 32 p = packed then some (packed, p)
        else some (packed &&& netmask_int 32 p, p)
      | _, _ => none) = none
    rw [ipv4_address_none_of_ipv6_str m sc]
  have h6 : ipv6_network_from_string (ipv6_address_str m sc ++ '/' :: natDec p) =
      some (m, sc, p) := by
    unfold ipv6_network_from_string
    rw [hsplit]
    show (match ipv6_address_from_string (ipv6_address_str m sc),
        make_netmask_v6 (natDec p) with
      | some (n, sc), some p =>
        if n &&& netmask_int 128 p = n then some (n, sc, p)
        else some (n &&& netmask_int 128 p, none, p)
      | _, _ => none) = some (m, sc, p)
    rw [haddr, make_netmask_v6_natDec, if_pos hp]
    show (if m &&& netmask_int 128 p = m then some (m, sc, p)
      else some (m &&& netmask_int 128 p, none, p)) = some (m, sc, p)
    rw [if_pos hmask]
  have hnet : ip_network_from_string (ipv6_address_str m sc ++ '/' :: natDec p) =
      some (IPNet.v6 m sc p) := by
    unfold ip_network_from_string
    rw [h4, h6]
    rfl
  have hne6 : ipv6_address_str m sc ≠ [] := by
    rcases sc with _ | t
    · exact ipv6_string_from_int_ne_nil m hm
    · show ipv6_string_from_int m ++ '%' :: t ≠ []
      simp
  obtain ⟨x, t0, hxt⟩ := List.exists_cons_of_ne_nil hne6
  have hxspace : pyIsSpace x = false := by
    obtain ⟨r0, rr, hre⟩ :=
      List.exists_cons_of_ne_nil (ipv6_string_from_int_ne_nil m hm)
    have hxr : x = r0 := by
      rcases sc with _ | t
      · rw [show ipv6_address_str m none = ipv6_string_from_int m from rfl,
          hre] at hxt
        injection hxt with h1 h2
        exact h1.symm
      · rw [show ipv6_address_str m (some t) =
            ipv6_string_from_int m ++ '%' :: t from rfl, hre] at hxt
        simp only [List.cons_append] at hxt
        injection hxt with h1 h2
        exact h1.symm
    have hr0 : r0 ∈ ipv6_string_from_int m := by rw [hre]; simp
    rcases ipv6_string_from_int_charset m r0 hr0 with h | h
    · rw [hxr]
      exact pyIsSpace_false_of_hex r0 h
    · rw [hxr, h]
      decide
  have hx0 : (ipv6_address_str m sc).head? = some x := by rw [hxt]; rfl
  have hs_ne : ipv6_address_str m sc ++ '/' :: natDec p ≠ [] := by simp
  have hs_contains :
      (ipv6_address_str m sc ++ '/' :: natDec p).contains '/' = true := by
    simp [List.elem_iff]
  unfold normalize_ip_or_cidr
  simp only [pyStrip_slash_suffix _ p x hx0 hxspace]
  rw [if_neg hs_ne, if_pos hs_contains, hnet]

/-- C4: for every network string `a/p` (address part `a`, decimal prefix
length `p`) that `ip_network(..., strict=False)` accepts,
`normalize_ip_or_cidr` succeeds and returns the network address — the
address value masked with the prefix netmask, i.e. host bits zeroed — in
canonical form, followed by `'/'` and the original prefix length `p`.  When
masking actually clears bits of a scoped IPv6 address the scope id is
dropped, as CPython rebuilds the network address from the masked integer. -/
theorem C4_network_normalization (a : List Char) (p : Nat) (net : IPNet)
    (h : ip_network_from_string (a ++ '/' :: natDec p) = some net) :
    (∃ v, ipv4_address_from_string a = some v ∧ p ≤ 32 ∧
        net = IPNet.v4 (v &&& netmask_int 32 p) p ∧
        normalize_ip_or_cidr (a ++ '/' :: natDec p) =
          some (ipv4_string_from_int (v &&& netmask_int 32 p) ++ '/' :: natDec p)) ∨
    (∃ v sc, ipv6_address_from_string a = some (v, sc) ∧ p ≤ 128 ∧
        net = IPNet.v6 (v &&& netmask_int 128 p)
          (if v &&& netmask_int 128 p = v then sc else none) p ∧
        normalize_ip_or_cidr (a ++ '/' :: natDec p) =
          some (ipv6_address_str (v &&& netmask_int 128 p)
            (if v &&& netmask_int 128 p = v then sc else none) ++ '/' :: natDec p)) :=
  normalize_network_spec a p net h

/-- Witness for `C4_network_normalization` at `"10.0.0.1/24"`: the host bits
are cleared, giving `"10.0.0.0/24"`. -/
theorem C4_witness :
    ip_network_from_string (("10.0.0.1").data ++ '/' :: natDec 24) =
      some (IPNet.v4 167772160 24) ∧
    ((∃ v, ipv4_address_from_string ("10.0.0.1").data = some v ∧ 24 ≤ 32 ∧
        IPNet.v4 167772160 24 = IPNet.v4 (v &&& netmask_int 32 24) 24 ∧
        normalize_ip_or_cidr (("10.0.0.1").data ++ '/' :: natDec 24) =
          some (ipv4_string_from_int (v &&& netmask_int 32 24) ++ '/' :: natDec 24)) ∨
      (∃ v sc, ipv6_address_from_string ("10.0.0.1").data = some (v, sc) ∧ 24 ≤ 128 ∧
        IPNet.v4 167772160 24 = IPNet.v6 (v &&& netmask_int 128 24)
          (if v &&& netmask_int 128 24 = v then sc else none) 24 ∧
        normalize_ip_or_cidr (("10.0.0.1").data ++ '/' :: natDec 24) =
          some (ipv6_address_str (v &&& netmask_int 128 24)
            (if v &&& netmask_int 128 24 = v then sc else none) ++ '/' :: natDec 24))) :=
  ⟨by decide,
    C4_network_normalization ("10.0.0.1").data 24 (IPNet.v4 167772160 24) (by decide)⟩

/-- C5: `normalize_ip_or_cidr` is idempotent: whenever it succeeds, running
it again on its own output returns that output unchanged.  The output is
always a canonically rendered, already-masked address followed by
`'/'` and a prefix length, and re-parsing such a string reproduces it. -/
theorem C5_idempotent (x y : List Char)
    (h : normalize_ip_or_cidr x = some y) :
    normalize_ip_or_cidr y = some y := by
  replace h : (if pyStrip x = [] then none
    else if (pyStrip x).contains '/' = true then
      match ip_network_from_string (pyStrip x) with
      | some (.v4 n p) => some (ipv4_string_from_int n ++ '/' :: natDec p)
      | some (.v6 n sc p) => some (ipv6_address_str n sc ++ '/' :: natDec p)
      | none => none
    else
      match ip_address_from_string (pyStrip x) with
      | some (.v4 n) => some (ipv4_string_from_int n ++ '/' :: natDec 32)
      | some (.v6 n sc) => some (ipv6_address_str n sc ++ '/' :: natDec 128)
      | none => none) = some y := h
  by_cases he : pyStrip x = []
  · rw [if_pos he] at h
    exact absurd h (by simp)
  rw [if_neg he] at h
  by_cases hsl : (pyStrip x).contains '/' = true
  · rw [if_pos hsl] at h
    rcases hnet : ip_network_from_string (pyStrip x) with _ | net
    · rw [hnet] at h
      exact absurd h (by simp)
    rw [hnet] at h
    rcases net with ⟨m, p⟩ | ⟨m, sc, p⟩
    · replace h : some (ipv4_string_from_int m ++ '/' :: natDec p) = some y := h
      simp only [Option.some.injEq] at h
      have h4 := ip_network_v4_elim _ m p hnet
      obtain ⟨hmlt, hple, hmask⟩ := ipv4_network_inv _ m p h4
      rw [← h]
      exact renormalize_v4 m p hmlt hple hmask
    · replace h : some (ipv6_address_str m sc ++ '/' :: natDec p) = some y := h
      simp only [Option.some.injEq] at h
      have h6 := ip_network_v6_elim _ m sc p hnet
      obtain ⟨hmlt, hple, hmask, hscinv⟩ := ipv6_network_inv _ m sc p h6
      rw [← h]
      exact renormalize_v6 m p sc hmlt hple hmask hscinv
  · rw [if_neg hsl] at h
    rcases haddr : ip_address_from_string (pyStrip x) with _ | a
    · rw [haddr] at h
      exact absurd h (by simp)
    rw [haddr] at h
    rcases a with m | ⟨m, sc⟩
    · replace h : some (ipv4_string_from_int m ++ '/' :: natDec 32) = some y := h
      simp only [Option.some.injEq] at h
      have h4 := (ip_address_v4_elim _ m haddr).2
      have hmlt : m < 2 ^ 32 := (ipv4_render_of_parse _ m h4).2.1
      rw [← h]
      exact renormalize_v4 m 32 hmlt (by omega) (and_netmask_full 32 m hmlt)
    · replace h : some (ipv6_address_str m sc ++ '/' :: natDec 128) = some y := h
      simp only [Option.some.injEq] at h
      have h6 := (ip_address_v6_elim _ m sc haddr).2
      have hmlt := ipv6_address_lt _ m sc h6
      have hscinv : ∀ t, sc = some t → t ≠ [] ∧ '%' ∉ t ∧ '/' ∉ t := by
        intro t ht
        rw [ht] at h6
        exact ipv6_address_scope_inv _ m t h6
      rw [← h]
      exact renormalize_v6 m 128 sc hmlt (by omega)
        (and_netmask_full 128 m hmlt) hscinv

/-- Witness for `C5_idempotent` at `"10.0.0.1"`, whose normal form is
`"10.0.0.1/32"`. -/
theorem C5_witness :
    normalize_ip_or_cidr ("10.0.0.1").data = some (("10.0.0.1/32").data) ∧
    normalize_ip_or_cidr ("10.0.0.1/32").data = some (("10.0.0.1/32").data) :=
  ⟨by decide, C5_idempotent ("10.0.0.1").data ("10.0.0.1/32").data (by decide)⟩

/-- C2: the claim that a valid IPv6 address string is returned verbatim with
`"/128"` appended is false: `"0::1"` is a valid IPv6 address string, but
`normalize_ip_or_cidr` returns the canonical compressed rendering
`"::1/128"`, not `"0::1/128"`. -/
theorem C2_counterexample :
    ip_address_from_string ("0::1").data = some (IPAddr.v6 1 none) ∧
    normalize_ip_or_cidr ("0::1").data = some (("::1/128").data) ∧
    normalize_ip_or_cidr ("0::1").data ≠ some (("0::1").data ++ ("/128").data) :=
  ⟨by decide, by decide, by decide⟩

/-- C2 (amended): for every string (with no surrounding whitespace, which
`strip` would remove) that Python's `ip_address` accepts as an IPv6 address,
`normalize_ip_or_cidr` returns the canonical string form of the parsed
address — `str(IPv6Address(...))`, compressed lower-case hex plus any scope
id — with `"/128"` appended; this equals the input with `"/128"` appended
exactly when the input is already canonical. -/
theorem C2_amended (s : List Char) (n : Nat) (sc : Option (List Char))
    (h : ip_address_from_string s = some (IPAddr.v6 n sc))
    (hstrip : pyStrip s = s) :
    normalize_ip_or_cidr s = some (ipv6_address_str n sc ++ "/128".data) := by
  obtain ⟨hslash, h6⟩ := ip_address_v6_elim s n sc h
  have hs_ne : s ≠ [] := by
    intro he
    rw [he, show ipv6_address_from_string [] = none from by decide] at h6
    exact Option.noConfusion h6
  unfold normalize_ip_or_cidr
  simp only [hstrip]
  rw [if_neg hs_ne, if_neg (by simp only [hslash]; exact Bool.false_ne_true), h]
  show some (ipv6_address_str n sc ++ '/' :: natDec 128) =
    some (ipv6_address_str n sc ++ "/128".data)
  have h128 : '/' :: natDec 128 = "/128".data := by decide
  rw [h128]

/-- Witness for `C2_amended` at the canonical address `"2001:db8::1"`. -/
theorem C2_witness :
    ip_address_from_string ("2001:db8::1").data =
      some (IPAddr.v6 42540766411282592856903984951653826561 none) ∧
    normalize_ip_or_cidr ("2001:db8::1").data =
      some (ipv6_address_str 42540766411282592856903984951653826561 none ++ "/128".data) :=
  ⟨by decide,
    C2_amended ("2001:db8::1").data 42540766411282592856903984951653826561 none
      (by decide) (by decide)⟩

/-- C10: the generators branch only on equality with `"Firewall"`: for any
other platform string whatsoever they emit the shared dialect, and no
platform value is rejected. -/
theorem C10_platform_dispatch (platform n c g : List Char) (ms : List (List Char))
    (h : platform ≠ "Firewall".data) :
    gen_address_cmd platform n c =
      "set shared address ".data ++ n ++ " ip-netmask ".data ++ c ∧
    gen_group_cmd platform g ms = gen_group_cmd "Panorama".data g ms := by
  refine ⟨by rw [gen_address_cmd, if_neg h], ?_⟩
  unfold gen_group_cmd
  rw [if_neg h, if_neg (by decide)]

/-- Witness for `C10_platform_dispatch` at the arbitrary platform string
`"Bogus"`. -/
theorem C10_witness :
    gen_address_cmd "Bogus".data "n".data "1.2.3.4/32".data =
      "set shared address ".data ++ "n".data ++ " ip-netmask ".data ++ "1.2.3.4/32".data ∧
    gen_group_cmd "Bogus".data "g".data ["m".data] =
      gen_group_cmd "Panorama".data "g".data ["m".data] :=
  C10_platform_dispatch "Bogus".data "n".data "1.2.3.4/32".data "g".data ["m".data]
    (by decide)

end AddressCmdTool
